import Mathlib

/-!
# Base45 codec (Dasio/base45): a shallow embedding of `base45.go`

Byte slices are lists of bytes; a function that writes into a destination
slice takes the slice and returns its new content.  A result of `none` stands
for a run that does not return normally: an index or slice expression out of
range (a run-time panic in Go), or a loop that used up its iteration budget.
-/

namespace Base45

/-- A Go `byte`. -/
abbrev Byte := Fin 256

/-- Conversion `byte(x)` of a non-negative integer: truncation to 8 bits. -/
def toByte (x : Nat) : Byte := ⟨x % 256, Nat.mod_lt _ (by decide)⟩

/-- The bytes of an ASCII string constant (`[]byte(s)`). -/
def asciiBytes (s : String) : List Byte := s.toList.map (fun c => toByte c.toNat)

def baseSize : Nat := 45

/-- The alphabet, `const encode`. -/
def encode : List Byte := asciiBytes "0123456789ABCDEFGHIJKLMNOPQRSTUVWXYZ $%*+-./:"

def chunkSize : Nat := 2

def encodedChunkSize : Nat := 3

/-- The table `var decodeMap = [256]byte{...}`, row by row as in the source. -/
def decodeMap : List Byte := [
  255, 255, 255, 255, 255, 255, 255, 255, 255, 255, 255, 255, 255, 255, 255, 255, 255, 255, 255, 255, 255, 255, 255,
  255, 255, 255, 255, 255, 255, 255, 255, 255, 36, 255, 255, 255, 37, 38, 255, 255, 255, 255, 39, 40, 255, 41, 42, 43,
  0, 1, 2, 3, 4, 5, 6, 7, 8, 9, 44, 255, 255, 255, 255, 255, 255, 10, 11, 12, 13, 14, 15, 16, 17, 18, 19, 20, 21, 22,
  23, 24, 25, 26, 27, 28, 29, 30, 31, 32, 33, 34, 35, 255, 255, 255, 255, 255, 255, 255, 255, 255, 255, 255, 255, 255,
  255, 255, 255, 255, 255, 255, 255, 255, 255, 255, 255, 255, 255, 255, 255, 255, 255, 255, 255, 255, 255, 255, 255,
  255, 255, 255, 255, 255, 255, 255, 255, 255, 255, 255, 255, 255, 255, 255, 255, 255, 255, 255, 255, 255, 255, 255,
  255, 255, 255, 255, 255, 255, 255, 255, 255, 255, 255, 255, 255, 255, 255, 255, 255, 255, 255, 255, 255, 255, 255,
  255, 255, 255, 255, 255, 255, 255, 255, 255, 255, 255, 255, 255, 255, 255, 255, 255, 255, 255, 255, 255, 255, 255,
  255, 255, 255, 255, 255, 255, 255, 255, 255, 255, 255, 255, 255, 255, 255, 255, 255, 255, 255, 255, 255, 255, 255,
  255, 255, 255, 255, 255, 255, 255, 255, 255, 255, 255, 255, 255, 255, 255, 255, 255, 255, 255, 255, 255, 255, 255,
  255, 255, 255, 255, 255, 255, 255, 255, 255, 255, 255, 255, 255, 255]

/-- The assignment `a[i] = v`, with its bounds check. -/
def store (a : List Byte) (i : Nat) (v : Byte) : Option (List Byte) :=
  if i < a.length then some (a.set i v) else none

/-- The loop `for si < n` of `Encode`; the first argument bounds the number
of times the loop condition is tested. -/
def Encode.loop (src : List Byte) (n : Nat) :
    Nat → List Byte → Nat → Nat → Option (List Byte × Nat × Nat)
  | 0, _, _, _ => none
  | fuel + 1, dst, di, si =>
    if si < n then do
      let s0 ← src[si + 0]?
      let s1 ← src[si + 1]?
      let val := (s0.val <<< 8) ||| s1.val
      let c0 ← encode[val % baseSize]?
      let dst ← store dst (di + 0) c0
      let c1 ← encode[(val / baseSize) % baseSize]?
      let dst ← store dst (di + 1) c1
      let c2 ← encode[(val / (baseSize * baseSize)) % baseSize]?
      let dst ← store dst (di + 2) c2
      Encode.loop src n fuel dst (di + encodedChunkSize) (si + chunkSize)
    else some (dst, di, si)

/-- The function `Encode(dst, src)`: the new content of `dst`. -/
def Encode (dst src : List Byte) : Option (List Byte) :=
  if src.length = 0 then some dst
  else do
    let n := (src.length / chunkSize) * chunkSize
    let (dst, di, si) ← Encode.loop src n (src.length + 1) dst 0 0
    if src.length - si = 0 then some dst
    else do
      let s ← src[si]?
      let val := s.val
      let c0 ← encode[val % baseSize]?
      let dst ← store dst (di + 0) c0
      let c1 ← encode[(val / baseSize) % baseSize]?
      store dst (di + 1) c1

def EncodedLen (n : Nat) : Nat :=
  let res := n / chunkSize * encodedChunkSize
  if n % chunkSize ≠ 0 then res + 2 else res

/-- The function `EncodeToString(src)`; `make` gives a zeroed buffer. -/
def EncodeToString (src : List Byte) : Option (List Byte) :=
  let buf := List.replicate (EncodedLen src.length) (0 : Byte)
  Encode buf src

def DecodedLen (n : Nat) : Nat :=
  let res := n / encodedChunkSize * chunkSize
  if n % encodedChunkSize ≠ 0 then res + 1 else res

/-- Go error values that occur in the package: its own `CorruptInputError`,
the two `io` sentinels the decoder uses, and any other error of a sink or a
source, told apart by a code. -/
inductive Error
  | CorruptInputError (offset : Int)
  | EOF
  | ErrUnexpectedEOF
  | other (code : Nat)
  deriving DecidableEq, Repr

/-- How the `for j` loop of `decodeTriplet` ends: by a `return` inside the
loop, or by leaving the loop (condition false, or `break`). -/
inductive Scan
  | ret (nsi n : Nat) (err : Option Error)
  | out (si dlen : Nat) (dbuf : List Byte)
  deriving DecidableEq, Repr

/-- The loop `for j := 0; j < len(dbuf); j++` of `decodeTriplet`; the first
argument is `len(dbuf) - j`, the number of iterations left. -/
def decodeTriplet.scan (src : List Byte) :
    Nat → Nat → Nat → Nat → List Byte → Option Scan
  | 0, _, si, dlen, dbuf => some (Scan.out si dlen dbuf)
  | k + 1, j, si, dlen, dbuf =>
    if src.length = si then
      if j = 0 then some (Scan.ret si 0 none)
      else if j = 1 then
        some (Scan.ret si 0 (some (Error.CorruptInputError ((si : Int) - (j : Int)))))
      else some (Scan.out si j dbuf)
    else do
      let c ← src[si]?
      let si := si + 1
      let o ← decodeMap[c.val]?
      if o = 0xFF then
        some (Scan.ret si 0 (some (Error.CorruptInputError ((si : Int) - (j : Int)))))
      else do
        let dbuf ← store dbuf j o
        decodeTriplet.scan src k (j + 1) si dlen dbuf

/-- The function `decodeTriplet(dst, src, si)`: the new content of `dst`,
then `nsi`, `n` and `err`. -/
def decodeTriplet (dst src : List Byte) (si : Nat) :
    Option (List Byte × Nat × Nat × Option Error) := do
  match ← decodeTriplet.scan src 3 0 si 3 [0, 0, 0] with
  | Scan.ret nsi n err => some (dst, nsi, n, err)
  | Scan.out si dlen dbuf =>
    let d0 ← dbuf[0]?
    let d1 ← dbuf[1]?
    let d2 ← dbuf[2]?
    let val := d0.val + baseSize * d1.val + baseSize * baseSize * d2.val
    let err := if val > 0xFFFF then some (Error.CorruptInputError (si : Int)) else none
    let dst ←
      if dlen = 3 then do
        let dst ← store dst 0 (toByte (val / 256))
        store dst 1 (toByte (val % 256))
      else if dlen = 2 then store dst 0 (toByte (val % 256))
      else some dst
    some (dst, si, dlen - 1, err)

/-- The slice expression `a[n:]`, with its bounds check. -/
def sliceFrom (a : List Byte) (n : Nat) : Option (List Byte) :=
  if n ≤ a.length then some (a.drop n) else none

/-- One iteration of either loop of `Decode`: the call
`si, ninc, err = decodeTriplet(dst[n:], src, si)` and `n += ninc`. -/
def Decode.step (src dst : List Byte) (n si : Nat) :
    Option (List Byte × Nat × Nat × Option Error) := do
  let view ← sliceFrom dst n
  let (view, si, ninc, err) ← decodeTriplet view src si
  some (dst.take n ++ view, n + ninc, si, err)

/-- The first loop of `Decode`.  The result holds `dst`, `n`, `si` and `err`;
`err` is not nil exactly when the function returns from inside the loop. -/
def Decode.loop1 (src : List Byte) :
    Nat → List Byte → Nat → Nat → Option (List Byte × Nat × Nat × Option Error)
  | 0, _, _, _ => none
  | fuel + 1, dst, n, si =>
    if src.length - si ≥ encodedChunkSize ∧ dst.length - n ≥ encodedChunkSize then do
      let (dst, n, si, err) ← Decode.step src dst n si
      if err ≠ none then some (dst, n, si, err)
      else Decode.loop1 src fuel dst n si
    else some (dst, n, si, none)

/-- The second loop of `Decode`, `for si < len(src)`. -/
def Decode.loop2 (src : List Byte) :
    Nat → List Byte → Nat → Nat → Option (List Byte × Nat × Nat × Option Error)
  | 0, _, _, _ => none
  | fuel + 1, dst, n, si =>
    if si < src.length then do
      let (dst, n, si, err) ← Decode.step src dst n si
      if err ≠ none then some (dst, n, si, err)
      else Decode.loop2 src fuel dst n si
    else some (dst, n, si, none)

/-- The function `Decode(dst, src)`: the new content of `dst`, then `n` and
`err`. -/
def Decode (dst src : List Byte) : Option (List Byte × Nat × Option Error) :=
  if src.length = 0 then some (dst, 0, none)
  else do
    let (dst, n, si, err) ← Decode.loop1 src (src.length + 1) dst 0 0
    if err ≠ none then some (dst, n, err)
    else do
      let (dst, n, _, err) ← Decode.loop2 src (src.length + 1) dst n si
      some (dst, n, err)

/-- The slice expression `a[:n]`, with its bounds check. -/
def sliceTo (a : List Byte) (n : Nat) : Option (List Byte) :=
  if n ≤ a.length then some (a.take n) else none

/-- The function `DecodeString(s)`. -/
def DecodeString (s : List Byte) : Option (List Byte × Option Error) := do
  let dbuf := List.replicate (DecodedLen s.length) (0 : Byte)
  let (dbuf, n, err) ← Decode dbuf s
  let r ← sliceTo dbuf n
  some (r, err)


/-! ## The stream encoder -/

/-- An `io.Writer` over sink states `σ`: `Write` takes the state of the sink
and the bytes to write and gives the new state, the count and the error. -/
structure Writer (σ : Type) where
  Write : σ → List Byte → σ × Nat × Option Error

/-- The struct `encoder`; `w` is the state of the sink. -/
structure encoder (σ : Type) where
  err : Option Error
  w : σ
  buf : List Byte
  nbuf : Nat
  out : List Byte

/-- The function `NewEncoder(w)`: `&encoder{w: w}`, the arrays `buf` and `out`
zeroed with lengths `chunkSize` and 1024. -/
def NewEncoder {σ : Type} (w : σ) : encoder σ :=
  { err := none, w := w, buf := List.replicate chunkSize 0, nbuf := 0,
    out := List.replicate 1024 0 }

/-- The loop of the leading fringe of `Write`,
`for i = 0; i < len(p) && e.nbuf < chunkSize; i++`: the new `buf`, `nbuf`, `i`. -/
def encoder.Write.leading (p : List Byte) :
    Nat → List Byte → Nat → Nat → Option (List Byte × Nat × Nat)
  | 0, _, _, _ => none
  | fuel + 1, buf, nbuf, i =>
    if i < p.length ∧ nbuf < chunkSize then do
      let x ← p[i]?
      let buf ← store buf nbuf x
      encoder.Write.leading p fuel buf (nbuf + 1) (i + 1)
    else some (buf, nbuf, i)

/-- The loop `for len(p) >= chunkSize` of `Write`.  `Sum.inl` is a `return`
from inside the loop with the encoder, `n` and `err`; `Sum.inr` is the state
(encoder, `p`, `n`) when the loop is left. -/
def encoder.Write.interior {σ : Type} (W : Writer σ) :
    Nat → encoder σ → List Byte → Nat →
      Option ((encoder σ × Nat × Option Error) ⊕ (encoder σ × List Byte × Nat))
  | 0, _, _, _ => none
  | fuel + 1, e, p, n =>
    if p.length ≥ chunkSize then do
      let nn := e.out.length / encodedChunkSize * chunkSize
      let nn := if nn > p.length then p.length - p.length % chunkSize else nn
      let src ← sliceTo p nn
      let out ← Encode e.out src
      let chunk ← sliceTo out (nn / chunkSize * encodedChunkSize)
      let (w, _, err) := W.Write e.w chunk
      let e := { e with out := out, w := w, err := err }
      if err ≠ none then some (Sum.inl (e, n, err))
      else do
        let p ← sliceFrom p nn
        encoder.Write.interior W fuel e p (n + nn)
    else some (Sum.inr (e, p, n))

/-- The loop of the trailing fringe of `Write`,
`for i := 0; i < len(p); i++ { e.buf[i] = p[i] }`: the new `buf`. -/
def encoder.Write.trailing (p : List Byte) : Nat → List Byte → Nat → Option (List Byte)
  | 0, _, _ => none
  | fuel + 1, buf, i =>
    if i < p.length then do
      let x ← p[i]?
      let buf ← store buf i x
      encoder.Write.trailing p fuel buf (i + 1)
    else some buf

/-- The leading fringe of `Write`, the block `if e.nbuf > 0 { ... }`.
`Sum.inl` is a `return` from inside the block. -/
def encoder.Write.fringe {σ : Type} (W : Writer σ) (e : encoder σ) (p : List Byte) :
    Option ((encoder σ × Nat × Option Error) ⊕ (encoder σ × List Byte × Nat)) :=
  if e.nbuf > 0 then do
    let (buf, nbuf, i) ← encoder.Write.leading p (p.length + 1) e.buf e.nbuf 0
    let e := { e with buf := buf, nbuf := nbuf }
    let n := 0 + i
    let p ← sliceFrom p i
    if e.nbuf < chunkSize then some (Sum.inl (e, n, none))
    else do
      let out ← Encode e.out e.buf
      let chunk ← sliceTo out encodedChunkSize
      let (w, _, err) := W.Write e.w chunk
      let e := { e with out := out, w := w, err := err }
      if err ≠ none then some (Sum.inl (e, n, err))
      else some (Sum.inr ({ e with nbuf := 0 }, p, n))
  else some (Sum.inr (e, p, 0))

/-- The method `(e *encoder) Write(p)`: the new encoder, `n` and `err`. -/
def encoder.Write {σ : Type} (W : Writer σ) (e : encoder σ) (p : List Byte) :
    Option (encoder σ × Nat × Option Error) :=
  if e.err ≠ none then some (e, 0, e.err)
  else do
    match ← encoder.Write.fringe W e p with
    | Sum.inl r => some r
    | Sum.inr (e, p, n) =>
      match ← encoder.Write.interior W (p.length + 1) e p n with
      | Sum.inl r => some r
      | Sum.inr (e, p, n) =>
        let buf ← encoder.Write.trailing p (p.length + 1) e.buf 0
        some ({ e with buf := buf, nbuf := p.length }, n + p.length, none)

/-- The method `(e *encoder) Close()`: the new encoder and the error. -/
def encoder.Close {σ : Type} (W : Writer σ) (e : encoder σ) :
    Option (encoder σ × Option Error) :=
  if e.err = none ∧ e.nbuf > 0 then do
    let src ← sliceTo e.buf e.nbuf
    let out ← Encode e.out src
    let chunk ← sliceTo out (EncodedLen e.nbuf)
    let (w, _, err) := W.Write e.w chunk
    some ({ e with out := out, w := w, err := err, nbuf := 0 }, err)
  else some (e, e.err)

/-- A sequence of `Write` calls, one for each piece, results ignored as in
`TestEncoder`. -/
def encoder.WriteAll {σ : Type} (W : Writer σ) : encoder σ → List (List Byte) → Option (encoder σ)
  | e, [] => some e
  | e, p :: ps => do
    let (e, _, _) ← encoder.Write W e p
    encoder.WriteAll W e ps

/-- The sink of the tests, a `bytes.Buffer`: `Write` appends and never fails. -/
def bytesBuffer : Writer (List Byte) :=
  { Write := fun s p => (s ++ p, p.length, none) }

/-! ## The stream decoder -/

/-- An `io.Reader` over source states `ρ`: `Read` takes the state of the
source and the length of the slice to fill and gives the new state, the bytes
it stored at the front of the slice (their number is the count) and the
error. -/
structure Reader (ρ : Type) where
  Read : ρ → Nat → ρ × List Byte × Option Error

/-- The struct `decoder`; `r` is the state of the source, and `out`, a slice
of `outbuf`, is kept as its bounds: `d.out = d.outbuf[out.1 : out.2]`. -/
structure decoder (ρ : Type) where
  err : Option Error
  readErr : Option Error
  r : ρ
  buf : List Byte
  nbuf : Nat
  out : Nat × Nat
  outbuf : List Byte

/-- The function `NewDecoder(r)`: `&decoder{r: r}`, the arrays zeroed with
lengths 1024 and `1024 / encodedChunkSize * chunkSize`, `out` nil. -/
def NewDecoder {ρ : Type} (r : ρ) : decoder ρ :=
  { err := none, readErr := none, r := r, buf := List.replicate 1024 0, nbuf := 0,
    out := (0, 0), outbuf := List.replicate (1024 / encodedChunkSize * chunkSize) 0 }

/-- The built-in `copy(dst, src)`: the new content of `dst` and the count. -/
def copy (dst src : List Byte) : List Byte × Nat :=
  (src.take (min dst.length src.length) ++ dst.drop (min dst.length src.length),
    min dst.length src.length)

/-- The slice expression `a[lo:hi]`, with its bounds check. -/
def slice (a : List Byte) (lo hi : Nat) : Option (List Byte) :=
  if lo ≤ hi ∧ hi ≤ a.length then some ((a.take hi).drop lo) else none

/-- The two statements `n = copy(p, d.out)` and `d.out = d.out[n:]`. -/
def decoder.deliver {ρ : Type} (d : decoder ρ) (p : List Byte) :
    Option (decoder ρ × List Byte × Nat) := do
  let o ← slice d.outbuf d.out.1 d.out.2
  let (p, n) := copy p o
  if n ≤ d.out.2 - d.out.1 then some ({ d with out := (d.out.1 + n, d.out.2) }, p, n)
  else none

/-- The loop `for d.nbuf < encodedChunkSize && d.readErr == nil` of `Read`,
for a destination of length `plen`. -/
def decoder.Read.refill {ρ : Type} (R : Reader ρ) (plen : Nat) :
    Nat → decoder ρ → Option (decoder ρ)
  | 0, _ => none
  | fuel + 1, d =>
    if d.nbuf < encodedChunkSize ∧ d.readErr = none then do
      let nn := plen / chunkSize * encodedChunkSize
      let nn := if nn < encodedChunkSize then encodedChunkSize else nn
      let nn := if nn > d.buf.length then d.buf.length else nn
      let _ ← slice d.buf d.nbuf nn
      let (r, data, err) := R.Read d.r (nn - d.nbuf)
      if data.length > nn - d.nbuf then none
      else
        let buf := d.buf.take d.nbuf ++ (data ++ d.buf.drop (d.nbuf + data.length))
        decoder.Read.refill R plen fuel
          { d with r := r, readErr := err, buf := buf, nbuf := d.nbuf + data.length }
    else some d

/-- The block `if d.nbuf < encodedChunkSize { ... }` of `Read`, which always
returns: the new decoder, the new content of `p`, `n` and `err`. -/
def decoder.Read.final {ρ : Type} (d : decoder ρ) (p : List Byte) :
    Option (decoder ρ × List Byte × Nat × Option Error) := do
  let last (d : decoder ρ) (p : List Byte) : decoder ρ × List Byte × Nat × Option Error :=
    let d := { d with err := d.readErr }
    let d := if d.err = some Error.EOF ∧ d.nbuf > 0 then
      { d with err := some Error.ErrUnexpectedEOF } else d
    (d, p, 0, d.err)
  if d.nbuf > 0 then do
    let src ← sliceTo d.buf d.nbuf
    let (outbuf, nw, err) ← Decode d.outbuf src
    let d := { d with outbuf := outbuf, err := err, nbuf := 0 }
    let _ ← sliceTo d.outbuf nw
    let d := { d with out := (0, nw) }
    let (d, p', n) ← decoder.deliver d p
    if n > 0 ∨ (p.length = 0 ∧ d.out.2 - d.out.1 > 0) then some (d, p', n, none)
    else if d.err ≠ none then some (d, p', 0, d.err)
    else some (last d p')
  else some (last d p)

/-- The statement `if nw > len(p) { ... } else { ... }` of `Read`: decode the
chunk `d.buf[:nr]` into `p`, or into `d.outbuf` and then `p` if `p` is too
small.  The new decoder, the new content of `p` and `n`. -/
def decoder.Read.decodeChunk {ρ : Type} (d : decoder ρ) (p : List Byte) (nr nw : Nat) :
    Option (decoder ρ × List Byte × Nat) :=
  if nw > p.length then do
    let src ← sliceTo d.buf nr
    let (outbuf, nw, err) ← Decode d.outbuf src
    let d := { d with outbuf := outbuf, err := err }
    let _ ← sliceTo d.outbuf nw
    let d := { d with out := (0, nw) }
    decoder.deliver d p
  else do
    let src ← sliceTo d.buf nr
    let (p, n, err) ← Decode p src
    some ({ d with err := err }, p, n)

/-- The two statements `d.nbuf -= nr` and `copy(d.buf[:d.nbuf], d.buf[nr:])`
of `Read`. -/
def decoder.Read.shift {ρ : Type} (d : decoder ρ) (nr : Nat) : Option (decoder ρ) := do
  let d := { d with nbuf := d.nbuf - nr }
  let head ← sliceTo d.buf d.nbuf
  let tail ← sliceFrom d.buf nr
  some { d with buf := (copy head tail).1 ++ d.buf.drop d.nbuf }

/-- The rest of `Read`, from `nr := d.nbuf` on. -/
def decoder.Read.chunk {ρ : Type} (d : decoder ρ) (p : List Byte) :
    Option (decoder ρ × List Byte × Nat × Option Error) := do
  let nr := d.nbuf
  let nw := DecodedLen d.nbuf
  let nr := if nr % encodedChunkSize = 1 then nr - 1 else nr
  let (d, p, n) ← decoder.Read.decodeChunk d p nr nw
  let d ← decoder.Read.shift d nr
  some (d, p, n, d.err)

/-- The method `(d *decoder) Read(p)`: the new decoder, the new content of
`p`, `n` and `err`.  `fuel` bounds the number of times the condition of the
refill loop is tested (the loop does not end while the source returns no byte
and no error). -/
def decoder.Read {ρ : Type} (R : Reader ρ) (fuel : Nat) (d : decoder ρ) (p : List Byte) :
    Option (decoder ρ × List Byte × Nat × Option Error) :=
  if d.out.2 - d.out.1 > 0 then do
    let (d, p, n) ← decoder.deliver d p
    some (d, p, n, none)
  else if d.err ≠ none then some (d, p, 0, d.err)
  else do
    let d ← decoder.Read.refill R p.length fuel d
    if d.nbuf < encodedChunkSize then decoder.Read.final d p
    else decoder.Read.chunk d p

/-- Successive `Read` calls, one for each destination buffer, up to the first
error: the bytes delivered (`p[:n]` of each call, in order) and the last
error. -/
def decoder.ReadSeq {ρ : Type} (R : Reader ρ) (fuel : Nat) :
    decoder ρ → List (List Byte) → Option (List Byte × Option Error)
  | _, [] => some ([], none)
  | d, p :: ps => do
    let (d, p, n, err) ← decoder.Read R fuel d p
    let got ← sliceTo p n
    if err ≠ none then some (got, err)
    else do
      let (rest, err) ← decoder.ReadSeq R fuel d ps
      some (got ++ rest, err)

/-- The source of the tests, a `strings.Reader` over the bytes not yet read:
`Read` gives `min(requested, remaining)` bytes and no error while bytes
remain, and `(0, io.EOF)` afterwards. -/
def stringsReader : Reader (List Byte) :=
  { Read := fun s m => if s.length = 0 then (s, [], some Error.EOF) else (s.drop m, s.take m, none) }

/-! ## Functions used to state what the code computes -/

/-- The character of the alphabet with value `i`. -/
def alpha (i : Nat) : Byte := encode.getD i 0

/-- The value the decode table gives a byte (255 when it is not in the alphabet). -/
def dm (c : Byte) : Byte := decodeMap.getD c.val 255

/-- The three characters of a full block. -/
def encPair (a b : Byte) : List Byte :=
  let val := 256 * a.val + b.val
  [alpha (val % baseSize), alpha ((val / baseSize) % baseSize),
    alpha ((val / (baseSize * baseSize)) % baseSize)]

/-- The two characters of a short block. -/
def encOne (a : Byte) : List Byte :=
  [alpha (a.val % baseSize), alpha ((a.val / baseSize) % baseSize)]

/-- The encoding of a byte sequence, block by block. -/
def enc : List Byte → List Byte
  | a :: b :: rest => encPair a b ++ enc rest
  | [a] => encOne a
  | [] => []

/-- The value `dbuf[0] + 45*dbuf[1] + 45*45*dbuf[2]` of a block of characters. -/
def blockVal (c0 c1 c2 : Byte) : Nat :=
  (dm c0).val + baseSize * (dm c1).val + baseSize * baseSize * (dm c2).val

/-- The value `dbuf[0] + 45*dbuf[1]` of a short block. -/
def shortVal (c0 c1 : Byte) : Nat := (dm c0).val + baseSize * (dm c1).val

/-- What one call of `decodeTriplet` makes of the characters left at offset
`off`: the bytes it writes and the error it returns. -/
def decBlock (off : Nat) : List Byte → List Byte × Option Error
  | [] => ([], none)
  | [c0] =>
    ([], some (Error.CorruptInputError (if dm c0 = 255 then (off : Int) + 1 else (off : Int))))
  | [c0, c1] =>
    if dm c0 = 255 ∨ dm c1 = 255 then ([], some (Error.CorruptInputError ((off : Int) + 1)))
    else ([toByte (shortVal c0 c1 % 256)], none)
  | c0 :: c1 :: c2 :: _ =>
    if dm c0 = 255 ∨ dm c1 = 255 ∨ dm c2 = 255 then
      ([], some (Error.CorruptInputError ((off : Int) + 1)))
    else
      ([toByte (blockVal c0 c1 c2 / 256), toByte (blockVal c0 c1 c2 % 256)],
        if blockVal c0 c1 c2 > 0xFFFF then some (Error.CorruptInputError ((off : Int) + 3))
        else none)

/-- What `Decode` makes of the characters left at offset `off`: the bytes it
writes and the error it returns. -/
def dec (off : Nat) : List Byte → List Byte × Option Error
  | c0 :: c1 :: c2 :: rest =>
    let r := decBlock off [c0, c1, c2]
    if r.2 ≠ none then r
    else
      let t := dec (off + 3) rest
      (r.1 ++ t.1, t.2)
  | short => decBlock off short

/-- The result of `Decode` when it starts at offset `off` with the characters
`rest` left to read, `done` already written and `free` still free in `dst`:
the content of `dst`, the count and the error. -/
def decodeResult (off : Nat) (rest done free : List Byte) :
    List Byte × Nat × Option Error :=
  (done ++ ((dec off rest).1 ++ free.drop (dec off rest).1.length),
    done.length + (dec off rest).1.length, (dec off rest).2)

/-- The value of the `k`-th complete 3-character block of `src`. -/
def blockAt (src : List Byte) (k : Nat) : Nat :=
  blockVal (src.getD (3 * k) 0) (src.getD (3 * k + 1) 0) (src.getD (3 * k + 2) 0)

/-- The state of an encoder that has been given the bytes `c` and has not
failed: the sink holds the encoding of the whole 2-byte blocks of `c`, and the
odd byte left, if any, waits in `buf`. -/
def encInv {σ : Type} (held : σ → List Byte) (e : encoder σ) (c : List Byte) : Prop :=
  e.err = none ∧ e.buf.length = 2 ∧ e.out.length = 1024 ∧ e.nbuf ≤ 1 ∧
    ∃ done, c = done ++ e.buf.take e.nbuf ∧ done.length % 2 = 0 ∧ held e.w = enc done

/-- A source that holds a text: while bytes remain (`rem`), a read of `m`
bytes returns the first `min m remaining` of them and no error, and
afterwards it returns no byte and `io.EOF`. -/
def holdsText {ρ : Type} (R : Reader ρ) (rem : ρ → List Byte) : Prop :=
  ∀ s m,
    (rem s = [] → (R.Read s m).2 = ([], some Error.EOF) ∧ rem (R.Read s m).1 = []) ∧
    (rem s ≠ [] →
      (R.Read s m).2 = ((rem s).take m, none) ∧ rem (R.Read s m).1 = (rem s).drop m)

/-- The bytes of `d.out`, the decoded output not yet delivered. -/
def decoder.leftover {ρ : Type} (d : decoder ρ) : List Byte :=
  (d.outbuf.take d.out.2).drop d.out.1

/-- The state of a decoder over a source that holds a valid text, with the
bytes `left` still to deliver: they are the leftover output followed by the
bytes whose encoding is the text not yet decoded (carried in `buf` or still in
the source). -/
def decInv {ρ : Type} (rem : ρ → List Byte) (d : decoder ρ) (left : List Byte) : Prop :=
  d.buf.length = 1024 ∧ d.outbuf.length = 682 ∧ d.nbuf ≤ 1 ∧
  d.out.1 ≤ d.out.2 ∧ d.out.2 ≤ 682 ∧
  (d.readErr = none ∨ (d.readErr = some Error.EOF ∧ rem d.r = [])) ∧
  (d.err = none ∨ (d.err = some Error.EOF ∧ left = [])) ∧
  ∃ b', left = d.leftover ++ b' ∧ d.buf.take d.nbuf ++ rem d.r = enc b'

/-- The bound `nn` of the slice `d.buf[d.nbuf:nn]` that the refill loop of
`Read` hands to the source, for a destination of length `plen`. -/
def refillLen (plen buflen : Nat) : Nat :=
  let nn := plen / chunkSize * encodedChunkSize
  let nn := if nn < encodedChunkSize then encodedChunkSize else nn
  if nn > buflen then buflen else nn


/-! ## Further sinks and sources, and predicates on the states of the streams -/

/-- A sink of limited capacity, to stand for a sink that fails: the state is
the bytes accepted so far and the first error the sink has returned; a write
that would take it beyond `cap` bytes accepts nothing and returns the error
`x`. -/
def limitedBuffer (cap : Nat) (x : Error) : Writer (List Byte × Option Error) :=
  { Write := fun s p =>
      if s.1.length + p.length ≤ cap then ((s.1 ++ p, s.2), p.length, none)
      else ((s.1, if s.2 = none then some x else s.2), 0, some x) }

/-- The arrays of an encoder have their declared lengths, and at most one
byte is pending while the encoder has not failed. -/
def encoder.sound {σ : Type} (e : encoder σ) : Prop :=
  e.buf.length = 2 ∧ e.out.length = 1024 ∧ (e.err = none → e.nbuf ≤ 1)

/-- A source that hands out a text in pieces of at most `k` bytes: while
bytes remain a read returns the first `min k requested` of them and no error,
and afterwards it returns no byte and `io.EOF`. -/
def chunkedReader (k : Nat) : Reader (List Byte) :=
  { Read := fun s m =>
      if s.length = 0 then (s, [], some Error.EOF)
      else (s.drop (min k m), s.take (min k m), none) }

/-- Successive `Read` calls, one for each destination buffer, that go on after
an error: the count and the error of each call, in order. -/
def decoder.ReadLog {ρ : Type} (R : Reader ρ) (fuel : Nat) :
    decoder ρ → List (List Byte) → Option (List (Nat × Option Error))
  | _, [] => some []
  | d, p :: ps => do
    let (d, _, n, err) ← decoder.Read R fuel d p
    let rest ← decoder.ReadLog R fuel d ps
    some ((n, err) :: rest)

/-- The arrays of a decoder have their declared lengths, at most one
character is carried from one `Read` to the next, and `d.out` is a window of
`d.outbuf`. -/
def decoder.sound {ρ : Type} (d : decoder ρ) : Prop :=
  d.buf.length = 1024 ∧ d.outbuf.length = 682 ∧ d.nbuf ≤ 1 ∧
    d.out.1 ≤ d.out.2 ∧ d.out.2 ≤ 682

/-- One pass of the body of the refill loop of `Read`, for a destination of
length `plen`: the source is asked for `d.buf[d.nbuf:nn]` and what it returns
is stored and counted. -/
def decoder.Read.refillBody {ρ : Type} (R : Reader ρ) (plen : Nat) (d : decoder ρ) :
    decoder ρ :=
  { d with r := (R.Read d.r (refillLen plen d.buf.length - d.nbuf)).1,
           readErr := (R.Read d.r (refillLen plen d.buf.length - d.nbuf)).2.2,
           buf := d.buf.take d.nbuf ++
             ((R.Read d.r (refillLen plen d.buf.length - d.nbuf)).2.1 ++
               d.buf.drop (d.nbuf
                 + (R.Read d.r (refillLen plen d.buf.length - d.nbuf)).2.1.length)),
           nbuf := d.nbuf + (R.Read d.r (refillLen plen d.buf.length - d.nbuf)).2.1.length }

/-- The refill loop of `Read` is still running after `k` tests of its
condition: each of them found fewer than 3 characters buffered and no error
from the source. -/
def decoder.Read.running {ρ : Type} (R : Reader ρ) (plen : Nat) : Nat → decoder ρ → Bool
  | 0, _ => true
  | k + 1, d =>
    decide (d.nbuf < encodedChunkSize ∧ d.readErr = none)
      && decoder.Read.running R plen k (decoder.Read.refillBody R plen d)

/-- The lengths of the destination and of the source of the call of `Decode`
that `Read` makes when the refill loop has left the decoder `d`, if it makes
one. -/
def decoder.Read.decodeCall {ρ : Type} (d : decoder ρ) (p : List Byte) : Option (Nat × Nat) :=
  if d.nbuf < encodedChunkSize then
    if d.nbuf > 0 then some (d.outbuf.length, d.nbuf) else none
  else
    let nr := if d.nbuf % encodedChunkSize = 1 then d.nbuf - 1 else d.nbuf
    if DecodedLen d.nbuf > p.length then some (d.outbuf.length, nr) else some (p.length, nr)

/-- The state of a decoder over a source that holds a valid text of whole
3-character blocks followed by one dangling character `c`, with the bytes
`left` still to deliver and no error so far: they are the leftover output
followed by the bytes whose encoding, together with `c`, is the text not yet
decoded. -/
def decInvD {ρ : Type} (rem : ρ → List Byte) (c : Byte) (d : decoder ρ) (left : List Byte) :
    Prop :=
  d.buf.length = 1024 ∧ d.outbuf.length = 682 ∧ d.nbuf ≤ 1 ∧
  d.out.1 ≤ d.out.2 ∧ d.out.2 ≤ 682 ∧
  (d.readErr = none ∨ (d.readErr = some Error.EOF ∧ rem d.r = [])) ∧
  d.err = none ∧
  ∃ b', b'.length % 2 = 0 ∧ left = d.leftover ++ b' ∧
    d.buf.take d.nbuf ++ rem d.r = enc b' ++ [c]

/-- The error that the stream decoder returns for a dangling character `c`:
`decodeTriplet` is given the character alone, at offset 0. -/
def danglingError (c : Byte) : Error :=
  Error.CorruptInputError (if dm c = 255 then 1 else 0)

/-! ## Elementary facts about slices and the two tables -/

theorem getElem?_at {α : Type} (pre : List α) (a : α) (post : List α) (i : Nat)
    (hi : i = pre.length) : (pre ++ a :: post)[i]? = some a := by
  subst hi
  rw [List.getElem?_append_right (Nat.le_refl _)]
  simp

theorem store_at (pre : List Byte) (x : Byte) (post : List Byte) (v : Byte) (i : Nat)
    (hi : i = pre.length) :
    store (pre ++ x :: post) i v = some (pre ++ v :: post) := by
  subst hi
  simp [store]

theorem encode_length : encode.length = 45 := by decide

theorem encode_get (v : Nat) : encode[v % baseSize]? = some (alpha (v % baseSize)) := by
  have h : v % baseSize < encode.length := by
    rw [encode_length]; exact Nat.mod_lt _ (by decide)
  rw [List.getElem?_eq_getElem h, alpha, List.getD_eq_getElem _ _ h]

set_option maxRecDepth 100000 in
theorem decodeMap_length : decodeMap.length = 256 := by decide

theorem decodeMap_get (c : Byte) : decodeMap[c.val]? = some (dm c) := by
  have h : c.val < decodeMap.length := by rw [decodeMap_length]; exact c.isLt
  rw [List.getElem?_eq_getElem h, dm, List.getD_eq_getElem _ _ h]

set_option maxRecDepth 100000 in
theorem dm_alpha_fin : ∀ i : Fin 45, (dm (alpha i.val)).val = i.val := by decide

theorem dm_alpha (i : Nat) (h : i < 45) : (dm (alpha i)).val = i := dm_alpha_fin ⟨i, h⟩

set_option maxRecDepth 1000000 in
theorem mem_encode_iff : ∀ c : Byte, c ∈ encode ↔ dm c ≠ 255 := by decide

theorem shift_or (a b : Byte) : (a.val <<< 8) ||| b.val = 256 * a.val + b.val := by
  have h : b.val < 2 ^ 8 := b.isLt
  rw [Nat.shiftLeft_eq, Nat.mul_comm, Nat.mul_add_lt_is_or h]

/-! ## What `Encode` computes -/

theorem Encode.loop_spec (src : List Byte) (n : Nat) (m : Nat) :
    ∀ (fuel : Nat) (pre mid post spre pairs spost : List Byte),
      m < fuel → mid.length = 3 * m → pairs.length = 2 * m →
      src = spre ++ (pairs ++ spost) → n = spre.length + 2 * m →
      Encode.loop src n fuel (pre ++ (mid ++ post)) pre.length spre.length
        = some (pre ++ (enc pairs ++ post), pre.length + 3 * m, n) := by
  induction m with
  | zero =>
    intro fuel pre mid post spre pairs spost hf hmid hpairs hsrc hn
    obtain ⟨f, rfl⟩ : ∃ f, fuel = f + 1 := ⟨fuel - 1, by omega⟩
    have h1 : mid = [] := List.length_eq_zero.mp (by omega)
    have h2 : pairs = [] := List.length_eq_zero.mp (by omega)
    subst h1 h2
    simp [Encode.loop, hn, enc]
  | succ m ih =>
    intro fuel pre mid post spre pairs spost hf hmid hpairs hsrc hn
    obtain ⟨f, rfl⟩ : ∃ f, fuel = f + 1 := ⟨fuel - 1, by omega⟩
    match mid, hmid with
    | x :: y :: z :: mid, hmid =>
    match pairs, hpairs with
    | a :: b :: pairs, hpairs =>
    simp only [List.length_cons] at hmid hpairs
    have hlt : spre.length < n := by omega
    have e0 : src[spre.length + 0]? = some a := by
      rw [hsrc]; exact getElem?_at _ _ _ _ rfl
    have e1 : src[spre.length + 1]? = some b := by
      rw [hsrc]
      have := getElem?_at (spre ++ [a]) b (pairs ++ spost) (spre.length + 1) (by simp)
      simpa using this
    have s0 : ∀ v, store (pre ++ (x :: y :: z :: mid ++ post)) (pre.length + 0) v
        = some (pre ++ (v :: y :: z :: mid ++ post)) := fun v => store_at _ _ _ _ _ rfl
    have s1 : ∀ u v, store (pre ++ (u :: y :: z :: mid ++ post)) (pre.length + 1) v
        = some (pre ++ (u :: v :: z :: mid ++ post)) := fun u v => by
      have := store_at (pre ++ [u]) y (z :: mid ++ post) v (pre.length + 1) (by simp)
      simpa using this
    have s2 : ∀ u w v, store (pre ++ (u :: w :: z :: mid ++ post)) (pre.length + 2) v
        = some (pre ++ (u :: w :: v :: mid ++ post)) := fun u w v => by
      have := store_at (pre ++ [u, w]) z (mid ++ post) v (pre.length + 2) (by simp)
      simpa using this
    have := ih f (pre ++ encPair a b) mid post (spre ++ [a, b]) pairs spost (by omega)
      (by omega) (by omega) (by simp [hsrc]) (by simp; omega)
    rw [Encode.loop, if_pos hlt]
    simp only [e0, e1, encode_get, s0, s1, s2, Option.bind_eq_bind, Option.some_bind,
      shift_or]
    simp only [encPair, List.length_append, List.length_cons, List.length_nil,
      List.append_assoc, List.cons_append, List.nil_append, encodedChunkSize, chunkSize] at this ⊢
    rw [this]
    simp only [enc, encPair, List.cons_append, List.nil_append]
    congr 3
    omega

theorem enc_append (m : Nat) : ∀ (pairs t : List Byte), pairs.length = 2 * m →
    enc (pairs ++ t) = enc pairs ++ enc t := by
  induction m with
  | zero =>
    intro pairs t h
    have h1 : pairs = [] := List.length_eq_zero.mp (by omega)
    subst h1
    simp [enc]
  | succ m ih =>
    intro pairs t h
    match pairs, h with
    | a :: b :: pairs, h =>
      simp only [List.length_cons] at h
      have e := ih pairs t (by omega)
      simp [enc, e]

theorem enc_length_even (m : Nat) : ∀ (pairs : List Byte), pairs.length = 2 * m →
    (enc pairs).length = 3 * m := by
  induction m with
  | zero =>
    intro pairs h
    have h1 : pairs = [] := List.length_eq_zero.mp (by omega)
    subst h1
    simp [enc]
  | succ m ih =>
    intro pairs h
    match pairs, h with
    | a :: b :: pairs, h =>
      simp only [List.length_cons] at h
      simp only [enc, encPair, List.length_append, List.length_cons, List.length_nil,
        ih pairs (by omega)]
      omega

theorem EncodedLen_eq (n : Nat) : EncodedLen n = 3 * (n / 2) + 2 * (n % 2) := by
  simp only [EncodedLen, chunkSize, encodedChunkSize]
  split <;> omega

theorem DecodedLen_eq (n : Nat) :
    DecodedLen n = 2 * (n / 3) + (if n % 3 = 0 then 0 else 1) := by
  simp only [DecodedLen, chunkSize, encodedChunkSize]
  by_cases h : n % 3 = 0 <;> simp [h] <;> omega

/-- A list splits into its whole pairs and a tail of at most one element. -/
theorem split_pairs (src : List Byte) :
    ∃ pairs tail, src = pairs ++ tail ∧ pairs.length = 2 * (src.length / 2) ∧
      tail.length = src.length % 2 := by
  refine ⟨src.take (2 * (src.length / 2)), src.drop (2 * (src.length / 2)), ?_, ?_, ?_⟩
  · simp
  · simp only [List.length_take]; omega
  · simp only [List.length_drop]; omega

theorem enc_length (src : List Byte) : (enc src).length = EncodedLen src.length := by
  obtain ⟨pairs, tail, rfl, hp, ht⟩ := split_pairs src
  rw [enc_append _ _ _ hp, List.length_append, enc_length_even _ _ hp, EncodedLen_eq]
  match tail, ht with
  | [], ht => simp only [enc, List.length_nil] at ht ⊢; omega
  | [a], ht => simp only [enc, encOne, List.length_cons, List.length_nil] at ht ⊢; omega
  | _ :: _ :: _, ht => simp only [List.length_cons] at ht; omega

/-- `Encode` fills the first `EncodedLen(len(src))` places of `dst` with the
encoding of `src` and leaves the rest of `dst` as it was. -/
theorem Encode_spec (dst src : List Byte) (h : EncodedLen src.length ≤ dst.length) :
    Encode dst src = some (enc src ++ dst.drop (EncodedLen src.length)) := by
  obtain ⟨pairs, tail, hsrc, hp, ht⟩ := split_pairs src
  have hE := EncodedLen_eq src.length
  by_cases h0 : src.length = 0
  · have : src = [] := List.length_eq_zero.mp h0
    subst this
    simp [Encode, enc, EncodedLen, chunkSize, encodedChunkSize]
  have hloop := Encode.loop_spec src (src.length / chunkSize * chunkSize) (src.length / 2)
    (src.length + 1) [] (dst.take (3 * (src.length / 2))) (dst.drop (3 * (src.length / 2)))
    [] pairs tail (by omega) (by simp only [List.length_take]; omega) hp (by simpa using hsrc)
    (by simp only [chunkSize, List.length_nil]; omega)
  simp only [List.nil_append, List.length_nil, List.take_append_drop, Nat.zero_add,
    chunkSize] at hloop
  rw [Encode, if_neg h0]
  simp only [hloop, Option.bind_eq_bind, Option.some_bind, chunkSize]
  match tail, ht with
  | [], ht =>
    simp only [List.length_nil] at ht
    have h1 : src.length - src.length / 2 * 2 = 0 := by omega
    have hs : src = pairs := by simpa using hsrc
    have hE2 : EncodedLen src.length = 3 * (src.length / 2) := by omega
    subst hs
    rw [if_pos h1, hE2]
  | [a], ht =>
    simp only [List.length_cons, List.length_nil] at ht
    have h1 : ¬ (src.length - src.length / 2 * 2 = 0) := by omega
    rw [if_neg h1]
    have e0 : src[src.length / 2 * 2]? = some a := by
      have := getElem?_at pairs a [] (src.length / 2 * 2) (by omega)
      rwa [← hsrc] at this
    obtain ⟨x, y, post, hpost⟩ : ∃ x y post, dst.drop (3 * (src.length / 2)) = x :: y :: post := by
      have hl : (dst.drop (3 * (src.length / 2))).length ≥ 2 := by
        simp only [List.length_drop]; omega
      match dst.drop (3 * (src.length / 2)), hl with
      | x :: y :: post, _ => exact ⟨x, y, post, rfl⟩
    have hlen := enc_length_even _ _ hp
    have hdrop : dst.drop (EncodedLen src.length) = post := by
      have : EncodedLen src.length = 3 * (src.length / 2) + 2 := by omega
      rw [this, ← List.drop_drop, hpost]
      rfl
    have s0 : ∀ v, store (enc pairs ++ x :: y :: post) (3 * (src.length / 2) + 0) v
        = some (enc pairs ++ v :: y :: post) := fun v => store_at _ _ _ _ _ (by omega)
    have s1 : ∀ u v, store (enc pairs ++ u :: y :: post) (3 * (src.length / 2) + 1) v
        = some (enc pairs ++ u :: v :: post) := fun u v => by
      have := store_at (enc pairs ++ [u]) y post v (3 * (src.length / 2) + 1) (by simp; omega)
      simpa using this
    simp only [e0, hpost, encode_get, s0, s1, Option.bind_eq_bind, Option.some_bind]
    have henc : enc src = enc pairs ++ enc [a] := by rw [hsrc, enc_append _ _ _ hp]
    rw [henc, hdrop]
    simp [enc, encOne]
  | _ :: _ :: _, ht => simp only [List.length_cons] at ht; omega


/-! ## What `Decode` computes -/

theorem decodeTriplet_spec (src pre rest free : List Byte) (hsrc : src = pre ++ rest)
    (hne : rest ≠ []) (h2 : 2 ≤ rest.length → 1 ≤ free.length)
    (h3 : 3 ≤ rest.length → 2 ≤ free.length) :
    ∃ si, decodeTriplet free src pre.length
        = some ((decBlock pre.length rest).1 ++ free.drop (decBlock pre.length rest).1.length,
            si, (decBlock pre.length rest).1.length, (decBlock pre.length rest).2)
      ∧ ((decBlock pre.length rest).2 = none → si = pre.length + min 3 rest.length) := by
  match rest, hne with
  | [c0], _ =>
    have e0 : src[pre.length]? = some c0 := by rw [hsrc]; exact getElem?_at _ _ _ _ rfl
    have l1 : ¬ (src.length = pre.length) := by simp [hsrc]
    have l2 : src.length = pre.length + 1 := by simp [hsrc]
    refine ⟨pre.length + 1, ?_, ?_⟩
    · simp only [decodeTriplet, decodeTriplet.scan, l1, l2, e0, decodeMap_get, store,
        Option.bind_eq_bind, Option.some_bind, if_false, if_true, decBlock]
      by_cases hv : dm c0 = 255
      · simp [hv]
      · simp [hv]
    · simp [decBlock]
  | [c0, c1], _ =>
    have e0 : src[pre.length]? = some c0 := by rw [hsrc]; exact getElem?_at _ _ _ _ rfl
    have e1 : src[pre.length + 1]? = some c1 := by
      have := getElem?_at (pre ++ [c0]) c1 [] (pre.length + 1) (by simp)
      rw [hsrc]; simpa using this
    have l0 : ¬ (src.length = pre.length) := by simp [hsrc]
    have l1 : ¬ (src.length = pre.length + 1) := by simp [hsrc]
    have l2 : src.length = pre.length + 1 + 1 := by simp [hsrc]
    obtain ⟨x, free', rfl⟩ : ∃ x free', free = x :: free' := by
      match free, h2 (by simp) with
      | x :: free', _ => exact ⟨x, free', rfl⟩
    have b0 := (dm c0).isLt
    have b1 := (dm c1).isLt
    by_cases hv0 : dm c0 = 255
    · refine ⟨pre.length + 1, ?_, by simp [decBlock, hv0]⟩
      simp [decodeTriplet, decodeTriplet.scan, l0, e0, decodeMap_get, decBlock, hv0]
    · by_cases hv1 : dm c1 = 255
      · refine ⟨pre.length + 2, ?_, by simp [decBlock, hv1]⟩
        simp [decodeTriplet, decodeTriplet.scan, l0, l1, e0, e1, decodeMap_get, decBlock, hv0,
          hv1, store]
      · refine ⟨pre.length + 2, ?_, by simp⟩
        have hval : ¬ (65535 < (dm c0).val + baseSize * (dm c1).val) := by
          simp only [baseSize]; omega
        simp [decodeTriplet, decodeTriplet.scan, l0, l1, eq_true l2, e0, e1, decodeMap_get,
          decBlock, hv0, hv1, store, shortVal, hval]
  | c0 :: c1 :: c2 :: rest, _ =>
    have e0 : src[pre.length]? = some c0 := by rw [hsrc]; exact getElem?_at _ _ _ _ rfl
    have e1 : src[pre.length + 1]? = some c1 := by
      have := getElem?_at (pre ++ [c0]) c1 (c2 :: rest) (pre.length + 1) (by simp)
      rw [hsrc]; simpa using this
    have e2 : src[pre.length + 1 + 1]? = some c2 := by
      have := getElem?_at (pre ++ [c0, c1]) c2 rest (pre.length + 1 + 1) (by simp)
      rw [hsrc]; simpa using this
    have l0 : ¬ (src.length = pre.length) := by simp [hsrc]
    have l1 : ¬ (src.length = pre.length + 1) := by simp [hsrc]
    have l2 : ¬ (src.length = pre.length + 1 + 1) := by simp [hsrc]; omega
    obtain ⟨x, y, free', rfl⟩ : ∃ x y free', free = x :: y :: free' := by
      match free, h3 (by simp) with
      | x :: y :: free', _ => exact ⟨x, y, free', rfl⟩
    by_cases hv0 : dm c0 = 255
    · refine ⟨pre.length + 1, ?_, by simp [decBlock, hv0]⟩
      simp [decodeTriplet, decodeTriplet.scan, l0, e0, decodeMap_get, decBlock, hv0]
    · by_cases hv1 : dm c1 = 255
      · refine ⟨pre.length + 2, ?_, by simp [decBlock, hv1]⟩
        simp [decodeTriplet, decodeTriplet.scan, l0, l1, e0, e1, decodeMap_get, decBlock, hv0,
          hv1, store]
      · by_cases hv2 : dm c2 = 255
        · refine ⟨pre.length + 3, ?_, by simp [decBlock, hv2]⟩
          simp [decodeTriplet, decodeTriplet.scan, l0, l1, l2, e0, e1, e2, decodeMap_get,
            decBlock, hv0, hv1, hv2, store]
          omega
        · refine ⟨pre.length + 3, ?_, by simp⟩
          simp [decodeTriplet, decodeTriplet.scan, l0, l1, l2, e0, e1, e2, decodeMap_get,
            decBlock, hv0, hv1, hv2, store, blockVal]
          have e : ((pre.length : Int) + 1 + 1 + 1) = (pre.length : Int) + 3 := by omega
          rw [e]

theorem Decode.step_spec (src pre rest done free : List Byte) (hsrc : src = pre ++ rest)
    (hne : rest ≠ []) (hfree : DecodedLen rest.length ≤ free.length) :
    ∃ si, Decode.step src (done ++ free) done.length pre.length
        = some (done ++ ((decBlock pre.length rest).1
              ++ free.drop (decBlock pre.length rest).1.length),
            done.length + (decBlock pre.length rest).1.length, si,
            (decBlock pre.length rest).2)
      ∧ ((decBlock pre.length rest).2 = none → si = pre.length + min 3 rest.length) := by
  have hD := DecodedLen_eq rest.length
  have h2 : 2 ≤ rest.length → 1 ≤ free.length := by
    intro h; split at hD <;> omega
  have h3 : 3 ≤ rest.length → 2 ≤ free.length := by
    intro h; split at hD <;> omega
  obtain ⟨si, h, hsi⟩ := decodeTriplet_spec src pre rest free hsrc hne h2 h3
  refine ⟨si, ?_, hsi⟩
  simp [Decode.step, sliceFrom, h]

theorem DecodedLen_add3 (n : Nat) : DecodedLen (n + 3) = DecodedLen n + 2 := by
  rw [DecodedLen_eq, DecodedLen_eq]
  have e1 : (n + 3) / 3 = n / 3 + 1 := by omega
  have e2 : (n + 3) % 3 = n % 3 := by omega
  rw [e1, e2]
  omega

theorem dec_nil (off : Nat) : dec off [] = ([], none) := by
  simp [dec, decBlock]

theorem dec_unfold (off : Nat) (rest : List Byte) (hne : rest ≠ []) :
    dec off rest =
      if (decBlock off rest).2 ≠ none then decBlock off rest
      else ((decBlock off rest).1 ++ (dec (off + min 3 rest.length) (rest.drop 3)).1,
        (dec (off + min 3 rest.length) (rest.drop 3)).2) := by
  match rest, hne with
  | [c0], _ => simp [dec, decBlock]
  | [c0, c1], _ =>
    by_cases h : dm c0 = 255 ∨ dm c1 = 255
    · simp [dec, decBlock, h]
    · simp [dec, decBlock, h]
  | c0 :: c1 :: c2 :: rest, _ =>
    by_cases h : dm c0 = 255 ∨ dm c1 = 255 ∨ dm c2 = 255
    · simp [dec, decBlock, h]
    · by_cases hv : blockVal c0 c1 c2 > 0xFFFF
      · simp [dec, decBlock, h, hv]
      · simp [dec, decBlock, h, hv]

/-- The bytes written by a block that decodes without error. -/
theorem decBlock_length (off : Nat) (rest : List Byte)
    (h : (decBlock off rest).2 = none) :
    (decBlock off rest).1.length + DecodedLen (rest.drop 3).length = DecodedLen rest.length := by
  have hD := DecodedLen_eq rest.length
  match rest, h with
  | [], _ => simp [decBlock]
  | [c0], h => simp [decBlock] at h
  | [c0, c1], h =>
    by_cases hv : dm c0 = 255 ∨ dm c1 = 255
    · simp [decBlock, hv] at h
    · simp [decBlock, hv, DecodedLen, chunkSize, encodedChunkSize]
  | c0 :: c1 :: c2 :: rest, h =>
    by_cases hv : dm c0 = 255 ∨ dm c1 = 255 ∨ dm c2 = 255
    · simp [decBlock, hv] at h
    · have e : DecodedLen (rest.length + 1 + 1 + 1) = DecodedLen rest.length + 2 :=
        DecodedLen_add3 rest.length
      simp only [decBlock, hv, if_false, List.length_cons, List.length_nil, List.drop_succ_cons,
        List.drop_zero]
      omega

theorem decodeResult_err (off : Nat) (rest done free : List Byte) (hne : rest ≠ [])
    (h : (decBlock off rest).2 ≠ none) :
    decodeResult off rest done free
      = (done ++ ((decBlock off rest).1 ++ free.drop (decBlock off rest).1.length),
          done.length + (decBlock off rest).1.length, (decBlock off rest).2) := by
  simp only [decodeResult, dec_unfold off rest hne, if_pos h]

theorem decodeResult_ok (off : Nat) (rest done free : List Byte) (hne : rest ≠ [])
    (h : (decBlock off rest).2 = none) :
    decodeResult off rest done free
      = decodeResult (off + min 3 rest.length) (rest.drop 3) (done ++ (decBlock off rest).1)
          (free.drop (decBlock off rest).1.length) := by
  have h' : ¬ ((decBlock off rest).2 ≠ none) := by simp [h]
  simp only [decodeResult, dec_unfold off rest hne, if_neg h', List.append_assoc,
    List.length_append, List.drop_drop, Nat.add_assoc]

theorem Decode.loop2_spec (src : List Byte) (k : Nat) :
    ∀ (fuel : Nat) (pre rest done free : List Byte), rest.length ≤ k → src = pre ++ rest →
      rest.length < fuel → DecodedLen rest.length ≤ free.length →
      ∃ si, Decode.loop2 src fuel (done ++ free) done.length pre.length
        = some ((decodeResult pre.length rest done free).1,
            (decodeResult pre.length rest done free).2.1, si,
            (decodeResult pre.length rest done free).2.2) := by
  induction k with
  | zero =>
    intro fuel pre rest done free hk hsrc hf hfree
    obtain ⟨f, rfl⟩ : ∃ f, fuel = f + 1 := ⟨fuel - 1, by omega⟩
    have h1 : rest = [] := List.length_eq_zero.mp (by omega)
    subst h1
    refine ⟨pre.length, ?_⟩
    simp [Decode.loop2, hsrc, decodeResult, dec_nil]
  | succ k ih =>
    intro fuel pre rest done free hk hsrc hf hfree
    obtain ⟨f, rfl⟩ : ∃ f, fuel = f + 1 := ⟨fuel - 1, by omega⟩
    by_cases hne : rest = []
    · subst hne
      refine ⟨pre.length, ?_⟩
      simp [Decode.loop2, hsrc, decodeResult, dec_nil]
    · have hpos : 0 < rest.length := List.length_pos.mpr hne
      have hlt : pre.length < src.length := by rw [hsrc, List.length_append]; omega
      obtain ⟨si, hstep, hsi⟩ := Decode.step_spec src pre rest done free hsrc hne hfree
      rw [Decode.loop2, if_pos hlt, hstep]
      by_cases herr : (decBlock pre.length rest).2 = none
      · have hsi' := hsi herr
        have hlen := decBlock_length pre.length rest herr
        obtain ⟨si', h'⟩ := ih f (pre ++ rest.take 3) (rest.drop 3)
          (done ++ (decBlock pre.length rest).1)
          (free.drop (decBlock pre.length rest).1.length)
          (by simp only [List.length_drop]; omega)
          (by rw [List.append_assoc, List.take_append_drop]; exact hsrc)
          (by simp only [List.length_drop]; omega)
          (by simp only [List.length_drop] at hlen ⊢; omega)
        refine ⟨si', ?_⟩
        rw [decodeResult_ok _ _ _ _ hne herr]
        simp only [List.length_append, List.length_take, List.append_assoc] at h'
        simp only [herr, Option.bind_eq_bind, Option.some_bind, ne_eq, not_true_eq_false,
          if_false, hsi']
        exact h'
      · refine ⟨si, ?_⟩
        rw [decodeResult_err _ _ _ _ hne herr]
        simp [herr]

theorem Decode.loop1_spec (src : List Byte) (F : Nat) (hF : src.length < F) (k : Nat) :
    ∀ (fuel : Nat) (pre rest done free : List Byte), rest.length ≤ k → src = pre ++ rest →
      rest.length < fuel → DecodedLen rest.length ≤ free.length →
      ∃ r, Decode.loop1 src fuel (done ++ free) done.length pre.length = some r ∧
        ((r.2.2.2 ≠ none ∧ (r.1, r.2.1, r.2.2.2) = decodeResult pre.length rest done free) ∨
         (r.2.2.2 = none ∧ ∃ si, Decode.loop2 src F r.1 r.2.1 r.2.2.1
            = some ((decodeResult pre.length rest done free).1,
                (decodeResult pre.length rest done free).2.1, si,
                (decodeResult pre.length rest done free).2.2))) := by
  induction k with
  | zero =>
    intro fuel pre rest done free hk hsrc hf hfree
    obtain ⟨f, rfl⟩ : ∃ f, fuel = f + 1 := ⟨fuel - 1, by omega⟩
    have hlen : src.length - pre.length = rest.length := by
      rw [hsrc, List.length_append]; omega
    have hc : ¬ (src.length - pre.length ≥ encodedChunkSize ∧
        (done ++ free).length - done.length ≥ encodedChunkSize) := by
      simp only [encodedChunkSize]; omega
    refine ⟨(done ++ free, done.length, pre.length, none), ?_, Or.inr ⟨rfl, ?_⟩⟩
    · rw [Decode.loop1, if_neg hc]
    · exact Decode.loop2_spec src rest.length F pre rest done free (Nat.le_refl _) hsrc
        (by rw [hsrc, List.length_append] at hF; omega) hfree
  | succ k ih =>
    intro fuel pre rest done free hk hsrc hf hfree
    obtain ⟨f, rfl⟩ : ∃ f, fuel = f + 1 := ⟨fuel - 1, by omega⟩
    have hlen : src.length - pre.length = rest.length := by
      rw [hsrc, List.length_append]; omega
    by_cases hc : src.length - pre.length ≥ encodedChunkSize ∧
        (done ++ free).length - done.length ≥ encodedChunkSize
    · have hne : rest ≠ [] := by
        intro h; rw [h] at hlen; simp only [encodedChunkSize, List.length_nil] at hc hlen; omega
      obtain ⟨si, hstep, hsi⟩ := Decode.step_spec src pre rest done free hsrc hne hfree
      rw [Decode.loop1, if_pos hc, hstep]
      by_cases herr : (decBlock pre.length rest).2 = none
      · have hsi' := hsi herr
        have hlen' := decBlock_length pre.length rest herr
        have hc3 : 3 ≤ rest.length := by
          have := hc.1; simp only [encodedChunkSize] at this; omega
        obtain ⟨r, h', hr⟩ := ih f (pre ++ rest.take 3) (rest.drop 3)
          (done ++ (decBlock pre.length rest).1)
          (free.drop (decBlock pre.length rest).1.length)
          (by simp only [List.length_drop]; omega)
          (by rw [List.append_assoc, List.take_append_drop]; exact hsrc)
          (by simp only [List.length_drop]; omega)
          (by simp only [List.length_drop] at hlen' ⊢; omega)
        refine ⟨r, ?_, ?_⟩
        · simp only [List.length_append, List.length_take, List.append_assoc] at h'
          simp only [herr, Option.bind_eq_bind, Option.some_bind, ne_eq, not_true_eq_false,
            if_false, hsi']
          exact h'
        · rw [decodeResult_ok _ _ _ _ hne herr]
          simpa only [List.length_append, List.length_take] using hr
      · refine ⟨(done ++ ((decBlock pre.length rest).1
              ++ free.drop (decBlock pre.length rest).1.length),
            done.length + (decBlock pre.length rest).1.length, si,
            (decBlock pre.length rest).2), ?_, Or.inl ⟨herr, ?_⟩⟩
        · simp [herr]
        · rw [decodeResult_err _ _ _ _ hne herr]
    · refine ⟨(done ++ free, done.length, pre.length, none), ?_, Or.inr ⟨rfl, ?_⟩⟩
      · rw [Decode.loop1, if_neg hc]
      · exact Decode.loop2_spec src rest.length F pre rest done free (Nat.le_refl _) hsrc
          (by rw [hsrc, List.length_append] at hF; omega) hfree

/-- With room for `DecodedLen(len(src))` bytes, `Decode` returns, and its
result is the one computed block by block by `dec`. -/
theorem Decode_spec (dst src : List Byte) (h : DecodedLen src.length ≤ dst.length) :
    Decode dst src = some (decodeResult 0 src [] dst) := by
  by_cases h0 : src.length = 0
  · have : src = [] := List.length_eq_zero.mp h0
    subst this
    simp [Decode, decodeResult, dec_nil]
  · obtain ⟨r, h1, hr⟩ := Decode.loop1_spec src (src.length + 1) (Nat.lt_succ_self _) src.length
      (src.length + 1) [] src [] dst (Nat.le_refl _) rfl (Nat.lt_succ_self _) h
    simp only [List.nil_append, List.length_nil] at h1 hr
    rw [Decode, if_neg h0, h1]
    rcases hr with ⟨he, hr⟩ | ⟨he, si, hr⟩
    · simp only [Option.bind_eq_bind, Option.some_bind, if_pos he]
      rw [hr]
    · simp [he, hr]

/-! ## Decoding an encoding -/

theorem toByte_val (x : Byte) : toByte x.val = x := by
  apply Fin.ext
  simp only [toByte]
  exact Nat.mod_eq_of_lt x.isLt

theorem dm_alpha_ne (i : Nat) (h : i < 45) : dm (alpha i) ≠ 255 := by
  intro hc
  have := dm_alpha i h
  rw [hc] at this
  have h255 : ((255 : Byte)).val = 255 := rfl
  omega

theorem decBlock_encPair (off : Nat) (a b : Byte) (rest : List Byte) :
    decBlock off (encPair a b ++ rest) = ([a, b], none) := by
  have ha := a.isLt
  have hb := b.isLt
  have h0 : (256 * a.val + b.val) % 45 < 45 := Nat.mod_lt _ (by decide)
  have h1 : (256 * a.val + b.val) / 45 % 45 < 45 := Nat.mod_lt _ (by decide)
  have h2 : (256 * a.val + b.val) / (45 * 45) % 45 < 45 := Nat.mod_lt _ (by decide)
  have hv : blockVal (alpha ((256 * a.val + b.val) % 45))
      (alpha ((256 * a.val + b.val) / 45 % 45))
      (alpha ((256 * a.val + b.val) / (45 * 45) % 45)) = 256 * a.val + b.val := by
    simp only [blockVal, dm_alpha _ h0, dm_alpha _ h1, dm_alpha _ h2, baseSize]
    have e1 : (256 * a.val + b.val) / (45 * 45) % 45 = (256 * a.val + b.val) / (45 * 45) :=
      Nat.mod_eq_of_lt (by omega)
    have e2 : (256 * a.val + b.val) / (45 * 45) = (256 * a.val + b.val) / 45 / 45 :=
      (Nat.div_div_eq_div_mul _ _ _).symm
    rw [e1, e2]
    omega
  have hd : (256 * a.val + b.val) / 256 = a.val := by omega
  have hm : (256 * a.val + b.val) % 256 = b.val := by omega
  have hgt : ¬ (256 * a.val + b.val > 0xFFFF) := by omega
  simp only [encPair, baseSize, List.cons_append, List.nil_append, decBlock,
    dm_alpha_ne _ h0, dm_alpha_ne _ h1, dm_alpha_ne _ h2, or_self, if_false, hv, hd, hm, hgt,
    toByte_val]

theorem decBlock_encOne (off : Nat) (a : Byte) :
    decBlock off (encOne a) = ([a], none) := by
  have ha := a.isLt
  have h0 : a.val % 45 < 45 := Nat.mod_lt _ (by decide)
  have h1 : a.val / 45 % 45 < 45 := Nat.mod_lt _ (by decide)
  have hv : shortVal (alpha (a.val % 45)) (alpha (a.val / 45 % 45)) % 256 = a.val := by
    simp only [shortVal, dm_alpha _ h0, dm_alpha _ h1, baseSize]
    have e1 : a.val / 45 % 45 = a.val / 45 := Nat.mod_eq_of_lt (by omega)
    have e2 : a.val % 45 + 45 * (a.val / 45) = a.val := by omega
    rw [e1, e2]
    exact Nat.mod_eq_of_lt ha
  simp only [encOne, baseSize, decBlock, dm_alpha_ne _ h0, dm_alpha_ne _ h1, or_self, if_false,
    hv, toByte_val]

theorem dec_enc : ∀ (b : List Byte) (off : Nat), dec off (enc b) = (b, none)
  | [], off => by simp [enc, dec_nil]
  | [a], off => by
    have h := decBlock_encOne off a
    simp only [encOne] at h
    simp only [enc, encOne, dec, h]
  | a :: b :: rest, off => by
    have ih := dec_enc rest (off + 3)
    have h := decBlock_encPair off a b []
    simp only [encPair, List.cons_append, List.nil_append] at h
    simp [enc, encPair, dec, h, ih]

theorem DecodedLen_EncodedLen (n : Nat) : DecodedLen (EncodedLen n) = n := by
  rw [DecodedLen_eq, EncodedLen_eq]
  have h : n % 2 = 0 ∨ n % 2 = 1 := by omega
  rcases h with h | h
  · have e1 : (3 * (n / 2) + 2 * (n % 2)) / 3 = n / 2 := by omega
    have e2 : (3 * (n / 2) + 2 * (n % 2)) % 3 = 0 := by omega
    rw [e1, e2]; simp; omega
  · have e1 : (3 * (n / 2) + 2 * (n % 2)) / 3 = n / 2 := by omega
    have e2 : (3 * (n / 2) + 2 * (n % 2)) % 3 = 2 := by omega
    rw [e1, e2]; simp; omega

theorem EncodeToString_eq (b : List Byte) : EncodeToString b = some (enc b) := by
  rw [EncodeToString, Encode_spec _ _ (by simp)]
  simp

theorem dec_length_le : ∀ (s : List Byte) (off : Nat),
    (dec off s).1.length ≤ DecodedLen s.length
  | [], off => by simp [dec_nil]
  | [c0], off => by simp [dec, decBlock]
  | [c0, c1], off => by
    by_cases h : dm c0 = 255 ∨ dm c1 = 255
    · simp [dec, decBlock, h]
    · simp [dec, decBlock, h, DecodedLen, chunkSize, encodedChunkSize]
  | c0 :: c1 :: c2 :: rest, off => by
    have ih := dec_length_le rest (off + 3)
    have e : DecodedLen (rest.length + 1 + 1 + 1) = DecodedLen rest.length + 2 :=
      DecodedLen_add3 rest.length
    simp only [List.length_cons, e]
    by_cases h : dm c0 = 255 ∨ dm c1 = 255 ∨ dm c2 = 255
    · simp [dec, decBlock, h]
    · by_cases hv : blockVal c0 c1 c2 > 0xFFFF
      · simp [dec, decBlock, h, hv]
      · simp only [dec, decBlock, h, hv, if_false, ne_eq, not_true_eq_false, List.cons_append,
          List.nil_append, List.length_cons]
        omega

theorem DecodeString_eq (s : List Byte) : DecodeString s = some (dec 0 s) := by
  have hle := dec_length_le s 0
  rw [DecodeString, Decode_spec _ _ (by simp)]
  simp [decodeResult, sliceTo, hle]

/-! ## Errors of `Decode` -/

theorem blockAt_zero (c0 c1 c2 : Byte) (rest : List Byte) :
    blockAt (c0 :: c1 :: c2 :: rest) 0 = blockVal c0 c1 c2 := by
  simp [blockAt]

theorem blockAt_succ (c0 c1 c2 : Byte) (rest : List Byte) (k : Nat) :
    blockAt (c0 :: c1 :: c2 :: rest) (k + 1) = blockAt rest k := by
  have e : 3 * (k + 1) = 3 * k + 1 + 1 + 1 := by omega
  simp only [blockAt, e, List.getD_cons_succ]

theorem blocks_cons (c0 c1 c2 : Byte) (rest : List Byte) :
    (∀ k, 3 * k + 2 < (c0 :: c1 :: c2 :: rest).length → blockAt (c0 :: c1 :: c2 :: rest) k ≤ 65535)
      ↔ (blockVal c0 c1 c2 ≤ 65535 ∧ ∀ k, 3 * k + 2 < rest.length → blockAt rest k ≤ 65535) := by
  constructor
  · intro h
    refine ⟨?_, ?_⟩
    · have := h 0 (by simp)
      rwa [blockAt_zero] at this
    · intro k hk
      have := h (k + 1) (by simp only [List.length_cons]; omega)
      rwa [blockAt_succ] at this
  · rintro ⟨h0, h⟩ k hk
    cases k with
    | zero => rw [blockAt_zero]; exact h0
    | succ k =>
      rw [blockAt_succ]
      exact h k (by simp only [List.length_cons] at hk; omega)

theorem dec_err_none_iff : ∀ (src : List Byte) (off : Nat),
    (dec off src).2 = none ↔
      ((∀ c ∈ src, dm c ≠ 255) ∧ src.length % 3 ≠ 1 ∧
        ∀ k, 3 * k + 2 < src.length → blockAt src k ≤ 65535)
  | [], off => by simp [dec_nil]
  | [c0], off => by simp [dec, decBlock]
  | [c0, c1], off => by
    by_cases h : dm c0 = 255 ∨ dm c1 = 255
    · simp only [dec, decBlock, h, if_true]
      simp only [List.mem_cons, List.mem_singleton, forall_eq_or_imp, forall_eq]
      rcases h with h | h <;> simp [h]
    · simp only [dec, decBlock, h, if_false]
      simp only [not_or] at h
      simp [h.1, h.2]
  | c0 :: c1 :: c2 :: rest, off => by
    have ih := dec_err_none_iff rest (off + 3)
    rw [blocks_cons]
    have hl : (c0 :: c1 :: c2 :: rest).length % 3 = rest.length % 3 := by
      simp only [List.length_cons]; omega
    rw [hl]
    by_cases h : dm c0 = 255 ∨ dm c1 = 255 ∨ dm c2 = 255
    · simp only [dec, decBlock, h, if_true]
      simp only [List.mem_cons, forall_eq_or_imp]
      rcases h with h | h | h <;> simp [h]
    · by_cases hv : blockVal c0 c1 c2 > 0xFFFF
      · simp only [dec, decBlock, h, hv, if_true, if_false]
        simp only [not_or] at h
        simp
        intro _ _ _ _ _ hle
        omega
      · simp only [dec, decBlock, h, hv, if_false, ne_eq, not_true_eq_false]
        rw [ih]
        simp only [not_or] at h
        simp only [List.mem_cons, forall_eq_or_imp]
        have hv' : blockVal c0 c1 c2 ≤ 65535 := by omega
        simp [h.1, h.2.1, h.2.2, hv']

theorem dec_err_corrupt : ∀ (src : List Byte) (off : Nat) (e : Error),
    (dec off src).2 = some e → ∃ o, e = Error.CorruptInputError o
  | [], off, e => by simp [dec_nil]
  | [c0], off, e => by
    simp only [dec, decBlock, Option.some.injEq]
    intro h; exact ⟨_, h.symm⟩
  | [c0, c1], off, e => by
    by_cases h : dm c0 = 255 ∨ dm c1 = 255
    · simp only [dec, decBlock, h, if_true, Option.some.injEq]
      intro h; exact ⟨_, h.symm⟩
    · simp [dec, decBlock, h]
  | c0 :: c1 :: c2 :: rest, off, e => by
    have ih := dec_err_corrupt rest (off + 3) e
    by_cases h : dm c0 = 255 ∨ dm c1 = 255 ∨ dm c2 = 255
    · simp only [dec, decBlock, h, if_true]
      simp
      intro h; exact ⟨_, h.symm⟩
    · by_cases hv : blockVal c0 c1 c2 > 0xFFFF
      · simp only [dec, decBlock, h, hv, if_true, if_false, Option.some.injEq]
        simp
        intro h; exact ⟨_, h.symm⟩
      · simp only [dec, decBlock, h, hv, if_false, ne_eq, not_true_eq_false]
        exact ih

/-- Decoding runs through `k` leading blocks that are valid: they give `2k`
bytes, and the rest is decoded from offset `3k`. -/
theorem dec_valid_prefix (k : Nat) : ∀ (src : List Byte) (off : Nat), 3 * k ≤ src.length →
    (∀ i, i < 3 * k → dm (src.getD i 0) ≠ 255) → (∀ j, j < k → blockAt src j ≤ 65535) →
    ∃ out, out.length = 2 * k ∧
      dec off src = (out ++ (dec (off + 3 * k) (src.drop (3 * k))).1,
        (dec (off + 3 * k) (src.drop (3 * k))).2) := by
  induction k with
  | zero =>
    intro src off _ _ _
    exact ⟨[], rfl, by simp⟩
  | succ k ih =>
    intro src off hlen hal hval
    match src, hlen with
    | c0 :: c1 :: c2 :: rest, hlen =>
      simp only [List.length_cons] at hlen
      have a0 : dm c0 ≠ 255 := by simpa using hal 0 (by omega)
      have a1 : dm c1 ≠ 255 := by simpa using hal 1 (by omega)
      have a2 : dm c2 ≠ 255 := by simpa using hal 2 (by omega)
      have v0 : ¬ (blockVal c0 c1 c2 > 0xFFFF) := by
        have := hval 0 (by omega)
        rw [blockAt_zero] at this
        omega
      obtain ⟨out, hout, hdec⟩ := ih rest (off + 3) (by omega)
        (fun i hi => by
          have := hal (i + 3) (by omega)
          simpa only [List.getD_cons_succ] using this)
        (fun j hj => by
          have := hval (j + 1) (by omega)
          rwa [blockAt_succ] at this)
      refine ⟨toByte (blockVal c0 c1 c2 / 256) :: toByte (blockVal c0 c1 c2 % 256) :: out,
        by simp only [List.length_cons, hout]; omega, ?_⟩
      have e3 : 3 * (k + 1) = 3 * k + 1 + 1 + 1 := by omega
      have e4 : off + (3 * k + 1 + 1 + 1) = off + 3 + 3 * k := by omega
      simp only [dec, decBlock, a0, a1, a2, v0, or_self, if_false, ne_eq, not_true_eq_false,
        hdec, e3, e4, List.drop_succ_cons, List.cons_append, List.nil_append]
    | [], hlen => simp only [List.length_nil] at hlen; omega
    | [_], hlen => simp only [List.length_cons, List.length_nil] at hlen; omega
    | [_, _], hlen => simp only [List.length_cons, List.length_nil] at hlen; omega

theorem getD_eq_of_drop {α : Type} (l : List α) (n : Nat) (a : α) (rest : List α) (d : α)
    (h : l.drop n = a :: rest) : l.getD n d = a := by
  have : (l.drop n)[0]? = some a := by rw [h]; simp
  rw [List.getElem?_drop] at this
  simp only [Nat.add_zero] at this
  simp [List.getD_eq_getElem?_getD, this]

theorem getD_eq_of_drop_add {α : Type} (l : List α) (n i : Nat) (rest : List α) (d : α)
    (h : l.drop n = rest) : l.getD (n + i) d = rest.getD i d := by
  subst h
  simp [List.getD_eq_getElem?_getD, List.getElem?_drop]

theorem dec_invalid_in_block : ∀ (rest : List Byte) (off j : Nat), j < 3 → j < rest.length →
    dm (rest.getD j 0) = 255 → dec off rest = ([], some (Error.CorruptInputError ((off : Int) + 1)))
  | [], _, _, _, h, _ => by simp at h
  | [c0], off, j, _, h, hv => by
    have hj : j = 0 := by simp only [List.length_cons, List.length_nil] at h; omega
    subst hj
    have hv' : dm c0 = 255 := by simpa using hv
    simp [dec, decBlock, hv']
  | [c0, c1], off, j, _, h, hv => by
    have hj : j = 0 ∨ j = 1 := by simp only [List.length_cons, List.length_nil] at h; omega
    rcases hj with hj | hj <;> subst hj
    · have hv' : dm c0 = 255 := by simpa using hv
      simp [dec, decBlock, hv']
    · have hv' : dm c1 = 255 := by simpa using hv
      simp [dec, decBlock, hv']
  | c0 :: c1 :: c2 :: rest, off, j, hj3, _, hv => by
    have hj : j = 0 ∨ j = 1 ∨ j = 2 := by omega
    rcases hj with hj | hj | hj <;> subst hj
    · have hv' : dm c0 = 255 := by simpa using hv
      simp [dec, decBlock, hv']
    · have hv' : dm c1 = 255 := by simpa using hv
      simp [dec, decBlock, hv']
    · have hv' : dm c2 = 255 := by simpa using hv
      simp [dec, decBlock, hv']

/-- What `Decode` does at the first byte outside the alphabet, at index `i`,
when the complete blocks before it are valid: the count is `2*(i div 3)` and
the offset reported is `3*(i div 3) + 1`, the start of the block plus one,
whatever the position of the byte in its block. -/
theorem Decode_first_invalid (src dst : List Byte) (i : Nat) (hi : i < src.length)
    (hdst : DecodedLen src.length ≤ dst.length)
    (hbad : src.getD i 0 ∉ encode) (hfirst : ∀ j, j < i → src.getD j 0 ∈ encode)
    (hvalid : ∀ k, k < i / 3 → blockAt src k ≤ 65535) :
    ∃ out, Decode dst src
        = some (out, 2 * (i / 3),
            some (Error.CorruptInputError (3 * ((i / 3 : Nat) : Int) + 1))) := by
  obtain ⟨pre, hpre, hdec⟩ := dec_valid_prefix (i / 3) src 0 (by omega)
    (fun j hj => (mem_encode_iff _).mp (hfirst j (by omega))) hvalid
  have hv : dm ((src.drop (3 * (i / 3))).getD (i % 3) 0) = 255 := by
    have e : src.getD i 0 = (src.drop (3 * (i / 3))).getD (i % 3) 0 := by
      have := getD_eq_of_drop_add src (3 * (i / 3)) (i % 3) _ 0 rfl
      rw [← this]
      congr 1
      omega
    rw [← e]
    have := (mem_encode_iff (src.getD i 0)).not.mp hbad
    simpa using this
  have hblk := dec_invalid_in_block (src.drop (3 * (i / 3))) (0 + 3 * (i / 3)) (i % 3)
    (Nat.mod_lt _ (by decide)) (by simp only [List.length_drop]; omega) hv
  have hd : dec 0 src
      = (pre, some (Error.CorruptInputError (3 * ((i / 3 : Nat) : Int) + 1))) := by
    rw [hdec, hblk, List.append_nil]
    have e : ((0 + 3 * (i / 3) : Nat) : Int) + 1 = 3 * ((i / 3 : Nat) : Int) + 1 := by
      push_cast
      omega
    rw [e]
  have hres : decodeResult 0 src [] dst
      = (pre ++ dst.drop (2 * (i / 3)), 2 * (i / 3),
          some (Error.CorruptInputError (3 * ((i / 3 : Nat) : Int) + 1))) := by
    simp [decodeResult, hd, hpre]
  exact ⟨_, (Decode_spec dst src hdst).trans (congrArg some hres)⟩

/-! ## The stream encoder: `Write` and `Close` keep the sink in step -/

theorem leading_nil (fuel : Nat) (buf : List Byte) (nbuf : Nat) :
    encoder.Write.leading [] (fuel + 1) buf nbuf 0 = some (buf, nbuf, 0) := by
  simp [encoder.Write.leading]

theorem leading_cons (fuel : Nat) (x z y : Byte) (p : List Byte) :
    encoder.Write.leading (y :: p) (fuel + 2) [x, z] 1 0 = some ([x, y], 2, 1) := by
  simp [encoder.Write.leading, chunkSize, store]

theorem trailing_nil (fuel : Nat) (buf : List Byte) :
    encoder.Write.trailing [] (fuel + 1) buf 0 = some buf := by
  simp [encoder.Write.trailing]

theorem trailing_one (fuel : Nat) (x z y : Byte) :
    encoder.Write.trailing [y] (fuel + 2) [x, z] 0 = some [y, z] := by
  simp [encoder.Write.trailing, store]

theorem list_two (l : List Byte) (h : l.length = 2) : ∃ x z, l = [x, z] := by
  match l, h with
  | [x, z], _ => exact ⟨x, z, rfl⟩

theorem take_even_split (p : List Byte) (nn : Nat) (hnn : nn % 2 = 0) (hle : nn ≤ p.length) :
    p.take (2 * (p.length / 2))
      = p.take nn ++ (p.drop nn).take (2 * ((p.drop nn).length / 2)) := by
  have e : 2 * (p.length / 2) = nn + 2 * ((p.drop nn).length / 2) := by
    simp only [List.length_drop]; omega
  rw [e, List.take_add]

theorem interior_spec {σ : Type} (W : Writer σ) (held : σ → List Byte)
    (hW : ∀ s p, (W.Write s p).2.2 = none ∧ held (W.Write s p).1 = held s ++ p) (k : Nat) :
    ∀ (fuel : Nat) (e : encoder σ) (p : List Byte) (n : Nat), p.length ≤ k → p.length < fuel →
      e.out.length = 1024 → e.err = none →
      ∃ e', encoder.Write.interior W fuel e p n
          = some (Sum.inr (e', p.drop (2 * (p.length / 2)), n + 2 * (p.length / 2))) ∧
        e'.buf = e.buf ∧ e'.nbuf = e.nbuf ∧ e'.err = none ∧ e'.out.length = 1024 ∧
        held e'.w = held e.w ++ enc (p.take (2 * (p.length / 2))) := by
  induction k using Nat.strong_induction_on with
  | _ k ih =>
    intro fuel e p n hk hf hout herr
    obtain ⟨f, rfl⟩ : ∃ f, fuel = f + 1 := ⟨fuel - 1, by omega⟩
    by_cases hp : p.length ≥ chunkSize
    · simp only [chunkSize] at hp
      rw [encoder.Write.interior, if_pos (by simpa only [chunkSize] using hp)]
      obtain ⟨nn, hnn_def, hnn2, hnnle, hnnge, hnn682⟩ : ∃ nn,
          (if e.out.length / encodedChunkSize * chunkSize > p.length
            then p.length - p.length % chunkSize
            else e.out.length / encodedChunkSize * chunkSize) = nn ∧
          nn % 2 = 0 ∧ nn ≤ p.length ∧ 2 ≤ nn ∧ nn ≤ 682 := by
        refine ⟨_, rfl, ?_⟩
        simp only [hout, chunkSize, encodedChunkSize]
        split <;> omega
      simp only [hnn_def]
      have hE : EncodedLen (p.take nn).length = 3 * (nn / 2) := by
        rw [EncodedLen_eq, List.length_take]
        have : min nn p.length = nn := by omega
        rw [this]; omega
      have hEnc := Encode_spec e.out (p.take nn) (by rw [hE, hout]; omega)
      have hencl : (enc (p.take nn)).length = 3 * (nn / 2) := by rw [enc_length, hE]
      have hchunk : sliceTo (enc (p.take nn) ++ e.out.drop (EncodedLen (p.take nn).length))
          (nn / chunkSize * encodedChunkSize) = some (enc (p.take nn)) := by
        have e1 : nn / chunkSize * encodedChunkSize = (enc (p.take nn)).length := by
          simp only [chunkSize, encodedChunkSize, hencl]; omega
        rw [e1]
        simp [sliceTo]
      rcases hwr : W.Write e.w (enc (p.take nn)) with ⟨w', cnt, err'⟩
      have hw1 := (hW e.w (enc (p.take nn))).1
      have hw2 := (hW e.w (enc (p.take nn))).2
      rw [hwr] at hw1 hw2
      simp only at hw1 hw2
      subst hw1
      obtain ⟨e', h', hb, hn, he, ho, hh⟩ := ih (p.drop nn).length
        (by simp only [List.length_drop]; omega) f
        { e with out := enc (p.take nn) ++ e.out.drop (EncodedLen (p.take nn).length),
                 w := w', err := none }
        (p.drop nn) (n + nn) (Nat.le_refl _) (by simp only [List.length_drop]; omega)
        (by simp only [List.length_append, List.length_drop, hencl, hE, hout]; omega) rfl
      have hd : (p.drop nn).drop (2 * ((p.drop nn).length / 2)) = p.drop (2 * (p.length / 2)) := by
        rw [List.drop_drop]
        congr 1
        simp only [List.length_drop]; omega
      have hn2 : n + nn + 2 * ((p.drop nn).length / 2) = n + 2 * (p.length / 2) := by
        simp only [List.length_drop]; omega
      rw [hd, hn2] at h'
      refine ⟨e', ?_, hb, hn, he, ho, ?_⟩
      · have hs1 : sliceTo p nn = some (p.take nn) := by simp [sliceTo, hnnle]
        have hs2 : sliceFrom p nn = some (p.drop nn) := by simp [sliceFrom, hnnle]
        simp only [hs1, hs2, hEnc, hchunk, hwr, Option.bind_eq_bind, Option.some_bind, ne_eq,
          not_true_eq_false, if_false]
        exact h'
      · rw [hh]
        simp only [hw2, List.append_assoc]
        rw [take_even_split p nn hnn2 hnnle,
          enc_append (nn / 2) _ _ (by simp only [List.length_take]; omega)]
    · refine ⟨e, ?_, rfl, rfl, herr, hout, ?_⟩
      · have h0 : p.length / 2 = 0 := by simp only [chunkSize] at hp; omega
        rw [encoder.Write.interior, if_neg hp, h0]
        simp
      · have h0 : p.length / 2 = 0 := by simp only [chunkSize] at hp; omega
        simp [h0, enc]

theorem Write_nbuf0 {σ : Type} (W : Writer σ) (held : σ → List Byte)
    (hW : ∀ s p, (W.Write s p).2.2 = none ∧ held (W.Write s p).1 = held s ++ p)
    (e : encoder σ) (p : List Byte) (n : Nat) (done : List Byte)
    (herr : e.err = none) (hbuf : e.buf.length = 2) (hout : e.out.length = 1024)
    (hdone : done.length % 2 = 0) (hheld : held e.w = enc done) :
    ∃ e', (do
        match ← encoder.Write.interior W (p.length + 1) e p n with
        | Sum.inl r => some r
        | Sum.inr (e, p, n) =>
          let buf ← encoder.Write.trailing p (p.length + 1) e.buf 0
          some ({ e with buf := buf, nbuf := p.length }, n + p.length, none))
        = some (e', n + p.length, none) ∧ encInv held e' (done ++ p) := by
  obtain ⟨e1, h1, hb, hn, he, ho, hh⟩ := interior_spec W held hW p.length (p.length + 1) e p n
    (Nat.le_refl _) (Nat.lt_succ_self _) hout herr
  obtain ⟨x, z, hxz⟩ := list_two e.buf hbuf
  have hlen : (p.drop (2 * (p.length / 2))).length = p.length % 2 := by
    simp only [List.length_drop]; omega
  have hsplit : p = p.take (2 * (p.length / 2)) ++ p.drop (2 * (p.length / 2)) :=
    (List.take_append_drop _ _).symm
  have htl : (p.take (2 * (p.length / 2))).length = 2 * (p.length / 2) := by
    simp only [List.length_take]; omega
  have hheld' : held e1.w = enc (done ++ p.take (2 * (p.length / 2))) := by
    obtain ⟨m, hm⟩ : ∃ m, done.length = 2 * m := ⟨done.length / 2, by omega⟩
    rw [hh, hheld, enc_append m _ _ hm]
  rw [h1]
  simp only [Option.bind_eq_bind, Option.some_bind, hb, hxz]
  match hr : p.drop (2 * (p.length / 2)), hlen with
  | [], hlen =>
    simp only [List.length_nil] at hlen
    refine ⟨{ e1 with buf := [x, z], nbuf := 0 }, ?_, ?_⟩
    · simp only [trailing_nil, List.length_nil, Option.some_bind]
      congr 3; omega
    · refine ⟨he, rfl, ho, Nat.zero_le _, done ++ p.take (2 * (p.length / 2)), ?_, ?_, hheld'⟩
      · rw [hr, List.append_nil] at hsplit
        simp only [List.take_zero, List.append_nil]
        rw [← hsplit]
      · simp only [List.length_append, htl]; omega
  | [y], hlen =>
    simp only [List.length_cons, List.length_nil] at hlen
    refine ⟨{ e1 with buf := [y, z], nbuf := 1 }, ?_, ?_⟩
    · have := trailing_one 0 x z y
      simp only [List.length_cons, List.length_nil, this, Option.some_bind]
      congr 3; omega
    · refine ⟨he, rfl, ho, Nat.le_refl _, done ++ p.take (2 * (p.length / 2)), ?_, ?_, hheld'⟩
      · rw [hr] at hsplit
        simp only [List.take_succ_cons, List.take_zero, List.append_assoc]
        rw [← hsplit]
      · simp only [List.length_append, htl]; omega
  | _ :: _ :: _, hlen => simp only [List.length_cons] at hlen; omega

/-- A `Write` on an encoder that has not failed, with a sink that never
fails, takes all of `p` and keeps the encoder state in step with the bytes
written so far. -/
theorem Write_spec {σ : Type} (W : Writer σ) (held : σ → List Byte)
    (hW : ∀ s p, (W.Write s p).2.2 = none ∧ held (W.Write s p).1 = held s ++ p)
    (e : encoder σ) (c p : List Byte) (hinv : encInv held e c) :
    ∃ e', encoder.Write W e p = some (e', p.length, none) ∧ encInv held e' (c ++ p) := by
  obtain ⟨herr, hbuf, hout, hnb, done, hc, hdone, hheld⟩ := hinv
  obtain ⟨x, z, hxz⟩ := list_two e.buf hbuf
  have hnb' : e.nbuf = 0 ∨ e.nbuf = 1 := by omega
  rcases hnb' with h0 | h1
  · -- no pending byte
    have hfr : encoder.Write.fringe W e p = some (Sum.inr (e, p, 0)) := by
      simp [encoder.Write.fringe, h0]
    obtain ⟨e', h', hinv'⟩ := Write_nbuf0 W held hW e p 0 done herr hbuf hout hdone hheld
    refine ⟨e', ?_, ?_⟩
    · rw [encoder.Write, if_neg (by simp [herr]), hfr]
      simp only [Option.bind_eq_bind, Option.some_bind, Nat.zero_add] at h' ⊢
      exact h'
    · rw [hc, h0]
      simpa using hinv'
  · -- one pending byte
    rw [h1, hxz] at hc
    simp only [List.take_succ_cons, List.take_zero] at hc
    match p with
    | [] =>
      refine ⟨e, ?_, ?_⟩
      · have hpos : e.nbuf > 0 := by omega
        have hlt : e.nbuf < chunkSize := by simp only [chunkSize]; omega
        have hfr : encoder.Write.fringe W e [] = some (Sum.inl (e, 0, none)) := by
          simp [encoder.Write.fringe, hpos, leading_nil, sliceFrom, hlt]
        rw [encoder.Write, if_neg (by simp [herr]), hfr]
        simp
      · rw [List.append_nil]
        exact ⟨herr, hbuf, hout, hnb, done, by rw [h1, hxz]; simpa using hc, hdone, hheld⟩
    | y :: p' =>
      have hE : EncodedLen ([x, y] : List Byte).length = 3 := by
        simp [EncodedLen, chunkSize, encodedChunkSize]
      have hEnc := Encode_spec e.out [x, y] (by rw [hE, hout]; omega)
      have hencl : (enc [x, y]).length = 3 := by rw [enc_length, hE]
      rw [hE] at hEnc
      have hchunk : sliceTo (enc [x, y] ++ e.out.drop 3) encodedChunkSize = some (enc [x, y]) := by
        have e1 : encodedChunkSize = (enc [x, y]).length := by rw [hencl]; rfl
        rw [e1]
        simp [sliceTo]
      rcases hwr : W.Write e.w (enc [x, y]) with ⟨w', cnt, err'⟩
      have hw1 := (hW e.w (enc [x, y])).1
      have hw2 := (hW e.w (enc [x, y])).2
      rw [hwr] at hw1 hw2
      simp only at hw1 hw2
      subst hw1
      have hheld' : held w' = enc (done ++ [x, y]) := by
        obtain ⟨m, hm⟩ : ∃ m, done.length = 2 * m := ⟨done.length / 2, by omega⟩
        rw [hw2, hheld, enc_append m _ _ hm]
      have hfr : encoder.Write.fringe W e (y :: p')
          = some (Sum.inr (encoder.mk none w' [x, y] 0 (enc [x, y] ++ e.out.drop 3), p', 1)) := by
        have hl := leading_cons p'.length x z y p'
        simp only [encoder.Write.fringe, h1, hxz, List.length_cons, hl, Option.bind_eq_bind,
          Option.some_bind, sliceFrom, chunkSize, hEnc, hchunk, hwr]
        simp
      obtain ⟨e', h', hinv'⟩ := Write_nbuf0 W held hW
        (encoder.mk none w' [x, y] 0 (enc [x, y] ++ e.out.drop 3)) p' 1 (done ++ [x, y]) rfl rfl
        (by simp only [List.length_append, List.length_drop, hencl, hout])
        (by simp only [List.length_append, List.length_cons, List.length_nil]; omega) hheld'
      refine ⟨e', ?_, ?_⟩
      · rw [encoder.Write, if_neg (by simp [herr]), hfr]
        simp only [Option.bind_eq_bind, Option.some_bind, List.length_cons] at h' ⊢
        rw [Nat.add_comm 1 p'.length] at h'
        exact h'
      · rw [hc]
        simpa using hinv'

theorem NewEncoder_inv {σ : Type} (held : σ → List Byte) (w0 : σ) (h0 : held w0 = []) :
    encInv held (NewEncoder w0) [] := by
  refine ⟨rfl, rfl, List.length_replicate _ _, Nat.zero_le _, [], rfl, rfl, ?_⟩
  show held w0 = enc []
  rw [h0]; rfl

theorem WriteAll_spec {σ : Type} (W : Writer σ) (held : σ → List Byte)
    (hW : ∀ s p, (W.Write s p).2.2 = none ∧ held (W.Write s p).1 = held s ++ p)
    (ps : List (List Byte)) :
    ∀ (e : encoder σ) (c : List Byte), encInv held e c →
      ∃ e', encoder.WriteAll W e ps = some e' ∧ encInv held e' (c ++ ps.flatten) := by
  induction ps with
  | nil =>
    intro e c hinv
    exact ⟨e, rfl, by simpa using hinv⟩
  | cons p ps ih =>
    intro e c hinv
    obtain ⟨e1, h1, hinv1⟩ := Write_spec W held hW e c p hinv
    obtain ⟨e2, h2, hinv2⟩ := ih e1 (c ++ p) hinv1
    refine ⟨e2, ?_, by simpa using hinv2⟩
    simp [encoder.WriteAll, h1, h2]

theorem Close_spec {σ : Type} (W : Writer σ) (held : σ → List Byte)
    (hW : ∀ s p, (W.Write s p).2.2 = none ∧ held (W.Write s p).1 = held s ++ p)
    (e : encoder σ) (c : List Byte) (hinv : encInv held e c) :
    ∃ e', encoder.Close W e = some (e', none) ∧ held e'.w = enc c := by
  obtain ⟨herr, hbuf, hout, hnb, done, hc, hdone, hheld⟩ := hinv
  obtain ⟨x, z, hxz⟩ := list_two e.buf hbuf
  have hnb' : e.nbuf = 0 ∨ e.nbuf = 1 := by omega
  rcases hnb' with h0 | h1
  · refine ⟨e, ?_, ?_⟩
    · simp [encoder.Close, h0, herr]
    · rw [hc, h0, hheld]; simp
  · rw [h1, hxz] at hc
    simp only [List.take_succ_cons, List.take_zero] at hc
    have hE : EncodedLen ([x] : List Byte).length = 2 := by
      simp [EncodedLen, chunkSize, encodedChunkSize]
    have hEnc := Encode_spec e.out [x] (by rw [hE, hout]; omega)
    have hencl : (enc [x]).length = 2 := by rw [enc_length, hE]
    rw [hE] at hEnc
    have hchunk : sliceTo (enc [x] ++ e.out.drop 2) (EncodedLen 1) = some (enc [x]) := by
      have e1 : EncodedLen 1 = (enc [x]).length := by rw [hencl]; exact hE
      rw [e1]
      simp [sliceTo]
    rcases hwr : W.Write e.w (enc [x]) with ⟨w', cnt, err'⟩
    have hw1 := (hW e.w (enc [x])).1
    have hw2 := (hW e.w (enc [x])).2
    rw [hwr] at hw1 hw2
    simp only at hw1 hw2
    subst hw1
    refine ⟨encoder.mk none w' e.buf 0 (enc [x] ++ e.out.drop 2), ?_, ?_⟩
    · have hs : sliceTo e.buf 1 = some [x] := by simp [sliceTo, hxz]
      simp only [encoder.Close, h1, herr, hs, hEnc, hchunk, hwr, Option.bind_eq_bind,
        Option.some_bind]
      simp
    · obtain ⟨m, hm⟩ : ∃ m, done.length = 2 * m := ⟨done.length / 2, by omega⟩
      show held w' = enc c
      rw [hw2, hheld, hc, enc_append m _ _ hm]

/-! ## The stream decoder: `Read` over a source that holds a valid text -/

theorem deliver_spec {ρ : Type} (d : decoder ρ) (p : List Byte)
    (h1 : d.out.1 ≤ d.out.2) (h2 : d.out.2 ≤ d.outbuf.length) :
    decoder.deliver d p
      = some ({ d with out := (d.out.1 + min p.length d.leftover.length, d.out.2) },
          d.leftover.take (min p.length d.leftover.length)
            ++ p.drop (min p.length d.leftover.length),
          min p.length d.leftover.length) := by
  have hl : d.leftover.length = d.out.2 - d.out.1 := by
    simp only [decoder.leftover, List.length_drop, List.length_take]; omega
  have hs : slice d.outbuf d.out.1 d.out.2 = some d.leftover := by
    simp [slice, h1, h2, decoder.leftover]
  have hle : min p.length d.leftover.length ≤ d.out.2 - d.out.1 := by omega
  simp only [decoder.deliver, hs, copy, Option.bind_eq_bind, Option.some_bind, hle, if_true]

theorem leftover_drop {ρ : Type} (d : decoder ρ) (n : Nat) :
    decoder.leftover { d with out := (d.out.1 + n, d.out.2) } = d.leftover.drop n := by
  simp only [decoder.leftover, List.drop_drop]

theorem refillLen_spec (plen : Nat) :
    3 ≤ refillLen plen 1024 ∧ refillLen plen 1024 ≤ 1024 ∧
      (refillLen plen 1024 % 3 = 0 ∨ refillLen plen 1024 = 1024) := by
  simp only [refillLen, chunkSize, encodedChunkSize]
  split <;> split <;> omega

theorem refill_unfold {ρ : Type} (R : Reader ρ) (plen fuel : Nat) (d : decoder ρ) :
    decoder.Read.refill R plen (fuel + 1) d =
      if d.nbuf < encodedChunkSize ∧ d.readErr = none then
        (slice d.buf d.nbuf (refillLen plen d.buf.length)).bind fun _ =>
          if (R.Read d.r (refillLen plen d.buf.length - d.nbuf)).2.1.length
              > refillLen plen d.buf.length - d.nbuf then none
          else
            decoder.Read.refill R plen fuel
              { d with r := (R.Read d.r (refillLen plen d.buf.length - d.nbuf)).1,
                       readErr := (R.Read d.r (refillLen plen d.buf.length - d.nbuf)).2.2,
                       buf := d.buf.take d.nbuf ++
                         ((R.Read d.r (refillLen plen d.buf.length - d.nbuf)).2.1 ++
                           d.buf.drop (d.nbuf
                             + (R.Read d.r (refillLen plen d.buf.length - d.nbuf)).2.1.length)),
                       nbuf := d.nbuf
                         + (R.Read d.r (refillLen plen d.buf.length - d.nbuf)).2.1.length }
      else some d := by
  rw [decoder.Read.refill]
  rfl

theorem refill_exit {ρ : Type} (R : Reader ρ) (plen fuel : Nat) (d : decoder ρ)
    (h : ¬ (d.nbuf < 3 ∧ d.readErr = none)) :
    decoder.Read.refill R plen (fuel + 1) d = some d := by
  rw [refill_unfold]
  exact if_neg h

/-- The refill loop when the source is exhausted and has not said so yet: one
read, which returns `io.EOF`. -/
theorem refill_eof {ρ : Type} (R : Reader ρ) (rem : ρ → List Byte) (hR : holdsText R rem)
    (plen fuel : Nat) (d : decoder ρ) (hfuel : 2 ≤ fuel)
    (hbuf : d.buf.length = 1024) (hnb : d.nbuf < 3) (hre : d.readErr = none)
    (hrem : rem d.r = []) :
    ∃ r', decoder.Read.refill R plen fuel d
        = some { d with r := r', readErr := some Error.EOF } ∧ rem r' = [] := by
  obtain ⟨f, rfl⟩ : ∃ f, fuel = f + 2 := ⟨fuel - 2, by omega⟩
  obtain ⟨hn3, hn1024, _⟩ := refillLen_spec plen
  obtain ⟨h1, h2⟩ := (hR d.r (refillLen plen d.buf.length - d.nbuf)).1 hrem
  have hc : d.nbuf < encodedChunkSize ∧ d.readErr = none := ⟨hnb, hre⟩
  have hs : slice d.buf d.nbuf (refillLen plen d.buf.length)
      = some ((d.buf.take (refillLen plen d.buf.length)).drop d.nbuf) := by
    rw [hbuf]
    simp only [slice, hbuf]
    rw [if_pos ⟨by omega, hn1024⟩]
  refine ⟨(R.Read d.r (refillLen plen d.buf.length - d.nbuf)).1, ?_, h2⟩
  rw [refill_unfold, if_pos hc, hs]
  have hd : (R.Read d.r (refillLen plen d.buf.length - d.nbuf)).2.1 = [] := by rw [h1]
  have he : (R.Read d.r (refillLen plen d.buf.length - d.nbuf)).2.2 = some Error.EOF := by rw [h1]
  simp only [Option.some_bind, hd, he, List.length_nil, Nat.add_zero, List.nil_append,
    List.take_append_drop, gt_iff_lt, Nat.not_lt_zero, if_false]
  rw [refill_exit]
  simp

theorem take_carry (pre rem : List Byte) (n k : Nat) (hn : pre.length = n) :
    (pre ++ rem).take (n + k) = pre ++ rem.take k := by
  subst hn
  exact List.take_append _

theorem drop_carry (pre rem : List Byte) (n k : Nat) (hn : pre.length = n) :
    (pre ++ rem).drop (n + k) = rem.drop k := by
  subst hn
  exact List.drop_append _

theorem take_min_length (l : List Byte) (m : Nat) : l.take (min m l.length) = l.take m := by
  by_cases h : m ≤ l.length
  · rw [Nat.min_eq_left h]
  · have h' : l.length ≤ m := by omega
    rw [Nat.min_eq_right h', List.take_of_length_le h', List.take_of_length_le (Nat.le_refl _)]

/-- One turn of the refill loop while the source has bytes left. -/
theorem refill_step {ρ : Type} (R : Reader ρ) (rem : ρ → List Byte) (hR : holdsText R rem)
    (plen f : Nat) (d : decoder ρ) (hbuf : d.buf.length = 1024) (hnb : d.nbuf ≤ 1)
    (hre : d.readErr = none) (hrem : rem d.r ≠ []) :
    ∃ d1, decoder.Read.refill R plen (f + 1) d = decoder.Read.refill R plen f d1 ∧
      d1.err = d.err ∧ d1.out = d.out ∧ d1.outbuf = d.outbuf ∧ d1.buf.length = 1024 ∧
      d1.readErr = none ∧
      d1.nbuf = min (refillLen plen 1024) (d.buf.take d.nbuf ++ rem d.r).length ∧
      d1.buf.take d1.nbuf = (d.buf.take d.nbuf ++ rem d.r).take d1.nbuf ∧
      rem d1.r = (d.buf.take d.nbuf ++ rem d.r).drop d1.nbuf := by
  obtain ⟨hn3, hn1024, _⟩ := refillLen_spec plen
  obtain ⟨h1, h2⟩ := (hR d.r (refillLen plen d.buf.length - d.nbuf)).2 hrem
  rw [hbuf] at h1 h2
  have hpl : (d.buf.take d.nbuf).length = d.nbuf := by
    simp only [List.length_take]; omega
  have hd : (R.Read d.r (refillLen plen 1024 - d.nbuf)).2.1
      = (rem d.r).take (refillLen plen 1024 - d.nbuf) := by rw [h1]
  have he : (R.Read d.r (refillLen plen 1024 - d.nbuf)).2.2 = none := by rw [h1]
  have hs : slice d.buf d.nbuf (refillLen plen 1024)
      = some ((d.buf.take (refillLen plen 1024)).drop d.nbuf) := by
    simp only [slice, hbuf]
    rw [if_pos ⟨by omega, hn1024⟩]
  have hdl : ((rem d.r).take (refillLen plen 1024 - d.nbuf)).length
      = min (refillLen plen 1024 - d.nbuf) (rem d.r).length := List.length_take _ _
  have hc : d.nbuf < encodedChunkSize ∧ d.readErr = none :=
    ⟨by simp only [encodedChunkSize]; omega, hre⟩
  have hmin : d.nbuf + min (refillLen plen 1024 - d.nbuf) (rem d.r).length
      = min (refillLen plen 1024) (d.buf.take d.nbuf ++ rem d.r).length := by
    rw [List.length_append, hpl]; omega
  refine ⟨{ d with r := (R.Read d.r (refillLen plen 1024 - d.nbuf)).1,
                   readErr := none,
                   buf := d.buf.take d.nbuf ++
                     ((rem d.r).take (refillLen plen 1024 - d.nbuf) ++
                       d.buf.drop (d.nbuf
                         + min (refillLen plen 1024 - d.nbuf) (rem d.r).length)),
                   nbuf := d.nbuf + min (refillLen plen 1024 - d.nbuf) (rem d.r).length },
    ?_, rfl, rfl, rfl, ?_, rfl, hmin, ?_, ?_⟩
  · rw [refill_unfold, if_pos hc, hbuf, hs]
    simp only [Option.some_bind, hd, he, hdl]
    rw [if_neg (by omega)]
  · simp only [List.length_append, List.length_take, List.length_drop, hbuf]; omega
  · show (d.buf.take d.nbuf ++ ((rem d.r).take (refillLen plen 1024 - d.nbuf) ++ _)).take
        (d.nbuf + min (refillLen plen 1024 - d.nbuf) (rem d.r).length) = _
    rw [take_carry _ _ _ _ hpl, take_carry _ _ _ _ hpl, take_min_length]
    congr 1
    exact List.take_left' hdl
  · show rem (R.Read d.r (refillLen plen 1024 - d.nbuf)).1 = (d.buf.take d.nbuf ++ rem d.r).drop
        (d.nbuf + min (refillLen plen 1024 - d.nbuf) (rem d.r).length)
    rw [h2, drop_carry _ _ _ _ hpl]
    by_cases hm : refillLen plen 1024 - d.nbuf ≤ (rem d.r).length
    · rw [Nat.min_eq_left hm]
    · have hm' : (rem d.r).length ≤ refillLen plen 1024 - d.nbuf := by omega
      rw [Nat.min_eq_right hm', List.drop_of_length_le hm',
        List.drop_of_length_le (Nat.le_refl _)]

/-- The refill loop over a source that holds a text: it ends, with
`min nn (carried + remaining)` characters of the text in `buf`, and with fewer
than three only when the source has returned `io.EOF`. -/
theorem refill_spec {ρ : Type} (R : Reader ρ) (rem : ρ → List Byte) (hR : holdsText R rem)
    (plen fuel : Nat) (d : decoder ρ) (hfuel : 3 ≤ fuel)
    (hbuf : d.buf.length = 1024) (hnb : d.nbuf ≤ 1)
    (hre : d.readErr = none ∨ (d.readErr = some Error.EOF ∧ rem d.r = [])) :
    ∃ d', decoder.Read.refill R plen fuel d = some d' ∧
      d'.err = d.err ∧ d'.out = d.out ∧ d'.outbuf = d.outbuf ∧ d'.buf.length = 1024 ∧
      d'.nbuf = min (refillLen plen 1024) (d.buf.take d.nbuf ++ rem d.r).length ∧
      d'.buf.take d'.nbuf = (d.buf.take d.nbuf ++ rem d.r).take d'.nbuf ∧
      rem d'.r = (d.buf.take d.nbuf ++ rem d.r).drop d'.nbuf ∧
      (d'.nbuf < 3 → d'.readErr = some Error.EOF ∧ rem d'.r = []) ∧
      (d'.readErr = none ∨ (d'.readErr = some Error.EOF ∧ rem d'.r = [])) := by
  obtain ⟨f, rfl⟩ : ∃ f, fuel = f + 1 := ⟨fuel - 1, by omega⟩
  obtain ⟨hn3, hn1024, _⟩ := refillLen_spec plen
  have hpl : (d.buf.take d.nbuf).length = d.nbuf := by
    simp only [List.length_take]; omega
  by_cases hrem : rem d.r = []
  · -- nothing left in the source
    have hfacts : min (refillLen plen 1024) (d.buf.take d.nbuf ++ rem d.r).length = d.nbuf := by
      rw [hrem, List.append_nil, hpl]; omega
    rcases hre with hre | ⟨hre, _⟩
    · obtain ⟨r', h', hr'⟩ := refill_eof R rem hR plen (f + 1) d (by omega) hbuf (by omega) hre hrem
      refine ⟨_, h', rfl, rfl, rfl, hbuf, hfacts.symm, ?_, ?_, fun _ => ⟨rfl, hr'⟩,
        Or.inr ⟨rfl, hr'⟩⟩
      · show d.buf.take d.nbuf = _
        rw [hrem, List.append_nil, List.take_take, Nat.min_self]
      · show rem r' = _
        rw [hr', hrem, List.append_nil]
        exact (List.drop_of_length_le (by rw [hpl])).symm
    · refine ⟨d, refill_exit R plen f d (by simp [hre]), rfl, rfl, rfl, hbuf, hfacts.symm, ?_, ?_,
        fun _ => ⟨hre, hrem⟩, Or.inr ⟨hre, hrem⟩⟩
      · rw [hrem, List.append_nil, List.take_take, Nat.min_self]
      · rw [hrem, List.append_nil]
        exact (List.drop_of_length_le (by rw [hpl])).symm
  · -- the source has bytes left
    have hre' : d.readErr = none := by
      rcases hre with h | ⟨_, h⟩
      · exact h
      · exact absurd h hrem
    obtain ⟨d1, hstep, e1, e2, e3, hlen, hre1, hmin, htake, hdrop⟩ :=
      refill_step R rem hR plen f d hbuf hnb hre' hrem
    rw [hstep]
    by_cases h3 : d1.nbuf < 3
    · -- the source ran out before a whole block: one more read, which returns EOF
      have hr1 : rem d1.r = [] := by
        rw [hdrop]
        apply List.drop_of_length_le
        rw [hmin] at h3 ⊢
        omega
      obtain ⟨r', h', hr'⟩ := refill_eof R rem hR plen f d1 (by omega) hlen h3 hre1 hr1
      refine ⟨_, h', e1, e2, e3, hlen, hmin, htake, ?_, fun _ => ⟨rfl, hr'⟩,
        Or.inr ⟨rfl, hr'⟩⟩
      show rem r' = _
      rw [hr', ← hdrop, hr1]
    · obtain ⟨f', rfl⟩ : ∃ f', f = f' + 1 := ⟨f - 1, by omega⟩
      exact ⟨d1, refill_exit R plen f' d1 (fun h => h3 h.1), e1, e2, e3, hlen, hmin, htake, hdrop,
        fun h => absurd h h3, Or.inl hre1⟩

theorem Decode_enc (dst x : List Byte) (h : x.length ≤ dst.length) :
    Decode dst (enc x) = some (x ++ dst.drop x.length, x.length, none) := by
  rw [Decode_spec _ _ (by rw [enc_length, DecodedLen_EncodedLen]; exact h)]
  simp [decodeResult, dec_enc]

theorem enc_eq_nil (b : List Byte) (h : enc b = []) : b = [] := by
  have hl := enc_length b
  rw [h, EncodedLen_eq] at hl
  simp only [List.length_nil] at hl
  exact List.length_eq_zero.mp (by omega)

theorem enc_length_two (b : List Byte) (h : (enc b).length = 2) : ∃ x, b = [x] := by
  rw [enc_length, EncodedLen_eq] at h
  have hl : b.length = 1 := by omega
  match b, hl with
  | [x], _ => exact ⟨x, rfl⟩

theorem enc_length_mod (b : List Byte) : (enc b).length % 3 ≠ 1 := by
  rw [enc_length, EncodedLen_eq]
  omega

/-- An encoding cut at a multiple of 3 characters is the encoding of the
bytes cut at the matching multiple of 2. -/
theorem enc_split (b : List Byte) (j : Nat) (h : 3 * j ≤ (enc b).length) :
    2 * j ≤ b.length ∧ (enc b).take (3 * j) = enc (b.take (2 * j)) ∧
      (enc b).drop (3 * j) = enc (b.drop (2 * j)) := by
  have hl : 2 * j ≤ b.length := by
    rw [enc_length, EncodedLen_eq] at h
    omega
  have htl : (b.take (2 * j)).length = 2 * j := by
    rw [List.length_take]; omega
  have he : enc b = enc (b.take (2 * j)) ++ enc (b.drop (2 * j)) := by
    rw [← enc_append j _ _ htl, List.take_append_drop]
  have hel : (enc (b.take (2 * j))).length = 3 * j := enc_length_even j _ htl
  refine ⟨hl, ?_, ?_⟩
  · rw [he]; exact List.take_left' hel
  · rw [he]; exact List.drop_left' hel

theorem DecodedLen_mono_carry (n : Nat) (h : n % 3 = 1) : DecodedLen (n - 1) ≤ DecodedLen n := by
  rw [DecodedLen_eq, DecodedLen_eq]
  have e1 : (n - 1) / 3 = n / 3 := by omega
  have e2 : (n - 1) % 3 = 0 := by omega
  rw [e1, e2]
  simp

theorem final_spec {ρ : Type} (rem : ρ → List Byte) (d : decoder ρ) (p b' : List Byte)
    (hp : 1 ≤ p.length) (hbuf : d.buf.length = 1024) (hob : d.outbuf.length = 682)
    (hnb : d.nbuf < 3) (hre : d.readErr = some Error.EOF) (hrem : rem d.r = [])
    (hwin : d.out.1 ≤ d.out.2 ∧ d.out.2 ≤ 682) (hlo : d.leftover = [])
    (htext : d.buf.take d.nbuf = enc b') :
    ∃ d' p' n err, decoder.Read.final d p = some (d', p', n, err) ∧
      p'.length = p.length ∧ n ≤ p.length ∧ n ≤ b'.length ∧ p'.take n = b'.take n ∧
      decInv rem d' (b'.drop n) ∧
      ((err = none ∧ 1 ≤ n) ∨ (err = some Error.EOF ∧ n = 0 ∧ b' = [])) := by
  have hpl : (d.buf.take d.nbuf).length = d.nbuf := by
    simp only [List.length_take]; omega
  have hel : (enc b').length = d.nbuf := by rw [← htext, hpl]
  have hmod := enc_length_mod b'
  have hcases : d.nbuf = 0 ∨ d.nbuf = 2 := by omega
  rcases hcases with h0 | h2
  · have hb : b' = [] := enc_eq_nil b' (List.length_eq_zero.mp (by omega))
    subst hb
    refine ⟨{ d with err := some Error.EOF }, p, 0, some Error.EOF, ?_, rfl, Nat.zero_le _,
      Nat.zero_le _, rfl, ?_, Or.inr ⟨rfl, rfl, rfl⟩⟩
    · simp [decoder.Read.final, h0, hre]
    · refine ⟨hbuf, hob, by show d.nbuf ≤ 1; omega, hwin.1, hwin.2, Or.inr ⟨hre, hrem⟩,
        Or.inr ⟨rfl, rfl⟩, [], ?_, ?_⟩
      · show [] = decoder.leftover _ ++ []
        rw [List.append_nil]
        exact hlo.symm
      · show d.buf.take d.nbuf ++ rem d.r = enc []
        rw [hrem, h0]; rfl
  · obtain ⟨x, hx⟩ := enc_length_two b' (by omega)
    subst hx
    have hdec : Decode d.outbuf (enc [x]) = some ([x] ++ d.outbuf.drop 1, 1, none) :=
      Decode_enc d.outbuf [x] (by rw [hob]; simp)
    have hs2 : sliceTo ([x] ++ d.outbuf.drop 1) 1 = some [x] := by simp [sliceTo]
    have hs : sliceTo d.buf d.nbuf = some (enc [x]) := by
      rw [← htext]; simp [sliceTo, hbuf]; omega
    have hpos : d.nbuf > 0 := by omega
    have hdel := deliver_spec
      (decoder.mk none d.readErr d.r d.buf 0 (0, 1) ([x] ++ d.outbuf.drop 1)) p
      (by simp) (by simp)
    have hlo2 : decoder.leftover
        (decoder.mk none d.readErr d.r d.buf 0 (0, 1) ([x] ++ d.outbuf.drop 1)) = [x] := by
      simp [decoder.leftover]
    rw [hlo2] at hdel
    have hmin : min p.length ([x] : List Byte).length = 1 := by
      simp only [List.length_cons, List.length_nil]; omega
    rw [hmin] at hdel
    simp only [] at hdel
    refine ⟨decoder.mk none d.readErr d.r d.buf 0 (0 + 1, 1) ([x] ++ d.outbuf.drop 1),
      [x].take 1 ++ p.drop 1, 1, none, ?_, ?_, hp, by simp, by simp, ?_, Or.inl ⟨rfl, Nat.le_refl _⟩⟩
    · simp only [decoder.Read.final, hpos, if_true, hs, Option.bind_eq_bind, Option.some_bind,
        hdec, hs2, hdel]
      simp
    · simp only [List.length_append, List.length_take, List.length_drop, List.length_cons,
        List.length_nil]
      omega
    · refine ⟨hbuf, by simp [hob], Nat.zero_le _, by simp, by simp, Or.inr ⟨hre, hrem⟩,
        Or.inl rfl, [], ?_, ?_⟩
      · simp [decoder.leftover]
      · show d.buf.take 0 ++ rem d.r = enc []
        rw [hrem]; rfl

theorem drop_take_glue (l : List Byte) (a b : Nat) (hab : a ≤ b) (hb : b ≤ l.length) :
    (l.take b).drop a ++ l.drop b = l.drop a := by
  have h : l.drop a = (l.take b ++ l.drop b).drop a := by rw [List.take_append_drop]
  rw [h, List.drop_append_of_le_length (by rw [List.length_take]; omega)]

theorem take_drop_swap (l : List Byte) (a c : Nat) :
    (l.drop a).take c = (l.take (a + c)).drop a := by
  rw [List.drop_take]
  congr 1
  omega

/-- The number of characters decoded by the chunk step, and the bytes they
stand for: the carried text is cut at a block boundary or at its end. -/
theorem chunk_cut (b' : List Byte) (nn nbuf : Nat) (hnb3 : 3 ≤ nbuf)
    (hnn : nn % 3 = 0 ∨ nn = 1024) (hnn1024 : nn ≤ 1024)
    (hnbuf : nbuf = min nn (enc b').length) :
    ∃ nr b1 b2, (if nbuf % encodedChunkSize = 1 then nbuf - 1 else nbuf) = nr ∧
      3 ≤ nr ∧ nr ≤ nbuf ∧ nbuf - nr ≤ 1 ∧ nr ≤ 1023 ∧
      b' = b1 ++ b2 ∧ (enc b').take nr = enc b1 ∧ (enc b').drop nr = enc b2 ∧
      b1.length = DecodedLen nr ∧ 2 ≤ b1.length ∧ b1.length ≤ 682 ∧
      b1.length ≤ DecodedLen nbuf := by
  have hmod := enc_length_mod b'
  have hle : nbuf ≤ (enc b').length := by omega
  have hD : ∀ n, 3 ≤ n → n ≤ 1023 → 2 ≤ DecodedLen n ∧ DecodedLen n ≤ 682 := by
    intro n h1 h2
    rw [DecodedLen_eq]
    split <;> omega
  by_cases h1 : nbuf % 3 = 1
  · -- a carried character stays behind: the cut is at a block boundary
    have hnr : 3 * ((nbuf - 1) / 3) = nbuf - 1 := by omega
    obtain ⟨hl, ht, hd⟩ := enc_split b' ((nbuf - 1) / 3) (by omega)
    rw [hnr] at ht hd
    have hlen : (b'.take (2 * ((nbuf - 1) / 3))).length = DecodedLen (nbuf - 1) := by
      rw [List.length_take, DecodedLen_eq]
      have : (nbuf - 1) % 3 = 0 := by omega
      simp only [this, if_true]
      omega
    have hb := hD (nbuf - 1) (by omega) (by omega)
    refine ⟨nbuf - 1, b'.take (2 * ((nbuf - 1) / 3)), b'.drop (2 * ((nbuf - 1) / 3)),
      if_pos (by simpa only [encodedChunkSize] using h1), by omega, by omega, by omega, by omega,
      (List.take_append_drop _ _).symm, ht, hd, hlen, by omega, by omega, ?_⟩
    rw [hlen]
    exact DecodedLen_mono_carry nbuf h1
  · by_cases h0 : nbuf % 3 = 0
    · have hnr : 3 * (nbuf / 3) = nbuf := by omega
      obtain ⟨hl, ht, hd⟩ := enc_split b' (nbuf / 3) (by omega)
      rw [hnr] at ht hd
      have hlen : (b'.take (2 * (nbuf / 3))).length = DecodedLen nbuf := by
        rw [List.length_take, DecodedLen_eq]
        simp only [h0, if_true]
        omega
      have hb := hD nbuf (by omega) (by omega)
      exact ⟨nbuf, b'.take (2 * (nbuf / 3)), b'.drop (2 * (nbuf / 3)),
        if_neg (by simpa only [encodedChunkSize] using h1), by omega, by omega, by omega,
        by omega, (List.take_append_drop _ _).symm, ht, hd, hlen, by omega, by omega,
        by omega⟩
    · -- the buffer holds all the text that was left, ending in a short block
      have hall : nbuf = (enc b').length := by omega
      have hlen : b'.length = DecodedLen nbuf := by
        rw [hall, enc_length, DecodedLen_EncodedLen]
      have hb := hD nbuf (by omega) (by omega)
      refine ⟨nbuf, b', [], if_neg (by simpa only [encodedChunkSize] using h1), by omega,
        by omega, by omega, by omega, (List.append_nil _).symm, ?_, ?_, hlen, by omega,
        by omega, by omega⟩
      · rw [hall]; exact List.take_of_length_le (Nat.le_refl _)
      · rw [hall]; exact List.drop_of_length_le (Nat.le_refl _)

theorem shift_spec {ρ : Type} (d : decoder ρ) (nr : Nat) (hbuf : d.buf.length = 1024)
    (h1 : nr ≤ d.nbuf) (h2 : d.nbuf - nr ≤ 1) (h3 : nr ≤ 1023) :
    ∃ buf, decoder.Read.shift d nr = some { d with nbuf := d.nbuf - nr, buf := buf } ∧
      buf.length = 1024 ∧ buf.take (d.nbuf - nr) = (d.buf.take d.nbuf).drop nr := by
  have hs1 : sliceTo d.buf (d.nbuf - nr) = some (d.buf.take (d.nbuf - nr)) := by
    simp only [sliceTo]; rw [if_pos (by omega)]
  have hs2 : sliceFrom d.buf nr = some (d.buf.drop nr) := by
    simp only [sliceFrom]; rw [if_pos (by omega)]
  have hmin : min (d.buf.take (d.nbuf - nr)).length (d.buf.drop nr).length = d.nbuf - nr := by
    simp only [List.length_take, List.length_drop]; omega
  have hcopy : (copy (d.buf.take (d.nbuf - nr)) (d.buf.drop nr)).1
      = (d.buf.drop nr).take (d.nbuf - nr) := by
    have e : (d.buf.take (d.nbuf - nr)).drop (d.nbuf - nr) = [] :=
      List.drop_of_length_le (by rw [List.length_take]; omega)
    simp only [copy, hmin, e, List.append_nil]
  refine ⟨(d.buf.drop nr).take (d.nbuf - nr) ++ d.buf.drop (d.nbuf - nr), ?_, ?_, ?_⟩
  · simp only [decoder.Read.shift, hs1, hs2, hcopy, Option.bind_eq_bind, Option.some_bind]
  · simp only [List.length_append, List.length_take, List.length_drop]; omega
  · rw [List.take_append_of_le_length (by simp only [List.length_take, List.length_drop]; omega),
      List.take_take, Nat.min_self, take_drop_swap]
    congr 2
    omega

theorem decodeChunk_spec {ρ : Type} (d : decoder ρ) (p b1 : List Byte) (nr nw : Nat)
    (hp : 1 ≤ p.length) (hob : d.outbuf.length = 682)
    (hs : d.buf.take nr = enc b1) (hnr : nr ≤ d.buf.length)
    (hb1 : 2 ≤ b1.length) (hb682 : b1.length ≤ 682) (hnw : b1.length ≤ nw)
    (hwin : d.out.1 ≤ d.out.2 ∧ d.out.2 ≤ 682) (hlo : d.leftover = []) :
    ∃ d' p' n, decoder.Read.decodeChunk d p nr nw = some (d', p', n) ∧
      d'.err = none ∧ d'.readErr = d.readErr ∧ d'.r = d.r ∧ d'.buf = d.buf ∧ d'.nbuf = d.nbuf ∧
      d'.outbuf.length = 682 ∧ d'.out.1 ≤ d'.out.2 ∧ d'.out.2 ≤ 682 ∧
      p'.length = p.length ∧ 1 ≤ n ∧ n ≤ p.length ∧ n ≤ b1.length ∧ p'.take n = b1.take n ∧
      d'.leftover = b1.drop n := by
  have hsl : sliceTo d.buf nr = some (enc b1) := by
    simp only [sliceTo]; rw [if_pos hnr, hs]
  by_cases hc : nw > p.length
  · -- into `outbuf`, then as much as fits into `p`
    have hdec := Decode_enc d.outbuf b1 (by omega)
    have hs2 : sliceTo (b1 ++ d.outbuf.drop b1.length) b1.length = some b1 := by
      simp [sliceTo]
    have hdel := deliver_spec
      (decoder.mk none d.readErr d.r d.buf d.nbuf (0, b1.length)
        (b1 ++ d.outbuf.drop b1.length)) p
      (Nat.zero_le _) (by simp)
    have hlo2 : decoder.leftover
        (decoder.mk none d.readErr d.r d.buf d.nbuf (0, b1.length)
          (b1 ++ d.outbuf.drop b1.length)) = b1 := by
      simp [decoder.leftover]
    rw [hlo2] at hdel
    simp only [] at hdel
    refine ⟨decoder.mk none d.readErr d.r d.buf d.nbuf (0 + min p.length b1.length, b1.length)
        (b1 ++ d.outbuf.drop b1.length),
      b1.take (min p.length b1.length) ++ p.drop (min p.length b1.length),
      min p.length b1.length, ?_, rfl, rfl, rfl, rfl, rfl, ?_, ?_, ?_, ?_, ?_, ?_, ?_, ?_, ?_⟩
    · simp only [decoder.Read.decodeChunk, hc, if_true, hsl, hdec, hs2, Option.bind_eq_bind,
        Option.some_bind]
      exact hdel
    · simp only [List.length_append, List.length_drop, hob]; omega
    · show 0 + min p.length b1.length ≤ b1.length
      omega
    · exact hb682
    · simp only [List.length_append, List.length_take, List.length_drop]; omega
    · omega
    · omega
    · omega
    · rw [List.take_append_of_le_length (by simp only [List.length_take]; omega),
        List.take_take, Nat.min_self]
    · simp [decoder.leftover]
  · -- straight into `p`
    have hdec := Decode_enc p b1 (by omega)
    refine ⟨{ d with err := none }, b1 ++ p.drop b1.length, b1.length, ?_, rfl, rfl, rfl, rfl,
      rfl, hob, hwin.1, hwin.2, ?_, by omega, by omega, Nat.le_refl _, ?_, ?_⟩
    · simp only [decoder.Read.decodeChunk, hc, if_false, hsl, hdec, Option.bind_eq_bind,
        Option.some_bind]
    · simp only [List.length_append, List.length_drop]; omega
    · rw [List.take_left' rfl, List.take_of_length_le (Nat.le_refl _)]
    · rw [List.drop_of_length_le (Nat.le_refl _)]
      exact hlo

theorem chunk_spec {ρ : Type} (rem : ρ → List Byte) (d : decoder ρ) (p b' : List Byte)
    (nn : Nat) (hp : 1 ≤ p.length) (hbuf : d.buf.length = 1024) (hob : d.outbuf.length = 682)
    (hnb3 : 3 ≤ d.nbuf) (hnn : nn % 3 = 0 ∨ nn = 1024) (hnn1024 : nn ≤ 1024)
    (hnbuf : d.nbuf = min nn (enc b').length)
    (htake : d.buf.take d.nbuf = (enc b').take d.nbuf)
    (hremP : rem d.r = (enc b').drop d.nbuf)
    (hre : d.readErr = none ∨ (d.readErr = some Error.EOF ∧ rem d.r = []))
    (hwin : d.out.1 ≤ d.out.2 ∧ d.out.2 ≤ 682) (hlo : d.leftover = []) :
    ∃ d' p' n err, decoder.Read.chunk d p = some (d', p', n, err) ∧
      p'.length = p.length ∧ n ≤ p.length ∧ n ≤ b'.length ∧ p'.take n = b'.take n ∧
      decInv rem d' (b'.drop n) ∧ err = none ∧ 1 ≤ n := by
  obtain ⟨nr, b1, b2, hnr, h3, hle, hc1, h1023, hb, ht, hd, hl1, hl2, hl682, hlnw⟩ :=
    chunk_cut b' nn d.nbuf hnb3 hnn hnn1024 hnbuf
  have hs : d.buf.take nr = enc b1 := by
    have : d.buf.take nr = (d.buf.take d.nbuf).take nr := by
      rw [List.take_take, Nat.min_eq_left hle]
    rw [this, htake, List.take_take, Nat.min_eq_left hle, ht]
  obtain ⟨d1, p', n, hdc, e1, e2, e3, e4, e5, hob1, hw1, hw2, hpl, hn1, hnp, hnb, hpt, hlo1⟩ :=
    decodeChunk_spec d p b1 nr (DecodedLen d.nbuf) hp hob hs (by omega) hl2 hl682 hlnw hwin hlo
  obtain ⟨buf, hsh, hbl, hbt⟩ := shift_spec d1 nr (by rw [e4]; exact hbuf) (by rw [e5]; exact hle)
    (by rw [e5]; exact hc1) h1023
  refine ⟨{ d1 with nbuf := d1.nbuf - nr, buf := buf }, p', n, none, ?_, hpl, hnp, ?_, ?_, ?_,
    rfl, hn1⟩
  · simp only [decoder.Read.chunk, hnr, hdc, hsh, Option.bind_eq_bind, Option.some_bind, e1]
  · rw [hb, List.length_append]; omega
  · rw [hpt, hb, List.take_append_of_le_length hnb]
  · refine ⟨hbl, hob1, by show d1.nbuf - nr ≤ 1; rw [e5]; exact hc1, hw1, hw2, ?_, Or.inl e1,
      b2, ?_, ?_⟩
    · show d1.readErr = none ∨ (d1.readErr = some Error.EOF ∧ rem d1.r = [])
      rw [e2, e3]; exact hre
    · show b'.drop n = decoder.leftover { d1 with nbuf := d1.nbuf - nr, buf := buf } ++ b2
      have : decoder.leftover { d1 with nbuf := d1.nbuf - nr, buf := buf } = d1.leftover := rfl
      rw [this, hlo1, hb, List.drop_append_of_le_length hnb]
    · show buf.take (d1.nbuf - nr) ++ rem d1.r = enc b2
      rw [hbt, e3, e4, e5, htake, hremP, ← hd]
      exact drop_take_glue _ _ _ hle (by omega)

/-- One `Read` into a destination of at least one byte, on a decoder over a
source that holds a valid text: it delivers at least one of the bytes still to
come, in order, with a nil error, or, when none is left, returns `io.EOF`. -/
theorem Read_spec {ρ : Type} (R : Reader ρ) (rem : ρ → List Byte) (hR : holdsText R rem)
    (fuel : Nat) (hfuel : 3 ≤ fuel) (d : decoder ρ) (left p : List Byte)
    (hinv : decInv rem d left) (hp : 1 ≤ p.length) :
    ∃ d' p' n err, decoder.Read R fuel d p = some (d', p', n, err) ∧
      p'.length = p.length ∧ n ≤ p.length ∧ n ≤ left.length ∧ p'.take n = left.take n ∧
      decInv rem d' (left.drop n) ∧
      ((err = none ∧ 1 ≤ n) ∨ (err = some Error.EOF ∧ n = 0 ∧ left = [])) := by
  obtain ⟨hbuf, hob, hnb, hw1, hw2, hre, herr, b', hleft, htext⟩ := hinv
  have hll : d.leftover.length = d.out.2 - d.out.1 := by
    simp only [decoder.leftover, List.length_drop, List.length_take]; omega
  by_cases hwin : d.out.2 - d.out.1 > 0
  · -- leftover output from the last read
    have hdel := deliver_spec d p hw1 (by omega)
    have hmin1 : 1 ≤ min p.length d.leftover.length := by omega
    have hminl : min p.length d.leftover.length ≤ d.leftover.length := Nat.min_le_right _ _
    refine ⟨{ d with out := (d.out.1 + min p.length d.leftover.length, d.out.2) },
      d.leftover.take (min p.length d.leftover.length)
        ++ p.drop (min p.length d.leftover.length),
      min p.length d.leftover.length, none, ?_, ?_, Nat.min_le_left _ _, ?_, ?_, ?_,
      Or.inl ⟨rfl, hmin1⟩⟩
    · simp only [decoder.Read, hwin, if_true, hdel, Option.bind_eq_bind, Option.some_bind]
    · simp only [List.length_append, List.length_take, List.length_drop]; omega
    · rw [hleft, List.length_append]; omega
    · rw [hleft, List.take_append_of_le_length hminl,
        List.take_append_of_le_length (by simp only [List.length_take]; omega),
        List.take_take, Nat.min_self]
    · refine ⟨hbuf, hob, hnb, by show d.out.1 + _ ≤ d.out.2; omega, hw2, hre, ?_, b', ?_, htext⟩
      · rcases herr with h | ⟨_, h⟩
        · exact Or.inl h
        · rw [h] at hleft
          have : d.leftover = [] := (List.append_eq_nil.mp hleft.symm).1
          rw [this] at hll
          simp only [List.length_nil] at hll
          omega
      · rw [leftover_drop, hleft, List.drop_append_of_le_length hminl]
  · have hlo : d.leftover = [] := List.length_eq_zero.mp (by omega)
    rw [hlo, List.nil_append] at hleft
    by_cases he : d.err = none
    · obtain ⟨d1, hrf, e1, e2, e3, hbuf1, hnbuf1, htake1, hrem1, hlt3, hre1⟩ :=
        refill_spec R rem hR p.length fuel d hfuel hbuf hnb hre
      rw [htext] at hnbuf1 htake1 hrem1
      obtain ⟨hn3, hn1024, hnn⟩ := refillLen_spec p.length
      have hlo1 : d1.leftover = [] := by
        have : d1.leftover = d.leftover := by simp only [decoder.leftover, e2, e3]
        rw [this, hlo]
      have hwin1 : d1.out.1 ≤ d1.out.2 ∧ d1.out.2 ≤ 682 := by rw [e2]; exact ⟨hw1, hw2⟩
      by_cases h3 : d1.nbuf < 3
      · -- the end of the text
        obtain ⟨hre3, hrem3⟩ := hlt3 h3
        have hall : d1.buf.take d1.nbuf = enc b' := by
          rw [htake1]
          apply List.take_of_length_le
          rw [hnbuf1] at h3 ⊢
          omega
        obtain ⟨d', p', n, err, hfin, r1, r2, r3, r4, r5, r6⟩ :=
          final_spec rem d1 p b' hp hbuf1 (by rw [e3]; exact hob) h3 hre3 hrem3 hwin1 hlo1 hall
        refine ⟨d', p', n, err, ?_, r1, r2, by rw [hleft]; exact r3, by rw [hleft]; exact r4,
          by rw [hleft]; exact r5, ?_⟩
        · simp only [decoder.Read, hwin, if_false, he, ne_eq, not_true_eq_false, hrf,
            Option.bind_eq_bind, Option.some_bind]
          rw [if_pos (by simpa only [encodedChunkSize] using h3)]
          exact hfin
        · rw [hleft]; exact r6
      · -- at least one block
        obtain ⟨d', p', n, err, hch, r1, r2, r3, r4, r5, r6, r7⟩ :=
          chunk_spec rem d1 p b' (refillLen p.length 1024) hp hbuf1 (by rw [e3]; exact hob)
            (by omega) hnn hn1024 hnbuf1 htake1 hrem1 hre1 hwin1 hlo1
        refine ⟨d', p', n, err, ?_, r1, r2, by rw [hleft]; exact r3, by rw [hleft]; exact r4,
          by rw [hleft]; exact r5, Or.inl ⟨r6, r7⟩⟩
        simp only [decoder.Read, hwin, if_false, he, ne_eq, not_true_eq_false, hrf,
          Option.bind_eq_bind, Option.some_bind]
        rw [if_neg (by simpa only [encodedChunkSize] using h3)]
        exact hch
    · -- the sticky error, which is `io.EOF`
      rcases herr with h | ⟨h, hl⟩
      · exact absurd h he
      · refine ⟨d, p, 0, d.err, ?_, rfl, Nat.zero_le _, Nat.zero_le _, rfl, ?_,
          Or.inr ⟨h, rfl, hl⟩⟩
        · simp only [decoder.Read, hwin, if_false, he, ne_eq, not_false_eq_true, if_true]
        · rw [List.drop_zero]
          exact ⟨hbuf, hob, hnb, hw1, hw2, hre, Or.inr ⟨h, hl⟩, b', by rw [hlo]; exact hleft,
            htext⟩

theorem NewDecoder_inv {ρ : Type} (rem : ρ → List Byte) (r0 : ρ) (b : List Byte)
    (h0 : rem r0 = enc b) : decInv rem (NewDecoder r0) b := by
  refine ⟨List.length_replicate _ _, List.length_replicate _ _, Nat.zero_le _, Nat.le_refl _,
    Nat.zero_le _, Or.inl rfl, Or.inl rfl, b, ?_, ?_⟩
  · show b = (List.drop 0 (List.take 0 _)) ++ b
    rfl
  · show List.take 0 _ ++ rem r0 = enc b
    rw [h0]; rfl

theorem ReadSeq_spec {ρ : Type} (R : Reader ρ) (rem : ρ → List Byte) (hR : holdsText R rem)
    (fuel : Nat) (hfuel : 3 ≤ fuel) (ps : List (List Byte)) :
    ∀ (d : decoder ρ) (left : List Byte), decInv rem d left → (∀ p ∈ ps, 1 ≤ p.length) →
      ∃ out e, decoder.ReadSeq R fuel d ps = some (out, e) ∧ (∃ rest, left = out ++ rest) ∧
        (e = none ∨ (e = some Error.EOF ∧ out = left)) ∧
        (left.length < ps.length → e = some Error.EOF) := by
  induction ps with
  | nil =>
    intro d left _ _
    exact ⟨[], none, rfl, ⟨left, rfl⟩, Or.inl rfl, fun h => absurd h (Nat.not_lt_zero _)⟩
  | cons p ps ih =>
    intro d left hinv hps
    obtain ⟨d', p', n, err, hrd, hpl, hnp, hnl, hpt, hinv', hres⟩ :=
      Read_spec R rem hR fuel hfuel d left p hinv (hps p (List.mem_cons_self _ _))
    have hsl : sliceTo p' n = some (left.take n) := by
      simp only [sliceTo]; rw [if_pos (by omega), hpt]
    rcases hres with ⟨he, hn1⟩ | ⟨he, hn0, hl⟩
    · subst he
      obtain ⟨out, e, hseq, ⟨rest, hrest⟩, hfin, hlong⟩ :=
        ih d' (left.drop n) hinv' (fun q hq => hps q (List.mem_cons_of_mem _ hq))
      refine ⟨left.take n ++ out, e, ?_, ⟨rest, ?_⟩, ?_, ?_⟩
      · simp [decoder.ReadSeq, hrd, hsl, hseq]
      · rw [List.append_assoc, ← hrest, List.take_append_drop]
      · rcases hfin with h | ⟨h, ho⟩
        · exact Or.inl h
        · exact Or.inr ⟨h, by rw [ho, List.take_append_drop]⟩
      · intro hlt
        apply hlong
        simp only [List.length_drop, List.length_cons] at hlt ⊢
        omega
    · subst he hn0 hl
      refine ⟨[], some Error.EOF, ?_, ⟨[], rfl⟩, Or.inr ⟨rfl, rfl⟩, fun _ => rfl⟩
      simp [decoder.ReadSeq, hrd, hsl]

theorem stringsReader_holdsText : holdsText stringsReader id := by
  intro s m
  constructor
  · intro h
    simp only [id] at h
    subst h
    exact ⟨rfl, rfl⟩
  · intro h
    have hs : s ≠ [] := h
    simp [stringsReader, hs]



/-! ## More on what `Decode` computes -/

theorem dec_length_eq : ∀ (s : List Byte) (off : Nat), (dec off s).2 = none →
    (dec off s).1.length = DecodedLen s.length
  | [], off, _ => by simp [dec_nil, DecodedLen, chunkSize, encodedChunkSize]
  | [c0], off, h => by simp [dec, decBlock] at h
  | [c0, c1], off, h => by
    by_cases hv : dm c0 = 255 ∨ dm c1 = 255
    · simp [dec, decBlock, hv] at h
    · simp [dec, decBlock, hv, DecodedLen, chunkSize, encodedChunkSize]
  | c0 :: c1 :: c2 :: rest, off, h => by
    have e : DecodedLen (rest.length + 1 + 1 + 1) = DecodedLen rest.length + 2 :=
      DecodedLen_add3 rest.length
    simp only [List.length_cons, e]
    by_cases hv : dm c0 = 255 ∨ dm c1 = 255 ∨ dm c2 = 255
    · simp [dec, decBlock, hv] at h
    · by_cases hb : blockVal c0 c1 c2 > 0xFFFF
      · simp [dec, decBlock, hv, hb] at h
      · simp only [dec, decBlock, hv, hb, if_false, ne_eq, not_true_eq_false] at h ⊢
        have ih := dec_length_eq rest (off + 3) h
        simp only [List.cons_append, List.nil_append, List.length_cons, ih]

set_option maxRecDepth 1000000 in
theorem dm_lt : ∀ c : Byte, dm c ≠ 255 → (dm c).val < 45 := by decide

set_option maxRecDepth 1000000 in
theorem alpha_dm : ∀ c : Byte, dm c ≠ 255 → alpha (dm c).val = c := by decide

theorem shortVal_le (c0 c1 : Byte) (h0 : dm c0 ≠ 255) (h1 : dm c1 ≠ 255) :
    shortVal c0 c1 ≤ 2024 := by
  have a := dm_lt c0 h0
  have b := dm_lt c1 h1
  simp only [shortVal, baseSize]
  omega

theorem toByte_of_lt (v : Nat) (h : v < 256) : (toByte v).val = v := by
  simp only [toByte]
  exact Nat.mod_eq_of_lt h

theorem encOne_short (c0 c1 : Byte) (h0 : dm c0 ≠ 255) (h1 : dm c1 ≠ 255)
    (hv : shortVal c0 c1 ≤ 255) : encOne (toByte (shortVal c0 c1 % 256)) = [c0, c1] := by
  have a := dm_lt c0 h0
  have b := dm_lt c1 h1
  have e0 : shortVal c0 c1 % 256 = shortVal c0 c1 := Nat.mod_eq_of_lt (by omega)
  have e1 : shortVal c0 c1 % baseSize = (dm c0).val := by
    simp only [shortVal, baseSize]; omega
  have e2 : shortVal c0 c1 / baseSize % baseSize = (dm c1).val := by
    simp only [shortVal, baseSize]
    have : ((dm c0).val + 45 * (dm c1).val) / 45 = (dm c1).val := by omega
    rw [this]
    exact Nat.mod_eq_of_lt b
  rw [encOne, e0, toByte_of_lt _ (by omega), e1, e2, alpha_dm c0 h0, alpha_dm c1 h1]

theorem encPair_block (c0 c1 c2 : Byte) (h0 : dm c0 ≠ 255) (h1 : dm c1 ≠ 255)
    (h2 : dm c2 ≠ 255) (hv : blockVal c0 c1 c2 ≤ 65535) :
    encPair (toByte (blockVal c0 c1 c2 / 256)) (toByte (blockVal c0 c1 c2 % 256))
      = [c0, c1, c2] := by
  have a := dm_lt c0 h0
  have b := dm_lt c1 h1
  have c := dm_lt c2 h2
  have ev : 256 * (toByte (blockVal c0 c1 c2 / 256)).val + (toByte (blockVal c0 c1 c2 % 256)).val
      = blockVal c0 c1 c2 := by
    rw [toByte_of_lt _ (by omega), toByte_of_lt _ (by omega)]
    omega
  have e1 : blockVal c0 c1 c2 % baseSize = (dm c0).val := by
    simp only [blockVal, baseSize]; omega
  have e2 : blockVal c0 c1 c2 / baseSize % baseSize = (dm c1).val := by
    simp only [blockVal, baseSize]
    have : ((dm c0).val + 45 * (dm c1).val + 45 * 45 * (dm c2).val) / 45
        = (dm c1).val + 45 * (dm c2).val := by omega
    rw [this]; omega
  have e3 : blockVal c0 c1 c2 / (baseSize * baseSize) % baseSize = (dm c2).val := by
    simp only [blockVal, baseSize]
    have : ((dm c0).val + 45 * (dm c1).val + 45 * 45 * (dm c2).val) / (45 * 45)
        = (dm c2).val := by omega
    rw [this]
    exact Nat.mod_eq_of_lt c
  simp only [encPair, ev, e1, e2, e3, alpha_dm c0 h0, alpha_dm c1 h1, alpha_dm c2 h2]

/-- Encoding what `Decode` made of a text gives the text back, when the
decoding ended without error and the short block at the end, if there is one,
has a value that fits in a byte. -/
theorem enc_dec : ∀ (s : List Byte) (off : Nat), (dec off s).2 = none →
    (∀ pre c0 c1, s = pre ++ [c0, c1] → pre.length % 3 = 0 → shortVal c0 c1 ≤ 255) →
    enc (dec off s).1 = s
  | [], off, _, _ => by simp [dec_nil, enc]
  | [c0], off, h, _ => by simp [dec, decBlock] at h
  | [c0, c1], off, h, hc => by
    by_cases hv : dm c0 = 255 ∨ dm c1 = 255
    · simp [dec, decBlock, hv] at h
    · have hv' := not_or.mp hv
      have hs := hc [] c0 c1 rfl rfl
      simp only [dec, decBlock, hv, if_false, enc]
      exact encOne_short c0 c1 hv'.1 hv'.2 hs
  | c0 :: c1 :: c2 :: rest, off, h, hc => by
    by_cases hv : dm c0 = 255 ∨ dm c1 = 255 ∨ dm c2 = 255
    · simp [dec, decBlock, hv] at h
    · by_cases hb : blockVal c0 c1 c2 > 0xFFFF
      · simp [dec, decBlock, hv, hb] at h
      · simp only [dec, decBlock, hv, hb, if_false, ne_eq, not_true_eq_false] at h ⊢
        have hv' := not_or.mp hv
        have hv'' := not_or.mp hv'.2
        have ih := enc_dec rest (off + 3) h (fun pre a b hs hp =>
          hc (c0 :: c1 :: c2 :: pre) a b (by rw [hs]; rfl)
            (by simp only [List.length_cons]; omega))
        have e : enc (toByte (blockVal c0 c1 c2 / 256) :: toByte (blockVal c0 c1 c2 % 256)
            :: (dec (off + 3) rest).1) = c0 :: c1 :: c2 :: rest := by
          rw [enc, ih, encPair_block c0 c1 c2 hv'.1 hv''.1 hv''.2 (by omega)]
          rfl
        exact e

set_option maxRecDepth 100000 in
theorem encode_nodup : encode.Nodup := by decide

set_option maxRecDepth 100000 in
theorem sentinel_count : (decodeMap.filter (fun v => decide (v = 255))).length = 211 := by
  decide

/-! ## The stream encoder: what one `Write` adds to the sink -/

theorem trailing_spec (p buf : List Byte) (hp : p.length ≤ 1) (hbuf : buf.length = 2) :
    ∃ buf', encoder.Write.trailing p (p.length + 1) buf 0 = some buf' ∧ buf'.length = 2 ∧
      buf'.take p.length = p := by
  obtain ⟨x, z, rfl⟩ := list_two buf hbuf
  match p, hp with
  | [], _ => exact ⟨[x, z], trailing_nil 0 _, rfl, rfl⟩
  | [y], _ => exact ⟨[y, z], trailing_one 0 x z y, rfl, rfl⟩

/-- The part of `Write` after the leading fringe, with a sink that never
fails: the whole 2-byte blocks of `p` are encoded and written, the odd byte is
kept. -/
theorem Write_rest_rel {σ : Type} (W : Writer σ) (held : σ → List Byte)
    (hW : ∀ s p, (W.Write s p).2.2 = none ∧ held (W.Write s p).1 = held s ++ p)
    (e : encoder σ) (p : List Byte) (n : Nat)
    (herr : e.err = none) (hbuf : e.buf.length = 2) (hout : e.out.length = 1024) :
    ∃ e', (do
        match ← encoder.Write.interior W (p.length + 1) e p n with
        | Sum.inl r => some r
        | Sum.inr (e, p, n) =>
          let buf ← encoder.Write.trailing p (p.length + 1) e.buf 0
          some ({ e with buf := buf, nbuf := p.length }, n + p.length, none))
        = some (e', n + p.length, none) ∧
      e'.err = none ∧ e'.buf.length = 2 ∧ e'.out.length = 1024 ∧ e'.nbuf = p.length % 2 ∧
      held e'.w = held e.w ++ enc (p.take (2 * (p.length / 2))) ∧
      e'.buf.take e'.nbuf = p.drop (2 * (p.length / 2)) := by
  obtain ⟨e1, h1, hb, hn, he, ho, hh⟩ := interior_spec W held hW p.length (p.length + 1) e p n
    (Nat.le_refl _) (Nat.lt_succ_self _) hout herr
  have hlen : (p.drop (2 * (p.length / 2))).length = p.length % 2 := by
    simp only [List.length_drop]; omega
  obtain ⟨buf', ht, hbl, hbt⟩ := trailing_spec (p.drop (2 * (p.length / 2))) e1.buf
    (by omega) (by rw [hb]; exact hbuf)
  refine ⟨{ e1 with buf := buf', nbuf := (p.drop (2 * (p.length / 2))).length }, ?_, he, hbl, ho,
    hlen, hh, hbt⟩
  rw [h1]
  simp only [Option.bind_eq_bind, Option.some_bind, ht]
  congr 3
  rw [hlen]; omega

/-- A `Write` on an encoder that has not failed, with a sink that never
fails: it takes all of `p`, adds to the sink the encoding of the whole 2-byte
blocks of the pending byte followed by `p`, and keeps the odd byte. -/
theorem Write_rel {σ : Type} (W : Writer σ) (held : σ → List Byte)
    (hW : ∀ s p, (W.Write s p).2.2 = none ∧ held (W.Write s p).1 = held s ++ p)
    (e : encoder σ) (p : List Byte)
    (herr : e.err = none) (hbuf : e.buf.length = 2) (hout : e.out.length = 1024)
    (hnb : e.nbuf ≤ 1) :
    ∃ e', encoder.Write W e p = some (e', p.length, none) ∧
      e'.err = none ∧ e'.buf.length = 2 ∧ e'.out.length = 1024 ∧
      e'.nbuf = (e.nbuf + p.length) % 2 ∧
      held e'.w = held e.w
        ++ enc ((e.buf.take e.nbuf ++ p).take (2 * ((e.nbuf + p.length) / 2))) ∧
      e'.buf.take e'.nbuf = (e.buf.take e.nbuf ++ p).drop (2 * ((e.nbuf + p.length) / 2)) := by
  obtain ⟨x, z, hxz⟩ := list_two e.buf hbuf
  have hnb' : e.nbuf = 0 ∨ e.nbuf = 1 := by omega
  rcases hnb' with h0 | h1
  · have hfr : encoder.Write.fringe W e p = some (Sum.inr (e, p, 0)) := by
      simp [encoder.Write.fringe, h0]
    obtain ⟨e', h', r1, r2, r3, r4, r5, r6⟩ := Write_rest_rel W held hW e p 0 herr hbuf hout
    refine ⟨e', ?_, r1, r2, r3, by rw [r4, h0, Nat.zero_add], ?_, ?_⟩
    · rw [encoder.Write, if_neg (by simp [herr]), hfr]
      simp only [Option.bind_eq_bind, Option.some_bind, Nat.zero_add] at h' ⊢
      exact h'
    · rw [r5, h0]; simp
    · rw [r6, h0]; simp
  · match p with
    | [] =>
      have hpos : e.nbuf > 0 := by omega
      have hlt : e.nbuf < chunkSize := by simp only [chunkSize]; omega
      have hfr : encoder.Write.fringe W e [] = some (Sum.inl (e, 0, none)) := by
        simp [encoder.Write.fringe, hpos, leading_nil, sliceFrom, hlt]
      refine ⟨e, ?_, herr, hbuf, hout, by rw [h1]; rfl, ?_, ?_⟩
      · rw [encoder.Write, if_neg (by simp [herr]), hfr]
        simp
      · rw [h1]; simp [enc]
      · rw [h1]; simp
    | y :: p' =>
      have hE : EncodedLen ([x, y] : List Byte).length = 3 := by
        simp [EncodedLen, chunkSize, encodedChunkSize]
      have hEnc := Encode_spec e.out [x, y] (by rw [hE, hout]; omega)
      have hencl : (enc [x, y]).length = 3 := by rw [enc_length, hE]
      rw [hE] at hEnc
      have hchunk : sliceTo (enc [x, y] ++ e.out.drop 3) encodedChunkSize = some (enc [x, y]) := by
        have e1 : encodedChunkSize = (enc [x, y]).length := by rw [hencl]; rfl
        rw [e1]
        simp [sliceTo]
      rcases hwr : W.Write e.w (enc [x, y]) with ⟨w', cnt, err'⟩
      have hw1 := (hW e.w (enc [x, y])).1
      have hw2 := (hW e.w (enc [x, y])).2
      rw [hwr] at hw1 hw2
      simp only at hw1 hw2
      subst hw1
      have hfr : encoder.Write.fringe W e (y :: p')
          = some (Sum.inr (encoder.mk none w' [x, y] 0 (enc [x, y] ++ e.out.drop 3), p', 1)) := by
        have hl := leading_cons p'.length x z y p'
        simp only [encoder.Write.fringe, h1, hxz, List.length_cons, hl, Option.bind_eq_bind,
          Option.some_bind, sliceFrom, chunkSize, hEnc, hchunk, hwr]
        simp
      obtain ⟨e', h', r1, r2, r3, r4, r5, r6⟩ := Write_rest_rel W held hW
        (encoder.mk none w' [x, y] 0 (enc [x, y] ++ e.out.drop 3)) p' 1 rfl rfl
        (by simp only [List.length_append, List.length_drop, hencl, hout])
      have hk : (1 + (p'.length + 1)) / 2 = 1 + p'.length / 2 := by omega
      refine ⟨e', ?_, r1, r2, r3, ?_, ?_, ?_⟩
      · rw [encoder.Write, if_neg (by simp [herr]), hfr]
        simp only [Option.bind_eq_bind, Option.some_bind, List.length_cons] at h' ⊢
        rw [Nat.add_comm 1 p'.length] at h'
        exact h'
      · rw [r4, h1, List.length_cons]; omega
      · rw [r5, h1, hxz, List.length_cons, hk]
        show held w' ++ _ = _
        rw [hw2, List.append_assoc, ← enc_append 1 [x, y] _ rfl]
        have e2 : 2 * (1 + p'.length / 2) = (2 * (p'.length / 2)) + 1 + 1 := by omega
        rw [e2]
        rfl
      · rw [r6, h1, hxz, List.length_cons, hk]
        have e2 : 2 * (1 + p'.length / 2) = (2 * (p'.length / 2)) + 1 + 1 := by omega
        rw [e2]
        rfl

theorem Close_rel {σ : Type} (W : Writer σ) (held : σ → List Byte)
    (hW : ∀ s p, (W.Write s p).2.2 = none ∧ held (W.Write s p).1 = held s ++ p)
    (e : encoder σ) (herr : e.err = none) (hbuf : e.buf.length = 2)
    (hout : e.out.length = 1024) (hnb : e.nbuf ≤ 1) :
    ∃ e', encoder.Close W e = some (e', none) ∧ e'.nbuf = 0 ∧
      held e'.w = held e.w ++ enc (e.buf.take e.nbuf) := by
  obtain ⟨x, z, hxz⟩ := list_two e.buf hbuf
  have hnb' : e.nbuf = 0 ∨ e.nbuf = 1 := by omega
  rcases hnb' with h0 | h1
  · refine ⟨e, ?_, h0, ?_⟩
    · simp [encoder.Close, h0, herr]
    · rw [h0]; simp [enc]
  · have hE : EncodedLen ([x] : List Byte).length = 2 := by
      simp [EncodedLen, chunkSize, encodedChunkSize]
    have hEnc := Encode_spec e.out [x] (by rw [hE, hout]; omega)
    have hencl : (enc [x]).length = 2 := by rw [enc_length, hE]
    rw [hE] at hEnc
    have hchunk : sliceTo (enc [x] ++ e.out.drop 2) (EncodedLen 1) = some (enc [x]) := by
      have e1 : EncodedLen 1 = (enc [x]).length := by rw [hencl]; exact hE
      rw [e1]
      simp [sliceTo]
    rcases hwr : W.Write e.w (enc [x]) with ⟨w', cnt, err'⟩
    have hw1 := (hW e.w (enc [x])).1
    have hw2 := (hW e.w (enc [x])).2
    rw [hwr] at hw1 hw2
    simp only at hw1 hw2
    subst hw1
    refine ⟨encoder.mk none w' e.buf 0 (enc [x] ++ e.out.drop 2), ?_, rfl, ?_⟩
    · have hs : sliceTo e.buf 1 = some [x] := by simp [sliceTo, hxz]
      simp only [encoder.Close, h1, herr, hs, hEnc, hchunk, hwr, Option.bind_eq_bind,
        Option.some_bind]
      simp
    · show held w' = _
      rw [hw2, h1, hxz]
      rfl

/-! ## The stream encoder over a sink that may fail -/

theorem sink_step {σ : Type} (W : Writer σ) (failed : σ → Option Error)
    (hlog : ∀ s c, failed (W.Write s c).1
      = if failed s = none then (W.Write s c).2.2 else failed s)
    (s : σ) (c : List Byte) (hs : failed s = none) :
    failed (W.Write s c).1 = (W.Write s c).2.2 := by
  rw [hlog, if_pos hs]

/-- The interior loop of `Write` over any sink: it ends, either by a `return`
with the error of the sink, now the encoder's, or with fewer than two bytes
left and no error. -/
theorem interior_gen {σ : Type} (W : Writer σ) (failed : σ → Option Error)
    (hlog : ∀ s c, failed (W.Write s c).1
      = if failed s = none then (W.Write s c).2.2 else failed s) (k : Nat) :
    ∀ (fuel : Nat) (e : encoder σ) (p : List Byte) (n : Nat), p.length ≤ k → p.length < fuel →
      e.out.length = 1024 → e.err = none → failed e.w = none →
      (∃ e' n', encoder.Write.interior W fuel e p n = some (Sum.inl (e', n', e'.err)) ∧
        e'.err ≠ none ∧ e'.err = failed e'.w ∧ e'.buf = e.buf ∧ e'.nbuf = e.nbuf ∧
        e'.out.length = 1024) ∨
      (∃ e' p' n', encoder.Write.interior W fuel e p n = some (Sum.inr (e', p', n')) ∧
        e'.err = none ∧ failed e'.w = none ∧ p'.length ≤ 1 ∧ e'.buf = e.buf ∧
        e'.nbuf = e.nbuf ∧ e'.out.length = 1024) := by
  induction k using Nat.strong_induction_on with
  | _ k ih =>
    intro fuel e p n hk hf hout herr hfl
    obtain ⟨f, rfl⟩ : ∃ f, fuel = f + 1 := ⟨fuel - 1, by omega⟩
    by_cases hp : p.length ≥ chunkSize
    · simp only [chunkSize] at hp
      obtain ⟨nn, hnn_def, hnn2, hnnle, hnnge, hnn682⟩ : ∃ nn,
          (if e.out.length / encodedChunkSize * chunkSize > p.length
            then p.length - p.length % chunkSize
            else e.out.length / encodedChunkSize * chunkSize) = nn ∧
          nn % 2 = 0 ∧ nn ≤ p.length ∧ 2 ≤ nn ∧ nn ≤ 682 := by
        refine ⟨_, rfl, ?_⟩
        simp only [hout, chunkSize, encodedChunkSize]
        split <;> omega
      have hE : EncodedLen (p.take nn).length = 3 * (nn / 2) := by
        rw [EncodedLen_eq, List.length_take]
        have : min nn p.length = nn := by omega
        rw [this]; omega
      have hEnc := Encode_spec e.out (p.take nn) (by rw [hE, hout]; omega)
      have hencl : (enc (p.take nn)).length = 3 * (nn / 2) := by rw [enc_length, hE]
      have hchunk : sliceTo (enc (p.take nn) ++ e.out.drop (EncodedLen (p.take nn).length))
          (nn / chunkSize * encodedChunkSize) = some (enc (p.take nn)) := by
        have e1 : nn / chunkSize * encodedChunkSize = (enc (p.take nn)).length := by
          simp only [chunkSize, encodedChunkSize, hencl]; omega
        rw [e1]
        simp [sliceTo]
      have hs1 : sliceTo p nn = some (p.take nn) := by simp [sliceTo, hnnle]
      have hs2 : sliceFrom p nn = some (p.drop nn) := by simp [sliceFrom, hnnle]
      have hol : (enc (p.take nn) ++ e.out.drop (EncodedLen (p.take nn).length)).length = 1024 := by
        simp only [List.length_append, List.length_drop, hencl, hE, hout]; omega
      have hstep := sink_step W failed hlog e.w (enc (p.take nn)) hfl
      rcases hwr : W.Write e.w (enc (p.take nn)) with ⟨w', cnt, err'⟩
      rw [hwr] at hstep
      simp only at hstep
      rw [encoder.Write.interior, if_pos (by simpa only [chunkSize] using hp)]
      simp only [hnn_def, hs1, hs2, hEnc, hchunk, hwr, Option.bind_eq_bind, Option.some_bind]
      by_cases herr' : err' = none
      · subst herr'
        have := ih (p.drop nn).length (by simp only [List.length_drop]; omega) f
          (encoder.mk none w' e.buf e.nbuf
            (enc (p.take nn) ++ e.out.drop (EncodedLen (p.take nn).length)))
          (p.drop nn) (n + nn) (Nat.le_refl _) (by simp only [List.length_drop]; omega)
          hol rfl hstep
        simpa using this
      · left
        refine ⟨encoder.mk err' w' e.buf e.nbuf
          (enc (p.take nn) ++ e.out.drop (EncodedLen (p.take nn).length)), n, ?_, herr',
          hstep.symm, rfl, rfl, hol⟩
        simp [herr']
    · right
      refine ⟨e, p, n, ?_, herr, hfl, by simp only [chunkSize] at hp; omega, rfl, rfl, hout⟩
      rw [encoder.Write.interior, if_neg hp]

/-- The part of `Write` after the leading fringe, over any sink. -/
theorem Write_rest_gen {σ : Type} (W : Writer σ) (failed : σ → Option Error)
    (hlog : ∀ s c, failed (W.Write s c).1
      = if failed s = none then (W.Write s c).2.2 else failed s)
    (e : encoder σ) (p : List Byte) (n : Nat)
    (herr : e.err = none) (hfl : failed e.w = none) (hbuf : e.buf.length = 2)
    (hout : e.out.length = 1024) :
    ∃ e' n', (do
        match ← encoder.Write.interior W (p.length + 1) e p n with
        | Sum.inl r => some r
        | Sum.inr (e, p, n) =>
          let buf ← encoder.Write.trailing p (p.length + 1) e.buf 0
          some ({ e with buf := buf, nbuf := p.length }, n + p.length, none))
        = some (e', n', e'.err) ∧
      e'.sound ∧ e'.err = failed e'.w := by
  rcases interior_gen W failed hlog p.length (p.length + 1) e p n
    (Nat.le_refl _) (Nat.lt_succ_self _) hout herr hfl with
    ⟨e1, n1, h1, hne, hef, hb, _, ho⟩ | ⟨e1, p1, n1, h1, he, hf, hp1, hb, _, ho⟩
  · refine ⟨e1, n1, ?_, ⟨by rw [hb]; exact hbuf, ho, fun h => absurd h hne⟩, hef⟩
    rw [h1]
    rfl
  · obtain ⟨buf', ht, hbl, _⟩ := trailing_spec p1 e1.buf hp1 (by rw [hb]; exact hbuf)
    refine ⟨{ e1 with buf := buf', nbuf := p1.length }, n1 + p1.length, ?_,
      ⟨hbl, ho, fun _ => hp1⟩, ?_⟩
    · rw [h1]
      simp only [Option.bind_eq_bind, Option.some_bind, ht, he]
    · show e1.err = failed e1.w
      rw [he, hf]

/-- A `Write` on an encoder that has not failed, over any sink: it returns,
and the error it returns is the error of the encoder from then on, which is
the first error of the sink. -/
theorem Write_gen {σ : Type} (W : Writer σ) (failed : σ → Option Error)
    (hlog : ∀ s c, failed (W.Write s c).1
      = if failed s = none then (W.Write s c).2.2 else failed s)
    (e : encoder σ) (p : List Byte)
    (hs : e.sound) (herr : e.err = none) (hfl : failed e.w = none) :
    ∃ e' n, encoder.Write W e p = some (e', n, e'.err) ∧ e'.sound ∧ e'.err = failed e'.w := by
  obtain ⟨hbuf, hout, hnb⟩ := hs
  have hnb := hnb herr
  obtain ⟨x, z, hxz⟩ := list_two e.buf hbuf
  have hnb' : e.nbuf = 0 ∨ e.nbuf = 1 := by omega
  rcases hnb' with h0 | h1
  · have hfr : encoder.Write.fringe W e p = some (Sum.inr (e, p, 0)) := by
      simp [encoder.Write.fringe, h0]
    obtain ⟨e', n', h', r1, r2⟩ := Write_rest_gen W failed hlog e p 0 herr hfl hbuf hout
    refine ⟨e', n', ?_, r1, r2⟩
    rw [encoder.Write, if_neg (by simp [herr]), hfr]
    simp only [Option.bind_eq_bind, Option.some_bind] at h' ⊢
    exact h'
  · match p with
    | [] =>
      have hpos : e.nbuf > 0 := by omega
      have hlt : e.nbuf < chunkSize := by simp only [chunkSize]; omega
      have hfr : encoder.Write.fringe W e [] = some (Sum.inl (e, 0, none)) := by
        simp [encoder.Write.fringe, hpos, leading_nil, sliceFrom, hlt]
      refine ⟨e, 0, ?_, ⟨hbuf, hout, fun _ => by omega⟩, by rw [herr, hfl]⟩
      rw [encoder.Write, if_neg (by simp [herr]), hfr, herr]
      simp
    | y :: p' =>
      have hE : EncodedLen ([x, y] : List Byte).length = 3 := by
        simp [EncodedLen, chunkSize, encodedChunkSize]
      have hEnc := Encode_spec e.out [x, y] (by rw [hE, hout]; omega)
      have hencl : (enc [x, y]).length = 3 := by rw [enc_length, hE]
      rw [hE] at hEnc
      have hchunk : sliceTo (enc [x, y] ++ e.out.drop 3) encodedChunkSize = some (enc [x, y]) := by
        have e1 : encodedChunkSize = (enc [x, y]).length := by rw [hencl]; rfl
        rw [e1]
        simp [sliceTo]
      have hol : (enc [x, y] ++ e.out.drop 3).length = 1024 := by
        simp only [List.length_append, List.length_drop, hencl, hout]
      have hstep := sink_step W failed hlog e.w (enc [x, y]) hfl
      rcases hwr : W.Write e.w (enc [x, y]) with ⟨w', cnt, err'⟩
      rw [hwr] at hstep
      simp only at hstep
      have hl := leading_cons p'.length x z y p'
      by_cases herr' : err' = none
      · subst herr'
        have hfr : encoder.Write.fringe W e (y :: p')
            = some (Sum.inr (encoder.mk none w' [x, y] 0 (enc [x, y] ++ e.out.drop 3), p', 1)) := by
          simp only [encoder.Write.fringe, h1, hxz, List.length_cons, hl, Option.bind_eq_bind,
            Option.some_bind, sliceFrom, chunkSize, hEnc, hchunk, hwr]
          simp
        obtain ⟨e', n', h', r1, r2⟩ := Write_rest_gen W failed hlog
          (encoder.mk none w' [x, y] 0 (enc [x, y] ++ e.out.drop 3)) p' 1 rfl hstep rfl hol
        refine ⟨e', n', ?_, r1, r2⟩
        rw [encoder.Write, if_neg (by simp [herr]), hfr]
        simp only [Option.bind_eq_bind, Option.some_bind] at h' ⊢
        exact h'
      · have hfr : encoder.Write.fringe W e (y :: p')
            = some (Sum.inl (encoder.mk err' w' [x, y] 2 (enc [x, y] ++ e.out.drop 3), 1,
                err')) := by
          simp only [encoder.Write.fringe, h1, hxz, List.length_cons, hl, Option.bind_eq_bind,
            Option.some_bind, sliceFrom, chunkSize, hEnc, hchunk, hwr]
          simp [herr']
        refine ⟨encoder.mk err' w' [x, y] 2 (enc [x, y] ++ e.out.drop 3), 1, ?_,
          ⟨rfl, hol, fun h => absurd h herr'⟩, hstep.symm⟩
        rw [encoder.Write, if_neg (by simp [herr]), hfr]
        simp

/-- A `Close` on an encoder that has not failed, over any sink. -/
theorem Close_gen {σ : Type} (W : Writer σ) (failed : σ → Option Error)
    (hlog : ∀ s c, failed (W.Write s c).1
      = if failed s = none then (W.Write s c).2.2 else failed s)
    (e : encoder σ) (hs : e.sound) (herr : e.err = none) (hfl : failed e.w = none) :
    ∃ e', encoder.Close W e = some (e', e'.err) ∧ e'.sound ∧ e'.err = failed e'.w := by
  obtain ⟨hbuf, hout, hnb⟩ := hs
  have hnb := hnb herr
  obtain ⟨x, z, hxz⟩ := list_two e.buf hbuf
  have hnb' : e.nbuf = 0 ∨ e.nbuf = 1 := by omega
  rcases hnb' with h0 | h1
  · refine ⟨e, ?_, ⟨hbuf, hout, fun _ => by omega⟩, by rw [herr, hfl]⟩
    simp [encoder.Close, h0, herr]
  · have hE : EncodedLen ([x] : List Byte).length = 2 := by
      simp [EncodedLen, chunkSize, encodedChunkSize]
    have hEnc := Encode_spec e.out [x] (by rw [hE, hout]; omega)
    have hencl : (enc [x]).length = 2 := by rw [enc_length, hE]
    rw [hE] at hEnc
    have hchunk : sliceTo (enc [x] ++ e.out.drop 2) (EncodedLen 1) = some (enc [x]) := by
      have e1 : EncodedLen 1 = (enc [x]).length := by rw [hencl]; exact hE
      rw [e1]
      simp [sliceTo]
    have hstep := sink_step W failed hlog e.w (enc [x]) hfl
    rcases hwr : W.Write e.w (enc [x]) with ⟨w', cnt, err'⟩
    rw [hwr] at hstep
    simp only at hstep
    refine ⟨encoder.mk err' w' e.buf 0 (enc [x] ++ e.out.drop 2), ?_,
      ⟨hbuf, by simp only [List.length_append, List.length_drop, hencl, hout],
        fun _ => Nat.zero_le _⟩, hstep.symm⟩
    have hs : sliceTo e.buf 1 = some [x] := by simp [sliceTo, hxz]
    simp only [encoder.Close, h1, herr, hs, hEnc, hchunk, hwr, Option.bind_eq_bind,
      Option.some_bind]
    simp

/-- An encoder that has failed: `Write` and `Close` return its error and
change nothing. -/
theorem failed_sticky {σ : Type} (W : Writer σ) (e : encoder σ) (x : Error)
    (h : e.err = some x) (q : List Byte) :
    encoder.Write W e q = some (e, 0, some x) ∧ encoder.Close W e = some (e, some x) := by
  constructor
  · rw [encoder.Write, if_pos (by simp [h]), h]
  · rw [encoder.Close, if_neg (by simp [h]), h]

/-- The second component of the state of a `limitedBuffer` is the first error
it has returned. -/
theorem limitedBuffer_log (cap : Nat) (x : Error) (s : List Byte × Option Error)
    (c : List Byte) :
    ((limitedBuffer cap x).Write s c).1.2
      = if s.2 = none then ((limitedBuffer cap x).Write s c).2.2 else s.2 := by
  simp only [limitedBuffer]
  by_cases h : s.1.length + c.length ≤ cap
  · simp only [if_pos h]
    split
    · next h2 => rw [h2]
    · rfl
  · simp only [if_neg h]

/-! ## The stream decoder over any source that respects the requested length -/

theorem refillBody_bound {ρ : Type} (R : Reader ρ)
    (hR : ∀ s m, (R.Read s m).2.1.length ≤ m) (plen : Nat) (d : decoder ρ)
    (hbuf : d.buf.length = 1024) (hnb : d.nbuf ≤ refillLen plen 1024) :
    (decoder.Read.refillBody R plen d).buf.length = 1024 ∧
      (decoder.Read.refillBody R plen d).nbuf ≤ refillLen plen 1024 ∧
      d.nbuf ≤ (decoder.Read.refillBody R plen d).nbuf := by
  have h := hR d.r (refillLen plen d.buf.length - d.nbuf)
  obtain ⟨_, h1024, _⟩ := refillLen_spec plen
  rw [hbuf] at h
  refine ⟨?_, ?_, ?_⟩
  · simp only [decoder.Read.refillBody, List.length_append, List.length_take, List.length_drop,
      hbuf]
    omega
  · simp only [decoder.Read.refillBody, hbuf]
    omega
  · simp only [decoder.Read.refillBody]
    omega

/-- The refill loop over any source that respects the requested length: either
its condition has held `fuel` times, or it has ended, within the buffer. -/
theorem refill_gen {ρ : Type} (R : Reader ρ) (hR : ∀ s m, (R.Read s m).2.1.length ≤ m)
    (plen : Nat) : ∀ (fuel : Nat) (d : decoder ρ),
      d.buf.length = 1024 → d.nbuf ≤ refillLen plen 1024 →
      (decoder.Read.refill R plen fuel d = none ∧ decoder.Read.running R plen fuel d = true) ∨
      (∃ d1, decoder.Read.refill R plen fuel d = some d1 ∧
        decoder.Read.running R plen fuel d = false ∧
        d1.buf.length = 1024 ∧ d1.nbuf ≤ refillLen plen 1024 ∧ d.nbuf ≤ d1.nbuf ∧
        ¬ (d1.nbuf < 3 ∧ d1.readErr = none) ∧
        d1.err = d.err ∧ d1.out = d.out ∧ d1.outbuf = d.outbuf)
  | 0, d, _, _ => Or.inl ⟨rfl, rfl⟩
  | fuel + 1, d, hbuf, hnb => by
    by_cases hc : d.nbuf < encodedChunkSize ∧ d.readErr = none
    · obtain ⟨hb', hn', hmono⟩ := refillBody_bound R hR plen d hbuf hnb
      obtain ⟨_, h1024, _⟩ := refillLen_spec plen
      have hsl : slice d.buf d.nbuf (refillLen plen d.buf.length)
          = some ((d.buf.take (refillLen plen d.buf.length)).drop d.nbuf) := by
        simp only [slice]
        rw [if_pos]
        rw [hbuf]
        omega
      have hle := hR d.r (refillLen plen d.buf.length - d.nbuf)
      have hstep : decoder.Read.refill R plen (fuel + 1) d
          = decoder.Read.refill R plen fuel (decoder.Read.refillBody R plen d) := by
        rw [refill_unfold, if_pos hc, hsl]
        simp only [Option.some_bind]
        rw [if_neg (by omega)]
        rfl
      have hrun : decoder.Read.running R plen (fuel + 1) d
          = decoder.Read.running R plen fuel (decoder.Read.refillBody R plen d) := by
        simp only [decoder.Read.running, hc, and_self, decide_True, Bool.true_and]
      rcases refill_gen R hR plen fuel (decoder.Read.refillBody R plen d) hb' hn' with
        ⟨h1, h2⟩ | ⟨d1, h1, h2, h3, h4, h5, h6, h7, h8, h9⟩
      · exact Or.inl ⟨by rw [hstep, h1], by rw [hrun, h2]⟩
      · exact Or.inr ⟨d1, by rw [hstep, h1], by rw [hrun, h2], h3, h4, by omega, h6, h7, h8, h9⟩
    · refine Or.inr ⟨d, ?_, ?_, hbuf, hnb, Nat.le_refl _, ?_, rfl, rfl, rfl⟩
      · rw [refill_unfold, if_neg hc]
      · simp only [decoder.Read.running, hc, decide_False, Bool.false_and]
      · simpa only [encodedChunkSize] using hc

/-- The states of the refill loop stay within the buffer. -/
theorem refill_states {ρ : Type} (R : Reader ρ) (hR : ∀ s m, (R.Read s m).2.1.length ≤ m)
    (plen : Nat) : ∀ (k : Nat) (d : decoder ρ),
      d.buf.length = 1024 → d.nbuf ≤ refillLen plen 1024 →
      ((decoder.Read.refillBody R plen)^[k] d).buf.length = 1024 ∧
        ((decoder.Read.refillBody R plen)^[k] d).nbuf ≤ refillLen plen 1024
  | 0, d, hbuf, hnb => ⟨hbuf, hnb⟩
  | k + 1, d, hbuf, hnb => by
    obtain ⟨hb', hn', _⟩ := refillBody_bound R hR plen d hbuf hnb
    rw [Function.iterate_succ_apply]
    exact refill_states R hR plen k _ hb' hn'

/-- Over a source that returns a byte or an error at each read of a non-empty
slice, the refill loop tests its condition at most 4 times. -/
theorem running_progress {ρ : Type} (R : Reader ρ) (hR : ∀ s m, (R.Read s m).2.1.length ≤ m)
    (hprog : ∀ s m, 0 < m → (R.Read s m).2.1 ≠ [] ∨ (R.Read s m).2.2 ≠ none)
    (plen : Nat) : ∀ (k : Nat) (d : decoder ρ), d.buf.length = 1024 →
      d.nbuf ≤ refillLen plen 1024 →
      decoder.Read.running R plen (k + 1) d = true → d.nbuf + (k + 1) ≤ 3
  | 0, d, _, _, h => by
    simp only [decoder.Read.running, Bool.and_true, decide_eq_true_eq, encodedChunkSize] at h
    omega
  | k + 1, d, hbuf, hnb, h => by
    rw [decoder.Read.running, Bool.and_eq_true, decide_eq_true_eq] at h
    obtain ⟨⟨hlt, _⟩, h2⟩ := h
    obtain ⟨h3, _, _⟩ := refillLen_spec plen
    obtain ⟨hb', hn', _⟩ := refillBody_bound R hR plen d hbuf hnb
    have ih := running_progress R hR hprog plen k _ hb' hn' h2
    have hre : (decoder.Read.refillBody R plen d).readErr = none := by
      rw [decoder.Read.running, Bool.and_eq_true, decide_eq_true_eq] at h2
      exact h2.1.2
    simp only [encodedChunkSize] at hlt
    have hdata : (R.Read d.r (refillLen plen d.buf.length - d.nbuf)).2.1 ≠ [] := by
      rcases hprog d.r (refillLen plen d.buf.length - d.nbuf) (by rw [hbuf]; omega) with h | h
      · exact h
      · exact absurd hre h
    have hpos : 0 < (R.Read d.r (refillLen plen d.buf.length - d.nbuf)).2.1.length :=
      List.length_pos.mpr hdata
    have hnbuf : (decoder.Read.refillBody R plen d).nbuf
        = d.nbuf + (R.Read d.r (refillLen plen d.buf.length - d.nbuf)).2.1.length := rfl
    omega

/-- What `Decode` leaves in a destination that is long enough: the length of
the destination is kept and the count is at most `DecodedLen`. -/
theorem Decode_gen (dst src : List Byte) (h : DecodedLen src.length ≤ dst.length) :
    ∃ out n err, Decode dst src = some (out, n, err) ∧ out.length = dst.length ∧
      n ≤ DecodedLen src.length ∧ n = (dec 0 src).1.length ∧ err = (dec 0 src).2 := by
  have hl := dec_length_le src 0
  refine ⟨_, _, _, Decode_spec dst src h, ?_, ?_, ?_, rfl⟩
  · simp only [List.nil_append, List.length_append, List.length_drop]
    omega
  · simpa using hl
  · simp

/-- The window `d.out` after `deliver`. -/
theorem deliver_gen {ρ : Type} (d : decoder ρ) (p : List Byte)
    (h1 : d.out.1 ≤ d.out.2) (h2 : d.out.2 ≤ d.outbuf.length) :
    ∃ n p', decoder.deliver d p = some ({ d with out := (d.out.1 + n, d.out.2) }, p', n) ∧
      n = min p.length (d.out.2 - d.out.1) ∧ p'.length = p.length := by
  have hll : d.leftover.length = d.out.2 - d.out.1 := by
    simp only [decoder.leftover, List.length_drop, List.length_take]; omega
  refine ⟨_, _, deliver_spec d p h1 h2, by rw [hll], ?_⟩
  simp only [List.length_append, List.length_take, List.length_drop]
  omega

/-- The block `if d.nbuf < encodedChunkSize` of `Read`, whatever the buffer
holds. -/
theorem final_gen {ρ : Type} (d : decoder ρ) (p : List Byte)
    (hbuf : d.buf.length = 1024) (hob : d.outbuf.length = 682) (hnb : d.nbuf < 3)
    (hwin : d.out.1 ≤ d.out.2 ∧ d.out.2 ≤ 682) :
    ∃ d' p' n r, decoder.Read.final d p = some (d', p', n, r) ∧ d'.sound ∧
      n ≤ p.length ∧ p'.length = p.length ∧ (r ≠ none → d'.err = r) := by
  by_cases hpos : d.nbuf > 0
  · have hs : sliceTo d.buf d.nbuf = some (d.buf.take d.nbuf) := by
      simp only [sliceTo]; rw [if_pos (by omega)]
    have hsl : (d.buf.take d.nbuf).length = d.nbuf := by
      rw [List.length_take]; omega
    have hD : DecodedLen d.nbuf ≤ 1 := by
      rw [DecodedLen_eq]; split <;> omega
    obtain ⟨out, nw, err, hdec, hol, hnw, _, _⟩ := Decode_gen d.outbuf (d.buf.take d.nbuf)
      (by rw [hsl, hob]; omega)
    rw [hsl] at hnw
    have hs2 : sliceTo out nw = some (out.take nw) := by
      simp only [sliceTo]; rw [if_pos (by omega)]
    obtain ⟨n, p', hdel, hn, hpl⟩ := deliver_gen
      (decoder.mk err d.readErr d.r d.buf 0 (0, nw) out) p (Nat.zero_le _)
      (by show nw ≤ out.length; omega)
    simp only [] at hdel hn
    have hfin : decoder.Read.final d p
        = if n > 0 ∨ (p.length = 0 ∧ nw - (0 + n) > 0) then
            some (decoder.mk err d.readErr d.r d.buf 0 (0 + n, nw) out, p', n, none)
          else if err ≠ none then
            some (decoder.mk err d.readErr d.r d.buf 0 (0 + n, nw) out, p', 0, err)
          else
            some (decoder.mk d.readErr d.readErr d.r d.buf 0 (0 + n, nw) out, p', 0,
              d.readErr) := by
      simp only [decoder.Read.final, hpos, if_true, hs, Option.bind_eq_bind, Option.some_bind,
        hdec, hs2, hdel]
      split
      · rfl
      · split
        · rfl
        · simp
    have hsound : ∀ e, (decoder.mk e d.readErr d.r d.buf 0 (0 + n, nw) out).sound :=
      fun e => ⟨hbuf, by rw [hol, hob], Nat.zero_le _, by show 0 + n ≤ nw; omega,
        by show nw ≤ 682; omega⟩
    rw [hfin]
    split
    · exact ⟨_, _, _, _, rfl, hsound _, by omega, hpl, fun h => absurd rfl h⟩
    · split
      · exact ⟨_, _, _, _, rfl, hsound _, Nat.zero_le _, hpl, fun _ => rfl⟩
      · exact ⟨_, _, _, _, rfl, hsound _, Nat.zero_le _, hpl, fun _ => rfl⟩
  · have h0 : d.nbuf = 0 := by omega
    refine ⟨{ d with err := d.readErr }, p, 0, d.readErr, ?_,
      ⟨hbuf, hob, by show d.nbuf ≤ 1; omega, hwin.1, hwin.2⟩, Nat.zero_le _, rfl, fun _ => rfl⟩
    simp [decoder.Read.final, h0]

/-- The decoding of a chunk, whatever the buffer holds. -/
theorem decodeChunk_gen {ρ : Type} (d : decoder ρ) (p : List Byte) (nr nw : Nat)
    (hob : d.outbuf.length = 682) (hnr : nr ≤ d.buf.length)
    (hD : DecodedLen nr ≤ 682) (hnw : DecodedLen nr ≤ nw) :
    ∃ d' p' n, decoder.Read.decodeChunk d p nr nw = some (d', p', n) ∧
      d'.buf = d.buf ∧ d'.nbuf = d.nbuf ∧ d'.outbuf.length = 682 ∧
      (d.out.1 ≤ d.out.2 ∧ d.out.2 ≤ 682 → d'.out.1 ≤ d'.out.2 ∧ d'.out.2 ≤ 682) ∧
      p'.length = p.length ∧ n ≤ p.length := by
  have hsl : sliceTo d.buf nr = some (d.buf.take nr) := by
    simp only [sliceTo]; rw [if_pos hnr]
  have hl : (d.buf.take nr).length = nr := by rw [List.length_take]; omega
  by_cases hc : nw > p.length
  · obtain ⟨out, nw', err, hdec, hol, hnw', _, _⟩ := Decode_gen d.outbuf (d.buf.take nr)
      (by rw [hl, hob]; exact hD)
    rw [hl] at hnw'
    have hs2 : sliceTo out nw' = some (out.take nw') := by
      simp only [sliceTo]; rw [if_pos (by omega)]
    obtain ⟨n, p', hdel, hn, hpl⟩ := deliver_gen
      (decoder.mk err d.readErr d.r d.buf d.nbuf (0, nw') out) p (Nat.zero_le _)
      (by show nw' ≤ out.length; omega)
    simp only [] at hdel hn
    refine ⟨decoder.mk err d.readErr d.r d.buf d.nbuf (0 + n, nw') out, p', n, ?_, rfl, rfl,
      by show out.length = 682; omega,
      fun _ => ⟨by show 0 + n ≤ nw'; omega, by show nw' ≤ 682; omega⟩, hpl, by omega⟩
    simp only [decoder.Read.decodeChunk, hc, if_true, hsl, hdec, hs2, Option.bind_eq_bind,
      Option.some_bind]
    exact hdel
  · obtain ⟨out, n, err, hdec, hol, hn, _, _⟩ := Decode_gen p (d.buf.take nr)
      (by rw [hl]; omega)
    rw [hl] at hn
    refine ⟨{ d with err := err }, out, n, ?_, rfl, rfl, hob, fun h => h, hol, by omega⟩
    simp only [decoder.Read.decodeChunk, hc, if_false, hsl, hdec, Option.bind_eq_bind,
      Option.some_bind]

/-- The number of characters decoded by the chunk step. -/
theorem chunk_nr (nbuf : Nat) (h3 : 3 ≤ nbuf) (h1024 : nbuf ≤ 1024) :
    ∃ nr, (if nbuf % encodedChunkSize = 1 then nbuf - 1 else nbuf) = nr ∧
      nr ≤ nbuf ∧ nbuf - nr ≤ 1 ∧ nr ≤ 1023 ∧ DecodedLen nr ≤ 682 ∧
      DecodedLen nr ≤ DecodedLen nbuf := by
  refine ⟨_, rfl, ?_⟩
  simp only [encodedChunkSize]
  split
  · next h1 =>
    refine ⟨by omega, by omega, by omega, ?_, DecodedLen_mono_carry nbuf h1⟩
    rw [DecodedLen_eq]; split <;> omega
  · refine ⟨Nat.le_refl _, by omega, by omega, ?_, Nat.le_refl _⟩
    rw [DecodedLen_eq]; split <;> omega

/-- The rest of `Read`, from `nr := d.nbuf` on, whatever the buffer holds. -/
theorem chunk_gen {ρ : Type} (d : decoder ρ) (p : List Byte)
    (hbuf : d.buf.length = 1024) (hob : d.outbuf.length = 682)
    (h3 : 3 ≤ d.nbuf) (h1024 : d.nbuf ≤ 1024)
    (hwin : d.out.1 ≤ d.out.2 ∧ d.out.2 ≤ 682) :
    ∃ d' p' n r, decoder.Read.chunk d p = some (d', p', n, r) ∧ d'.sound ∧
      n ≤ p.length ∧ p'.length = p.length ∧ (r ≠ none → d'.err = r) := by
  obtain ⟨nr, hnr, hle, hc1, h1023, hD, hDle⟩ := chunk_nr d.nbuf h3 h1024
  obtain ⟨d1, p', n, hdc, e4, e5, hob1, hw, hpl, hnp⟩ :=
    decodeChunk_gen d p nr (DecodedLen d.nbuf) hob (by omega) hD hDle
  obtain ⟨buf, hsh, hbl, _⟩ := shift_spec d1 nr (by rw [e4]; exact hbuf) (by rw [e5]; exact hle)
    (by rw [e5]; exact hc1) h1023
  refine ⟨{ d1 with nbuf := d1.nbuf - nr, buf := buf }, p', n, d1.err, ?_,
    ⟨hbl, hob1, by show d1.nbuf - nr ≤ 1; rw [e5]; exact hc1, (hw hwin).1, (hw hwin).2⟩,
    hnp, hpl, fun _ => rfl⟩
  simp only [decoder.Read.chunk, hnr, hdc, hsh, Option.bind_eq_bind, Option.some_bind]

/-- One `Read` over any source that respects the requested length: unless the
refill loop is still running when the fuel is used up, `Read` returns, the
decoder stays sound, the count is at most `len(p)`, and an error that is
returned is the error of the decoder. -/
theorem Read_gen {ρ : Type} (R : Reader ρ) (hR : ∀ s m, (R.Read s m).2.1.length ≤ m)
    (fuel : Nat) (d : decoder ρ) (p : List Byte) (hs : d.sound) :
    (decoder.Read R fuel d p = none ∧ decoder.Read.running R p.length fuel d = true) ∨
    (∃ d' p' n r, decoder.Read R fuel d p = some (d', p', n, r) ∧ d'.sound ∧
      n ≤ p.length ∧ p'.length = p.length ∧ (r ≠ none → d'.err = r)) := by
  obtain ⟨hbuf, hob, hnb, hw1, hw2⟩ := hs
  obtain ⟨hn3, hn1024, _⟩ := refillLen_spec p.length
  by_cases hwin : d.out.2 - d.out.1 > 0
  · obtain ⟨n, p', hdel, hn, hpl⟩ := deliver_gen d p hw1 (by omega)
    refine Or.inr ⟨{ d with out := (d.out.1 + n, d.out.2) }, p', n, none, ?_, ⟨hbuf, hob, hnb, by show d.out.1 + n ≤ d.out.2; omega, hw2⟩,
      by omega, hpl, fun h => absurd rfl h⟩
    simp only [decoder.Read, hwin, if_true, hdel, Option.bind_eq_bind, Option.some_bind]
  · by_cases he : d.err = none
    · rcases refill_gen R hR p.length fuel d hbuf (by omega) with
        ⟨h1, h2⟩ | ⟨d1, h1, _, hb1, hn1, _, hex, e1, e2, e3⟩
      · refine Or.inl ⟨?_, h2⟩
        simp only [decoder.Read, hwin, if_false, he, ne_eq, not_true_eq_false, h1,
          Option.bind_eq_bind, Option.none_bind]
      · have hwin1 : d1.out.1 ≤ d1.out.2 ∧ d1.out.2 ≤ 682 := by rw [e2]; exact ⟨hw1, hw2⟩
        have hrd : decoder.Read R fuel d p
            = if d1.nbuf < encodedChunkSize then decoder.Read.final d1 p
              else decoder.Read.chunk d1 p := by
          simp only [decoder.Read, hwin, if_false, he, ne_eq, not_true_eq_false, h1,
            Option.bind_eq_bind, Option.some_bind]
        right
        rw [hrd]
        by_cases h3 : d1.nbuf < 3
        · rw [if_pos (by simpa only [encodedChunkSize] using h3)]
          exact final_gen d1 p hb1 (by rw [e3]; exact hob) h3 hwin1
        · rw [if_neg (by simpa only [encodedChunkSize] using h3)]
          exact chunk_gen d1 p hb1 (by rw [e3]; exact hob) (by omega) (by omega) hwin1
    · refine Or.inr ⟨d, p, 0, d.err, ?_, ⟨hbuf, hob, hnb, hw1, hw2⟩, Nat.zero_le _, rfl,
        fun _ => rfl⟩
      simp only [decoder.Read, hwin, if_false, he, ne_eq, not_false_eq_true, if_true]

theorem NewDecoder_sound {ρ : Type} (r : ρ) : (NewDecoder r).sound :=
  ⟨List.length_replicate _ _, List.length_replicate _ _, Nat.zero_le _, Nat.le_refl _,
    Nat.zero_le _⟩

theorem stringsReader_bounded (s : List Byte) (m : Nat) :
    (stringsReader.Read s m).2.1.length ≤ m := by
  simp only [stringsReader]
  split
  · exact Nat.zero_le _
  · simp only [List.length_take]
    omega

theorem stringsReader_progress (s : List Byte) (m : Nat) (hm : 0 < m) :
    (stringsReader.Read s m).2.1 ≠ [] ∨ (stringsReader.Read s m).2.2 ≠ none := by
  simp only [stringsReader]
  split
  · right; simp
  · next h =>
    left
    intro h2
    have := congrArg List.length h2
    simp only [List.length_take, List.length_nil] at this
    omega

/-- The call of `Decode` that `Read` makes after the refill loop has a
destination of at least `DecodedLen` of the length of its source. -/
theorem decodeCall_bound {ρ : Type} (d : decoder ρ) (p : List Byte)
    (hob : d.outbuf.length = 682) (h1024 : d.nbuf ≤ 1024) (dst src : Nat)
    (h : decoder.Read.decodeCall d p = some (dst, src)) : DecodedLen src ≤ dst := by
  simp only [decoder.Read.decodeCall] at h
  by_cases h3 : d.nbuf < encodedChunkSize
  · rw [if_pos h3] at h
    simp only [encodedChunkSize] at h3
    by_cases hpos : d.nbuf > 0
    · rw [if_pos hpos] at h
      simp only [Option.some.injEq, Prod.mk.injEq] at h
      rw [← h.1, ← h.2, hob, DecodedLen_eq]
      split <;> omega
    · rw [if_neg hpos] at h
      exact absurd h (by simp)
  · rw [if_neg h3] at h
    simp only [encodedChunkSize] at h3
    obtain ⟨nr, hnr, _, _, _, hD, hDle⟩ := chunk_nr d.nbuf (by omega) h1024
    rw [hnr] at h
    by_cases hc : DecodedLen d.nbuf > p.length
    · rw [if_pos hc] at h
      simp only [Option.some.injEq, Prod.mk.injEq] at h
      rw [← h.1, ← h.2, hob]
      exact hD
    · rw [if_neg hc] at h
      simp only [Option.some.injEq, Prod.mk.injEq] at h
      rw [← h.1, ← h.2]
      omega

theorem leftover_length {ρ : Type} (d : decoder ρ) (h2 : d.out.2 ≤ d.outbuf.length) :
    d.leftover.length = d.out.2 - d.out.1 := by
  simp only [decoder.leftover, List.length_drop, List.length_take]
  omega

/-- A `Read` on a decoder that has failed: it delivers leftover output with a
nil error while there is some, and otherwise returns the error and changes
nothing. -/
theorem Read_failed {ρ : Type} (R : Reader ρ) (fuel : Nat) (d : decoder ρ) (p : List Byte)
    (hs : d.sound) (x : Error) (hx : d.err = some x) :
    (d.leftover = [] → decoder.Read R fuel d p = some (d, p, 0, some x)) ∧
    (d.leftover ≠ [] → ∃ d' p',
      decoder.Read R fuel d p = some (d', p', min p.length d.leftover.length, none) ∧
      d'.sound ∧ d'.err = some x ∧
      d'.leftover = d.leftover.drop (min p.length d.leftover.length) ∧
      p'.take (min p.length d.leftover.length)
        = d.leftover.take (min p.length d.leftover.length)) := by
  obtain ⟨hbuf, hob, hnb, hw1, hw2⟩ := hs
  have hll := leftover_length d (by omega)
  constructor
  · intro hlo
    rw [hlo, List.length_nil] at hll
    have hwin : ¬ d.out.2 - d.out.1 > 0 := by omega
    simp only [decoder.Read, hwin, if_false, hx, ne_eq, not_false_eq_true, if_true,
      reduceCtorEq]
  · intro hlo
    have hpos : 0 < d.leftover.length := List.length_pos.mpr hlo
    have hwin : d.out.2 - d.out.1 > 0 := by omega
    have hdel := deliver_spec d p hw1 (by omega)
    refine ⟨{ d with out := (d.out.1 + min p.length d.leftover.length, d.out.2) },
      d.leftover.take (min p.length d.leftover.length)
        ++ p.drop (min p.length d.leftover.length), ?_,
      ⟨hbuf, hob, hnb, by show d.out.1 + _ ≤ d.out.2; omega, hw2⟩, hx, leftover_drop d _, ?_⟩
    · simp only [decoder.Read, hwin, if_true, hdel, Option.bind_eq_bind, Option.some_bind]
    · rw [List.take_append_of_le_length (by simp only [List.length_take]; omega),
        List.take_take, Nat.min_self]

/-! ## The stream decoder on a text that ends on a dangling character -/

theorem enc_length_even_mod (b : List Byte) (h : b.length % 2 = 0) :
    (enc b).length = 3 * (b.length / 2) := by
  rw [enc_length, EncodedLen_eq]
  omega

/-- The cut of the chunk step when the text is whole blocks and one dangling
character: it is at a block boundary, before the dangling character. -/
theorem chunk_cutD (b' : List Byte) (c : Byte) (nn nbuf : Nat) (heven : b'.length % 2 = 0)
    (hnb3 : 3 ≤ nbuf) (hnn : nn % 3 = 0 ∨ nn = 1024) (hnn1024 : nn ≤ 1024)
    (hnbuf : nbuf = min nn (enc b' ++ [c]).length) :
    ∃ nr b1 b2, (if nbuf % encodedChunkSize = 1 then nbuf - 1 else nbuf) = nr ∧
      3 ≤ nr ∧ nr ≤ nbuf ∧ nbuf - nr ≤ 1 ∧ nr ≤ 1023 ∧
      b' = b1 ++ b2 ∧ b2.length % 2 = 0 ∧
      (enc b' ++ [c]).take nr = enc b1 ∧ (enc b' ++ [c]).drop nr = enc b2 ++ [c] ∧
      b1.length = DecodedLen nr ∧ 2 ≤ b1.length ∧ b1.length ≤ 682 ∧
      b1.length ≤ DecodedLen nbuf := by
  have hL := enc_length_even_mod b' heven
  have hT : (enc b' ++ [c]).length = 3 * (b'.length / 2) + 1 := by
    rw [List.length_append, hL]; rfl
  rw [hT] at hnbuf
  obtain ⟨nr, hnr, hle, hc1, h1023, hD, hDle⟩ := chunk_nr nbuf hnb3 (by omega)
  have hnr3 : nr % 3 = 0 ∧ 3 ≤ nr ∧ nr ≤ 3 * (b'.length / 2) := by
    rw [← hnr]
    simp only [encodedChunkSize]
    split <;> omega
  obtain ⟨hm, h3, hleL⟩ := hnr3
  have hk : 3 * (nr / 3) = nr := by omega
  obtain ⟨hl, ht, hd⟩ := enc_split b' (nr / 3) (by rw [hL]; omega)
  rw [hk] at ht hd
  have hlen : (b'.take (2 * (nr / 3))).length = DecodedLen nr := by
    rw [List.length_take, DecodedLen_eq]
    simp only [hm, if_true]
    omega
  have hDn : 2 ≤ DecodedLen nr := by
    rw [DecodedLen_eq]; split <;> omega
  refine ⟨nr, b'.take (2 * (nr / 3)), b'.drop (2 * (nr / 3)), hnr, h3, hle, hc1, h1023,
    (List.take_append_drop _ _).symm, ?_, ?_, ?_, hlen, by omega, by omega, by omega⟩
  · rw [List.length_drop]; omega
  · rw [List.take_append_of_le_length (by rw [hL]; exact hleL), ht]
  · rw [List.drop_append_of_le_length (by rw [hL]; exact hleL), hd]

/-- The final fragment when it is one dangling character: `Read` returns 0
and the error of `Decode` for that character. -/
theorem final_dangling {ρ : Type} (d : decoder ρ) (p : List Byte) (c : Byte)
    (hp : 1 ≤ p.length) (hbuf : d.buf.length = 1024) (hob : d.outbuf.length = 682)
    (hnb : d.nbuf = 1) (htext : d.buf.take d.nbuf = [c]) :
    ∃ d' p', decoder.Read.final d p = some (d', p', 0, some (danglingError c)) ∧
      p'.length = p.length ∧ d'.err = some (danglingError c) := by
  have hs : sliceTo d.buf d.nbuf = some [c] := by
    simp only [sliceTo]; rw [if_pos (by omega), htext]
  have hdec : Decode d.outbuf [c] = some (d.outbuf, 0, some (danglingError c)) := by
    rw [Decode_spec d.outbuf [c] (by rw [hob]; simp [DecodedLen, chunkSize, encodedChunkSize])]
    simp only [decodeResult, dec, decBlock, danglingError, List.nil_append, List.length_nil,
      List.drop_zero, Nat.add_zero, Nat.cast_zero, Int.zero_add]
  have hs2 : sliceTo d.outbuf 0 = some [] := by simp [sliceTo]
  have hdel := deliver_spec
    (decoder.mk (some (danglingError c)) d.readErr d.r d.buf 0 (0, 0) d.outbuf) p
    (Nat.le_refl _) (Nat.zero_le _)
  have hlo : decoder.leftover
      (decoder.mk (some (danglingError c)) d.readErr d.r d.buf 0 (0, 0) d.outbuf) = [] := by
    simp [decoder.leftover]
  rw [hlo] at hdel
  simp only [List.length_nil, Nat.min_zero, Nat.add_zero, List.take_nil, List.drop_zero,
    List.nil_append] at hdel
  have hpos : d.nbuf > 0 := by omega
  have hpne : ¬ p.length = 0 := by omega
  refine ⟨decoder.mk (some (danglingError c)) d.readErr d.r d.buf 0 (0, 0) d.outbuf, p, ?_,
    rfl, rfl⟩
  simp only [decoder.Read.final, hpos, if_true, hs, Option.bind_eq_bind, Option.some_bind,
    hdec, hs2, hdel]
  simp [hpne]

theorem chunk_specD {ρ : Type} (rem : ρ → List Byte) (c : Byte) (d : decoder ρ)
    (p b' : List Byte) (nn : Nat) (heven : b'.length % 2 = 0)
    (hp : 1 ≤ p.length) (hbuf : d.buf.length = 1024) (hob : d.outbuf.length = 682)
    (hnb3 : 3 ≤ d.nbuf) (hnn : nn % 3 = 0 ∨ nn = 1024) (hnn1024 : nn ≤ 1024)
    (hnbuf : d.nbuf = min nn (enc b' ++ [c]).length)
    (htake : d.buf.take d.nbuf = (enc b' ++ [c]).take d.nbuf)
    (hremP : rem d.r = (enc b' ++ [c]).drop d.nbuf)
    (hre : d.readErr = none ∨ (d.readErr = some Error.EOF ∧ rem d.r = []))
    (hwin : d.out.1 ≤ d.out.2 ∧ d.out.2 ≤ 682) (hlo : d.leftover = []) :
    ∃ d' p' n err, decoder.Read.chunk d p = some (d', p', n, err) ∧
      p'.length = p.length ∧ n ≤ p.length ∧ n ≤ b'.length ∧ p'.take n = b'.take n ∧
      decInvD rem c d' (b'.drop n) ∧ err = none ∧ 1 ≤ n := by
  obtain ⟨nr, b1, b2, hnr, h3, hle, hc1, h1023, hb, hb2, ht, hd, hl1, hl2, hl682, hlnw⟩ :=
    chunk_cutD b' c nn d.nbuf heven hnb3 hnn hnn1024 hnbuf
  have hs : d.buf.take nr = enc b1 := by
    have : d.buf.take nr = (d.buf.take d.nbuf).take nr := by
      rw [List.take_take, Nat.min_eq_left hle]
    rw [this, htake, List.take_take, Nat.min_eq_left hle, ht]
  obtain ⟨d1, p', n, hdc, e1, e2, e3, e4, e5, hob1, hw1, hw2, hpl, hn1, hnp, hnb, hpt, hlo1⟩ :=
    decodeChunk_spec d p b1 nr (DecodedLen d.nbuf) hp hob hs (by omega) hl2 hl682 hlnw hwin hlo
  obtain ⟨buf, hsh, hbl, hbt⟩ := shift_spec d1 nr (by rw [e4]; exact hbuf) (by rw [e5]; exact hle)
    (by rw [e5]; exact hc1) h1023
  have hTl : d.nbuf ≤ (enc b' ++ [c]).length := by omega
  refine ⟨{ d1 with nbuf := d1.nbuf - nr, buf := buf }, p', n, none, ?_, hpl, hnp, ?_, ?_, ?_,
    rfl, hn1⟩
  · simp only [decoder.Read.chunk, hnr, hdc, hsh, Option.bind_eq_bind, Option.some_bind, e1]
  · rw [hb, List.length_append]; omega
  · rw [hpt, hb, List.take_append_of_le_length hnb]
  · refine ⟨hbl, hob1, by show d1.nbuf - nr ≤ 1; rw [e5]; exact hc1, hw1, hw2, ?_, e1,
      b2, hb2, ?_, ?_⟩
    · show d1.readErr = none ∨ (d1.readErr = some Error.EOF ∧ rem d1.r = [])
      rw [e2, e3]; exact hre
    · show b'.drop n = decoder.leftover { d1 with nbuf := d1.nbuf - nr, buf := buf } ++ b2
      have : decoder.leftover { d1 with nbuf := d1.nbuf - nr, buf := buf } = d1.leftover := rfl
      rw [this, hlo1, hb, List.drop_append_of_le_length hnb]
    · show buf.take (d1.nbuf - nr) ++ rem d1.r = enc b2 ++ [c]
      rw [hbt, e3, e4, e5, htake, hremP, ← hd]
      exact drop_take_glue _ _ _ hle hTl

/-- One `Read` into a destination of at least one byte, on a decoder over a
source that holds whole valid blocks and then one dangling character: it
delivers at least one of the bytes still to come, in order, with a nil error,
or, when none is left, returns 0 and the error of `Decode` for the dangling
character. -/
theorem Read_specD {ρ : Type} (R : Reader ρ) (rem : ρ → List Byte) (hR : holdsText R rem)
    (c : Byte) (fuel : Nat) (hfuel : 3 ≤ fuel) (d : decoder ρ) (left p : List Byte)
    (hinv : decInvD rem c d left) (hp : 1 ≤ p.length) :
    ∃ d' p' n err, decoder.Read R fuel d p = some (d', p', n, err) ∧
      p'.length = p.length ∧ n ≤ p.length ∧ n ≤ left.length ∧ p'.take n = left.take n ∧
      ((err = none ∧ 1 ≤ n ∧ decInvD rem c d' (left.drop n)) ∨
        (err = some (danglingError c) ∧ n = 0 ∧ left = [])) := by
  obtain ⟨hbuf, hob, hnb, hw1, hw2, hre, herr, b', heven, hleft, htext⟩ := hinv
  have hll : d.leftover.length = d.out.2 - d.out.1 := leftover_length d (by omega)
  by_cases hwin : d.out.2 - d.out.1 > 0
  · have hdel := deliver_spec d p hw1 (by omega)
    have hmin1 : 1 ≤ min p.length d.leftover.length := by omega
    have hminl : min p.length d.leftover.length ≤ d.leftover.length := Nat.min_le_right _ _
    refine ⟨{ d with out := (d.out.1 + min p.length d.leftover.length, d.out.2) },
      d.leftover.take (min p.length d.leftover.length)
        ++ p.drop (min p.length d.leftover.length),
      min p.length d.leftover.length, none, ?_, ?_, Nat.min_le_left _ _, ?_, ?_,
      Or.inl ⟨rfl, hmin1, ?_⟩⟩
    · simp only [decoder.Read, hwin, if_true, hdel, Option.bind_eq_bind, Option.some_bind]
    · simp only [List.length_append, List.length_take, List.length_drop]; omega
    · rw [hleft, List.length_append]; omega
    · rw [hleft, List.take_append_of_le_length hminl,
        List.take_append_of_le_length (by simp only [List.length_take]; omega),
        List.take_take, Nat.min_self]
    · refine ⟨hbuf, hob, hnb, by show d.out.1 + _ ≤ d.out.2; omega, hw2, hre, herr, b', heven,
        ?_, htext⟩
      rw [leftover_drop, hleft, List.drop_append_of_le_length hminl]
  · have hlo : d.leftover = [] := List.length_eq_zero.mp (by omega)
    rw [hlo, List.nil_append] at hleft
    obtain ⟨d1, hrf, e1, e2, e3, hbuf1, hnbuf1, htake1, hrem1, hlt3, hre1⟩ :=
      refill_spec R rem hR p.length fuel d hfuel hbuf hnb hre
    rw [htext] at hnbuf1 htake1 hrem1
    obtain ⟨hn3, hn1024, hnn⟩ := refillLen_spec p.length
    have hL := enc_length_even_mod b' heven
    have hT : (enc b' ++ [c]).length = 3 * (b'.length / 2) + 1 := by
      rw [List.length_append, hL]; rfl
    have hlo1 : d1.leftover = [] := by
      have : d1.leftover = d.leftover := by simp only [decoder.leftover, e2, e3]
      rw [this, hlo]
    have hwin1 : d1.out.1 ≤ d1.out.2 ∧ d1.out.2 ≤ 682 := by rw [e2]; exact ⟨hw1, hw2⟩
    have hrd : decoder.Read R fuel d p
        = if d1.nbuf < encodedChunkSize then decoder.Read.final d1 p
          else decoder.Read.chunk d1 p := by
      simp only [decoder.Read, hwin, if_false, herr, ne_eq, not_true_eq_false, hrf,
        Option.bind_eq_bind, Option.some_bind]
    by_cases h3 : d1.nbuf < 3
    · -- the dangling character alone
      obtain ⟨_, hrem3⟩ := hlt3 h3
      rw [hrem1] at hrem3
      have hge : (enc b' ++ [c]).length ≤ d1.nbuf := by
        have := congrArg List.length hrem3
        simp only [List.length_drop, List.length_nil] at this
        omega
      have hb0 : b'.length = 0 := by omega
      have hb : b' = [] := List.length_eq_zero.mp hb0
      subst hb
      have hnb1 : d1.nbuf = 1 := by
        rw [hnbuf1, hT]; simp only [List.length_nil]; omega
      have ht1 : d1.buf.take d1.nbuf = [c] := by
        rw [htake1, hnb1]; rfl
      obtain ⟨d', p', hfin, hpl, _⟩ := final_dangling d1 p c hp hbuf1 (by rw [e3]; exact hob)
        hnb1 ht1
      refine ⟨d', p', 0, some (danglingError c), ?_, hpl, Nat.zero_le _, Nat.zero_le _, rfl,
        Or.inr ⟨rfl, rfl, hleft⟩⟩
      rw [hrd, if_pos (by simpa only [encodedChunkSize] using h3)]
      exact hfin
    · obtain ⟨d', p', n, err, hch, r1, r2, r3, r4, r5, r6, r7⟩ :=
        chunk_specD rem c d1 p b' (refillLen p.length 1024) heven hp hbuf1
          (by rw [e3]; exact hob) (by omega) hnn hn1024 hnbuf1 htake1 hrem1 hre1 hwin1 hlo1
      refine ⟨d', p', n, err, ?_, r1, r2, by rw [hleft]; exact r3, by rw [hleft]; exact r4,
        Or.inl ⟨r6, r7, by rw [hleft]; exact r5⟩⟩
      rw [hrd, if_neg (by simpa only [encodedChunkSize] using h3)]
      exact hch

theorem NewDecoder_invD {ρ : Type} (rem : ρ → List Byte) (c : Byte) (r0 : ρ) (b : List Byte)
    (heven : b.length % 2 = 0) (h0 : rem r0 = enc b ++ [c]) :
    decInvD rem c (NewDecoder r0) b := by
  refine ⟨List.length_replicate _ _, List.length_replicate _ _, Nat.zero_le _, Nat.le_refl _,
    Nat.zero_le _, Or.inl rfl, rfl, b, heven, ?_, ?_⟩
  · show b = (List.drop 0 (List.take 0 _)) ++ b
    rfl
  · show List.take 0 _ ++ rem r0 = enc b ++ [c]
    rw [h0]; rfl

/-- Successive reads of a text of whole valid blocks and one dangling
character: the bytes of the blocks in order, then the error of `Decode` for
the dangling character. -/
theorem ReadSeq_specD {ρ : Type} (R : Reader ρ) (rem : ρ → List Byte) (hR : holdsText R rem)
    (c : Byte) (fuel : Nat) (hfuel : 3 ≤ fuel) (ps : List (List Byte)) :
    ∀ (d : decoder ρ) (left : List Byte), decInvD rem c d left → (∀ p ∈ ps, 1 ≤ p.length) →
      ∃ out e, decoder.ReadSeq R fuel d ps = some (out, e) ∧ (∃ rest, left = out ++ rest) ∧
        (e = none ∨ (e = some (danglingError c) ∧ out = left)) ∧
        (left.length < ps.length → e = some (danglingError c)) := by
  induction ps with
  | nil =>
    intro d left _ _
    exact ⟨[], none, rfl, ⟨left, rfl⟩, Or.inl rfl, fun h => absurd h (Nat.not_lt_zero _)⟩
  | cons p ps ih =>
    intro d left hinv hps
    obtain ⟨d', p', n, err, hrd, hpl, hnp, hnl, hpt, hres⟩ :=
      Read_specD R rem hR c fuel hfuel d left p hinv (hps p (List.mem_cons_self _ _))
    have hsl : sliceTo p' n = some (left.take n) := by
      simp only [sliceTo]; rw [if_pos (by omega), hpt]
    rcases hres with ⟨he, hn1, hinv'⟩ | ⟨he, hn0, hl⟩
    · subst he
      obtain ⟨out, e, hseq, ⟨rest, hrest⟩, hfin, hlong⟩ :=
        ih d' (left.drop n) hinv' (fun q hq => hps q (List.mem_cons_of_mem _ hq))
      refine ⟨left.take n ++ out, e, ?_, ⟨rest, ?_⟩, ?_, ?_⟩
      · simp [decoder.ReadSeq, hrd, hsl, hseq]
      · rw [List.append_assoc, ← hrest, List.take_append_drop]
      · rcases hfin with h | ⟨h, ho⟩
        · exact Or.inl h
        · exact Or.inr ⟨h, by rw [ho, List.take_append_drop]⟩
      · intro hlt
        apply hlong
        simp only [List.length_drop, List.length_cons] at hlt ⊢
        omega
    · subst he hn0 hl
      refine ⟨[], some (danglingError c), ?_, ⟨[], rfl⟩, Or.inr ⟨rfl, rfl⟩, fun _ => rfl⟩
      simp [decoder.ReadSeq, hrd, hsl]
/-! ## The properties C1 to C20 of the specification -/

/-- C1. Round trip: `Encode` of `b` into a buffer of `EncodedLen(len(b))`
bytes returns a text, `Decode` of that text into a buffer of
`DecodedLen(EncodedLen(len(b)))` bytes returns the count `len(b)` and a nil
error with the decoded bytes equal to `b`, and
`DecodeString(EncodeToString(b)) = (b, nil)`. -/
theorem C1_round_trip (b dstE dstD : List Byte)
    (hE : dstE.length = EncodedLen b.length)
    (hD : dstD.length = DecodedLen (EncodedLen b.length)) :
    (∃ text, Encode dstE b = some text ∧
      ∃ out, Decode dstD text = some (out, b.length, none) ∧ out.take b.length = b) ∧
    (∃ s, EncodeToString b = some s ∧ DecodeString s = some (b, none)) := by
  constructor
  · refine ⟨enc b ++ dstE.drop (EncodedLen b.length), Encode_spec _ _ (by omega), ?_⟩
    have h0 : dstE.drop (EncodedLen b.length) = [] := List.drop_of_length_le (by omega)
    rw [h0, List.append_nil]
    have hlen : DecodedLen (enc b).length ≤ dstD.length := by rw [enc_length]; omega
    refine ⟨b ++ dstD.drop b.length, ?_, by simp⟩
    rw [Decode_spec _ _ hlen]
    simp [decodeResult, dec_enc]
  · exact ⟨enc b, EncodeToString_eq b, by rw [DecodeString_eq, dec_enc]⟩

theorem C1_round_trip_witness :
    ([0, 0, 0, 0, 0] : List Byte).length = EncodedLen ([72, 105, 33] : List Byte).length ∧
    ([0, 0, 0] : List Byte).length = DecodedLen (EncodedLen ([72, 105, 33] : List Byte).length) ∧
    ((∃ text, Encode [0, 0, 0, 0, 0] [72, 105, 33] = some text ∧
      ∃ out, Decode [0, 0, 0] text = some (out, ([72, 105, 33] : List Byte).length, none) ∧
        out.take ([72, 105, 33] : List Byte).length = [72, 105, 33]) ∧
    (∃ s, EncodeToString [72, 105, 33] = some s ∧ DecodeString s = some ([72, 105, 33], none))) :=
  ⟨by decide, by decide, C1_round_trip [72, 105, 33] [0, 0, 0, 0, 0] [0, 0, 0] (by decide) (by decide)⟩

/-- C2. The stream encoder equals one-shot encoding: on a new encoder whose
sink never fails (every write returns a nil error and adds the bytes written
to what the sink holds, `held`), the `Write` calls for the pieces `ps`, in
order, followed by `Close`, all return, `Close` returns a nil error, and the
sink then holds exactly `EncodeToString` of the concatenation of the pieces. -/
theorem C2_stream_encoder {σ : Type} (W : Writer σ) (held : σ → List Byte)
    (hW : ∀ s p, (W.Write s p).2.2 = none ∧ held (W.Write s p).1 = held s ++ p)
    (w0 : σ) (h0 : held w0 = []) (ps : List (List Byte)) :
    ∃ e e' text, encoder.WriteAll W (NewEncoder w0) ps = some e ∧
      encoder.Close W e = some (e', none) ∧
      EncodeToString ps.flatten = some text ∧ held e'.w = text := by
  obtain ⟨e, h1, hinv⟩ := WriteAll_spec W held hW ps (NewEncoder w0) [] (NewEncoder_inv held w0 h0)
  obtain ⟨e', h2, hheld⟩ := Close_spec W held hW e _ hinv
  exact ⟨e, e', enc ps.flatten, h1, h2, EncodeToString_eq _, by simpa using hheld⟩

theorem C2_stream_encoder_witness :
    (∀ s p, (bytesBuffer.Write s p).2.2 = none ∧
      id (bytesBuffer.Write s p).1 = id s ++ p) ∧
    id ([] : List Byte) = [] ∧
    ∃ e e' text,
      encoder.WriteAll bytesBuffer (NewEncoder []) [[72], [], [105, 33, 33], [33]] = some e ∧
      encoder.Close bytesBuffer e = some (e', none) ∧
      EncodeToString ([[72], [], [105, 33, 33], [33]] : List (List Byte)).flatten = some text ∧
      id e'.w = text :=
  ⟨fun _ _ => ⟨rfl, rfl⟩, rfl,
    C2_stream_encoder bytesBuffer id (fun _ _ => ⟨rfl, rfl⟩) [] rfl [[72], [], [105, 33, 33], [33]]⟩

/-- C3. The stream decoder equals one-shot decoding for any destination
buffer sizes: on a new decoder whose source holds `EncodeToString(b)` (a read
returns `min(requested, remaining)` bytes and no error while bytes remain, and
`(0, io.EOF)` afterwards), successive `Read` calls into destination buffers of
length at least 1 all return; the bytes they deliver are, in order, the first
bytes of `b`; no call returns an error other than `io.EOF`, which comes only
once all of `b` has been delivered; and more than `len(b)` calls deliver
all of `b` and end with `io.EOF`. -/
theorem C3_stream_decoder {ρ : Type} (R : Reader ρ) (rem : ρ → List Byte)
    (hR : holdsText R rem) (b text : List Byte) (htext : EncodeToString b = some text)
    (r0 : ρ) (hr0 : rem r0 = text) (fuel : Nat) (hfuel : 3 ≤ fuel)
    (ps : List (List Byte)) (hps : ∀ p ∈ ps, 1 ≤ p.length) :
    ∃ out e, decoder.ReadSeq R fuel (NewDecoder r0) ps = some (out, e) ∧
      (∃ rest, b = out ++ rest) ∧
      (e = none ∨ (e = some Error.EOF ∧ out = b)) ∧
      (b.length < ps.length → out = b ∧ e = some Error.EOF) := by
  have ht : text = enc b := by
    rw [EncodeToString_eq] at htext
    exact (Option.some.inj htext).symm
  obtain ⟨out, e, hseq, hpre, hfin, hlong⟩ := ReadSeq_spec R rem hR fuel hfuel ps
    (NewDecoder r0) b (NewDecoder_inv rem r0 b (by rw [hr0, ht])) hps
  refine ⟨out, e, hseq, hpre, hfin, fun hlt => ?_⟩
  have he := hlong hlt
  rcases hfin with h | ⟨_, ho⟩
  · rw [h] at he; exact absurd he (by simp)
  · exact ⟨ho, he⟩

set_option maxRecDepth 100000 in
theorem C3_stream_decoder_witness :
    holdsText stringsReader id ∧
    EncodeToString [72, 105, 33] = some [46, 54, 57, 88, 48] ∧
    id ([46, 54, 57, 88, 48] : List Byte) = [46, 54, 57, 88, 48] ∧
    3 ≤ 3 ∧
    (∀ p ∈ ([[0], [0, 0], [0], [0]] : List (List Byte)), 1 ≤ p.length) ∧
    ∃ out e, decoder.ReadSeq stringsReader 3 (NewDecoder [46, 54, 57, 88, 48])
        [[0], [0, 0], [0], [0]] = some (out, e) ∧
      (∃ rest, [72, 105, 33] = out ++ rest) ∧
      (e = none ∨ (e = some Error.EOF ∧ out = [72, 105, 33])) ∧
      (([72, 105, 33] : List Byte).length < ([[0], [0, 0], [0], [0]] : List (List Byte)).length →
        out = [72, 105, 33] ∧ e = some Error.EOF) :=
  ⟨stringsReader_holdsText, by decide, rfl, by decide, by decide,
    C3_stream_decoder stringsReader id stringsReader_holdsText [72, 105, 33]
      [46, 54, 57, 88, 48] (by decide) [46, 54, 57, 88, 48] rfl 3 (by decide)
      [[0], [0, 0], [0], [0]] (by decide)⟩

/-- C4. `Decode` fails exactly on corrupt input: with
`len(dst) >= DecodedLen(len(src))` it returns, its error is nil if and only if
every byte of `src` is in the alphabet, `len(src) mod 3` is not 1 and every
complete 3-character block has value `c0 + 45*c1 + 2025*c2 <= 65535`, and in
every other case the error is a `CorruptInputError`. -/
theorem C4_Decode_error_iff (src dst : List Byte) (h : DecodedLen src.length ≤ dst.length) :
    ∃ out n err, Decode dst src = some (out, n, err) ∧
      (err = none ↔ ((∀ c ∈ src, c ∈ encode) ∧ src.length % 3 ≠ 1 ∧
        ∀ k, k < src.length / 3 → blockAt src k ≤ 65535)) ∧
      (err ≠ none → ∃ off, err = some (Error.CorruptInputError off)) := by
  refine ⟨(decodeResult 0 src [] dst).1, (decodeResult 0 src [] dst).2.1, (dec 0 src).2,
    Decode_spec dst src h, ?_, ?_⟩
  · rw [dec_err_none_iff]
    simp only [mem_encode_iff]
    have e : ∀ k, 3 * k + 2 < src.length ↔ k < src.length / 3 := fun k => by omega
    simp only [e]
  · intro he
    match hd : (dec 0 src).2, he with
    | some e, _ =>
      obtain ⟨o, ho⟩ := dec_err_corrupt src 0 e hd
      exact ⟨o, by rw [ho]⟩

theorem C4_Decode_error_iff_witness :
    DecodedLen ([70, 71, 87] : List Byte).length ≤ ([0, 0] : List Byte).length ∧
    ∃ out n err, Decode [0, 0] [70, 71, 87] = some (out, n, err) ∧
      (err = none ↔ ((∀ c ∈ ([70, 71, 87] : List Byte), c ∈ encode) ∧
        ([70, 71, 87] : List Byte).length % 3 ≠ 1 ∧
        ∀ k, k < ([70, 71, 87] : List Byte).length / 3 → blockAt [70, 71, 87] k ≤ 65535)) ∧
      (err ≠ none → ∃ off, err = some (Error.CorruptInputError off)) :=
  ⟨by decide, C4_Decode_error_iff [70, 71, 87] [0, 0] (by decide)⟩

/-- C5. Value overflow is reported after the block, and its two bytes are
still emitted: when the first `k` complete blocks of `src` are valid and the
next complete block is made of alphabet characters with value
`c0 + 45*c1 + 2025*c2 > 65535`, `Decode` (with
`len(dst) >= DecodedLen(len(src))`) returns the count `2k+2` with
`CorruptInputError(3k+3)`, the two bytes at `2k` and `2k+1` being the value
divided by 256 and the value modulo 256, truncated to a byte. -/
theorem C5_overflow_after_block (src dst : List Byte) (k : Nat)
    (hlen : 3 * k + 3 ≤ src.length) (hdst : DecodedLen src.length ≤ dst.length)
    (halpha : ∀ i, i < 3 * k + 3 → src.getD i 0 ∈ encode)
    (hvalid : ∀ j, j < k → blockAt src j ≤ 65535)
    (hover : blockAt src k > 65535) :
    ∃ out, Decode dst src
        = some (out, 2 * k + 2, some (Error.CorruptInputError (3 * (k : Int) + 3))) ∧
      out.getD (2 * k) 0 = toByte (blockAt src k / 256) ∧
      out.getD (2 * k + 1) 0 = toByte (blockAt src k % 256) := by
  obtain ⟨pre, hpre, hdec⟩ := dec_valid_prefix k src 0 (by omega)
    (fun i hi => (mem_encode_iff _).mp (halpha i (by omega))) hvalid
  obtain ⟨c0, c1, c2, rest, hdrop⟩ : ∃ c0 c1 c2 rest, src.drop (3 * k) = c0 :: c1 :: c2 :: rest := by
    have hl : (src.drop (3 * k)).length ≥ 3 := by simp only [List.length_drop]; omega
    match src.drop (3 * k), hl with
    | c0 :: c1 :: c2 :: rest, _ => exact ⟨c0, c1, c2, rest, rfl⟩
  have g0 : src.getD (3 * k) 0 = c0 := getD_eq_of_drop _ _ _ _ _ hdrop
  have g1 : src.getD (3 * k + 1) 0 = c1 := by
    rw [getD_eq_of_drop_add _ _ _ _ _ hdrop]; rfl
  have g2 : src.getD (3 * k + 2) 0 = c2 := by
    rw [getD_eq_of_drop_add _ _ _ _ _ hdrop]; rfl
  have a0 : dm c0 ≠ 255 := by rw [← g0]; exact (mem_encode_iff _).mp (halpha _ (by omega))
  have a1 : dm c1 ≠ 255 := by rw [← g1]; exact (mem_encode_iff _).mp (halpha _ (by omega))
  have a2 : dm c2 ≠ 255 := by rw [← g2]; exact (mem_encode_iff _).mp (halpha _ (by omega))
  have hb : blockAt src k = blockVal c0 c1 c2 := by simp only [blockAt, g0, g1, g2]
  rw [hb] at hover ⊢
  have hv : blockVal c0 c1 c2 > 0xFFFF := hover
  have hd : dec 0 src = (pre ++ [toByte (blockVal c0 c1 c2 / 256),
      toByte (blockVal c0 c1 c2 % 256)], some (Error.CorruptInputError (3 * (k : Int) + 3))) := by
    rw [hdec, hdrop]
    simp only [dec, decBlock, a0, a1, a2, hv, or_self, if_false, if_true, ne_eq,
      not_false_eq_true, reduceCtorEq]
    congr 3
    push_cast
    omega
  have hres : decodeResult 0 src [] dst
      = (pre ++ (toByte (blockVal c0 c1 c2 / 256) :: toByte (blockVal c0 c1 c2 % 256)
            :: dst.drop (2 * k + 2)),
          2 * k + 2, some (Error.CorruptInputError (3 * (k : Int) + 3))) := by
    simp [decodeResult, hd, hpre]
  refine ⟨_, (Decode_spec dst src hdst).trans (congrArg some hres), ?_, ?_⟩
  · rw [← hpre, List.getD_eq_getElem?_getD, getElem?_at pre _ _ _ rfl]
    rfl
  · have := getElem?_at (pre ++ [toByte (blockVal c0 c1 c2 / 256)])
      (toByte (blockVal c0 c1 c2 % 256)) (dst.drop (pre.length + 2)) (pre.length + 1) (by simp)
    simp only [List.append_assoc, List.singleton_append] at this
    rw [← hpre, List.getD_eq_getElem?_getD, this]
    rfl


theorem C5_overflow_after_block_witness :
    3 * 0 + 3 ≤ ([71, 71, 87] : List Byte).length ∧
    DecodedLen ([71, 71, 87] : List Byte).length ≤ ([7, 7] : List Byte).length ∧
    (∀ i, i < 3 * 0 + 3 → ([71, 71, 87] : List Byte).getD i 0 ∈ encode) ∧
    (∀ j, j < 0 → blockAt [71, 71, 87] j ≤ 65535) ∧
    blockAt [71, 71, 87] 0 > 65535 ∧
    ∃ out, Decode [7, 7] [71, 71, 87]
        = some (out, 2 * 0 + 2, some (Error.CorruptInputError (3 * ((0 : Nat) : Int) + 3))) ∧
      out.getD (2 * 0) 0 = toByte (blockAt [71, 71, 87] 0 / 256) ∧
      out.getD (2 * 0 + 1) 0 = toByte (blockAt [71, 71, 87] 0 % 256) :=
  ⟨by decide, by decide, by decide, by decide, by decide,
    C5_overflow_after_block [71, 71, 87] [7, 7] 0 (by decide) (by decide) (by decide)
      (by decide) (by decide)⟩

set_option maxRecDepth 100000 in
/-- C6, the code at two failing inputs: an invalid character in position 0
or 2 of its block is reported at offset 1 (block start plus one), not at its
own offset 0 or 2; only in position 1 does the offset name the character. -/
theorem C6_invalid_char_offset_eval :
    DecodeString (asciiBytes "aFW") = some ([], some (Error.CorruptInputError 1)) ∧
    DecodeString (asciiBytes "FWa") = some ([], some (Error.CorruptInputError 1)) ∧
    DecodeString (asciiBytes "FaW") = some ([], some (Error.CorruptInputError 1)) := by
  decide

/-- C7. A dangling single trailing character is rejected at its own offset:
when `len(src) mod 3 = 1`, every byte of `src` is an alphabet character and
every complete block is valid, `Decode` (with
`len(dst) >= DecodedLen(len(src))`) returns the count `2*(len(src) div 3)` and
`CorruptInputError(len(src) - 1)`. -/
theorem C7_dangling_character (src dst : List Byte)
    (hmod : src.length % 3 = 1) (hdst : DecodedLen src.length ≤ dst.length)
    (halpha : ∀ c ∈ src, c ∈ encode)
    (hvalid : ∀ j, j < src.length / 3 → blockAt src j ≤ 65535) :
    ∃ out, Decode dst src
        = some (out, 2 * (src.length / 3),
            some (Error.CorruptInputError ((src.length : Int) - 1))) := by
  have hget : ∀ i, i < src.length → dm (src.getD i 0) ≠ 255 := by
    intro i hi
    rw [List.getD_eq_getElem _ _ hi]
    exact (mem_encode_iff _).mp (halpha _ (List.getElem_mem _))
  obtain ⟨pre, hpre, hdec⟩ := dec_valid_prefix (src.length / 3) src 0 (by omega)
    (fun i hi => hget i (by omega)) hvalid
  obtain ⟨c0, hdrop⟩ : ∃ c0, src.drop (3 * (src.length / 3)) = [c0] := by
    have hl : (src.drop (3 * (src.length / 3))).length = 1 := by
      simp only [List.length_drop]; omega
    match src.drop (3 * (src.length / 3)), hl with
    | [c0], _ => exact ⟨c0, rfl⟩
  have g0 : src.getD (3 * (src.length / 3)) 0 = c0 := getD_eq_of_drop _ _ _ _ _ hdrop
  have a0 : dm c0 ≠ 255 := by rw [← g0]; exact hget _ (by omega)
  have hd : dec 0 src = (pre, some (Error.CorruptInputError ((src.length : Int) - 1))) := by
    rw [hdec, hdrop]
    simp only [dec, decBlock, a0, if_false, List.append_nil]
    congr 3
    push_cast
    omega
  have hres : decodeResult 0 src [] dst
      = (pre ++ dst.drop (2 * (src.length / 3)), 2 * (src.length / 3),
          some (Error.CorruptInputError ((src.length : Int) - 1))) := by
    simp [decodeResult, hd, hpre]
  exact ⟨_, (Decode_spec dst src hdst).trans (congrArg some hres)⟩

set_option maxRecDepth 100000 in
theorem C7_dangling_character_witness :
    ([70, 71, 87, 65] : List Byte).length % 3 = 1 ∧
    DecodedLen ([70, 71, 87, 65] : List Byte).length ≤ ([0, 0, 0] : List Byte).length ∧
    (∀ c ∈ ([70, 71, 87, 65] : List Byte), c ∈ encode) ∧
    (∀ j, j < ([70, 71, 87, 65] : List Byte).length / 3 →
      blockAt [70, 71, 87, 65] j ≤ 65535) ∧
    ∃ out, Decode [0, 0, 0] [70, 71, 87, 65]
        = some (out, 2 * (([70, 71, 87, 65] : List Byte).length / 3),
            some (Error.CorruptInputError ((([70, 71, 87, 65] : List Byte).length : Int) - 1))) :=
  ⟨by decide, by decide, by decide, by decide,
    C7_dangling_character [70, 71, 87, 65] [0, 0, 0] (by decide) (by decide) (by decide)
      (by decide)⟩

set_option maxRecDepth 100000 in
/-- C8. Known vectors: the five pairs of the test table, among them
`EncodeToString("AB") = "BB8"`, `EncodeToString("Hello!") = "%69 VD92E"` and
`EncodeToString("base-45") = "UJCLQE7W581"`. -/
theorem C8_known_vectors :
    EncodeToString (asciiBytes "AB") = some (asciiBytes "BB8") ∧
    EncodeToString (asciiBytes "Hello!") = some (asciiBytes "%69 VD92E") ∧
    EncodeToString (asciiBytes "Hello!!") = some (asciiBytes "%69 VD92EX0") ∧
    EncodeToString (asciiBytes "base-45") = some (asciiBytes "UJCLQE7W581") ∧
    EncodeToString (asciiBytes "base-45-") = some (asciiBytes "UJCLQE7W5NW6") := by
  decide

/-- C9. `Encode` writes exactly `EncodedLen(len(src))` characters and nothing
else: with `len(dst) >= EncodedLen(len(src))` it returns, `dst` keeps its
length, every position at index `>= EncodedLen(len(src))` holds its previous
value, and the first `EncodedLen(len(src))` positions are the same whatever
the previous content of the destination (`dst` or another buffer `dst2`);
`EncodedLen(n) = (n/2)*3 + (2 if n is odd else 0)`. -/
theorem C9_Encode_frame (src dst dst2 : List Byte)
    (h : EncodedLen src.length ≤ dst.length) (h2 : EncodedLen src.length ≤ dst2.length) :
    EncodedLen src.length = (src.length / 2) * 3 + (if src.length % 2 = 1 then 2 else 0) ∧
    ∃ out out2, Encode dst src = some out ∧ Encode dst2 src = some out2 ∧
      out.length = dst.length ∧
      (∀ i, EncodedLen src.length ≤ i → out[i]? = dst[i]?) ∧
      out.take (EncodedLen src.length) = out2.take (EncodedLen src.length) := by
  have hl := enc_length src
  refine ⟨?_, _, _, Encode_spec dst src h, Encode_spec dst2 src h2, ?_, ?_, ?_⟩
  · rw [EncodedLen_eq]; split <;> omega
  · simp only [List.length_append, List.length_drop, hl]; omega
  · intro i hi
    rw [List.getElem?_append_right (by omega), List.getElem?_drop, hl]
    congr 1; omega
  · rw [List.take_append_of_le_length (by omega), List.take_append_of_le_length (by omega)]

theorem C9_Encode_frame_witness :
    EncodedLen ([65, 66] : List Byte).length ≤ ([1, 2, 3, 4] : List Byte).length ∧
    EncodedLen ([65, 66] : List Byte).length ≤ ([9, 9, 9] : List Byte).length ∧
    (EncodedLen ([65, 66] : List Byte).length
        = (([65, 66] : List Byte).length / 2) * 3
          + (if ([65, 66] : List Byte).length % 2 = 1 then 2 else 0) ∧
    ∃ out out2, Encode [1, 2, 3, 4] [65, 66] = some out ∧ Encode [9, 9, 9] [65, 66] = some out2 ∧
      out.length = ([1, 2, 3, 4] : List Byte).length ∧
      (∀ i, EncodedLen ([65, 66] : List Byte).length ≤ i →
        out[i]? = ([1, 2, 3, 4] : List Byte)[i]?) ∧
      out.take (EncodedLen ([65, 66] : List Byte).length)
        = out2.take (EncodedLen ([65, 66] : List Byte).length)) :=
  ⟨by decide, by decide, C9_Encode_frame [65, 66] [1, 2, 3, 4] [9, 9, 9] (by decide) (by decide)⟩

/-- C10. Bounds safety: with `len(dst) >= DecodedLen(len(src))`, `Decode`
returns normally for every `src`, valid or corrupt (no index of `src` or `dst`
is out of range), and with `len(dst) >= EncodedLen(len(src))`, `Encode`
returns normally (no index of `src`, `dst` or the alphabet is out of range). -/
theorem C10_bounds_safety (src dstD dstE : List Byte)
    (hD : DecodedLen src.length ≤ dstD.length) (hE : EncodedLen src.length ≤ dstE.length) :
    (Decode dstD src).isSome = true ∧ (Encode dstE src).isSome = true := by
  rw [Decode_spec _ _ hD, Encode_spec _ _ hE]
  exact ⟨rfl, rfl⟩

theorem C10_bounds_safety_witness :
    DecodedLen ([71, 71, 87, 97] : List Byte).length ≤ ([0, 0, 0] : List Byte).length ∧
    EncodedLen ([71, 71, 87, 97] : List Byte).length ≤ ([0, 0, 0, 0, 0, 0] : List Byte).length ∧
    (Decode [0, 0, 0] [71, 71, 87, 97]).isSome = true ∧
    (Encode [0, 0, 0, 0, 0, 0] [71, 71, 87, 97]).isSome = true :=
  ⟨by decide, by decide,
    C10_bounds_safety [71, 71, 87, 97] [0, 0, 0] [0, 0, 0, 0, 0, 0] (by decide) (by decide)⟩



/-- C11. `DecodedLen` is an upper bound on the decoded size: with
`len(dst) >= DecodedLen(len(src))`, for every `src`, valid or corrupt,
`Decode` returns a count `n <= DecodedLen(len(src))`, and
`n = DecodedLen(len(src))` when the error is nil; here
`DecodedLen(m) = (m/3)*2 + (1 if m mod 3 != 0 else 0)`. -/
theorem C11_DecodedLen_bound (src dst : List Byte) (h : DecodedLen src.length ≤ dst.length) :
    DecodedLen src.length = (src.length / 3) * 2 + (if src.length % 3 ≠ 0 then 1 else 0) ∧
    ∃ out n err, Decode dst src = some (out, n, err) ∧ n ≤ DecodedLen src.length ∧
      (err = none → n = DecodedLen src.length) := by
  refine ⟨?_, (decodeResult 0 src [] dst).1, (dec 0 src).1.length, (dec 0 src).2, ?_,
    dec_length_le src 0, dec_length_eq src 0⟩
  · simp only [DecodedLen, chunkSize, encodedChunkSize]
    split <;> rfl
  · rw [Decode_spec dst src h]
    simp [decodeResult]

theorem C11_DecodedLen_bound_witness :
    DecodedLen ([71, 71, 87, 97] : List Byte).length ≤ ([0, 0, 0] : List Byte).length ∧
    (DecodedLen ([71, 71, 87, 97] : List Byte).length
        = (([71, 71, 87, 97] : List Byte).length / 3) * 2
          + (if ([71, 71, 87, 97] : List Byte).length % 3 ≠ 0 then 1 else 0) ∧
    ∃ out n err, Decode [0, 0, 0] [71, 71, 87, 97] = some (out, n, err) ∧
      n ≤ DecodedLen ([71, 71, 87, 97] : List Byte).length ∧
      (err = none → n = DecodedLen ([71, 71, 87, 97] : List Byte).length)) :=
  ⟨by decide, C11_DecodedLen_bound [71, 71, 87, 97] [0, 0, 0] (by decide)⟩

/-- C12. Encoder errors are sticky.  The sink is any `Writer`; `failed` reads
off the state of the sink the first error the sink has returned.  On an
encoder that has not failed, `Write` and `Close` return, the error they return
is the first error of the sink and is the error of the encoder from then on,
and the encoder stays sound; once that error is some `x`, every `Write`
returns `(0, x)` and every `Close` returns `x`, and both leave the encoder,
the state of the sink included, as it was, so the same holds of all later
calls. -/
theorem C12_encoder_errors_sticky {σ : Type} (W : Writer σ) (failed : σ → Option Error)
    (hlog : ∀ s c, failed (W.Write s c).1
      = if failed s = none then (W.Write s c).2.2 else failed s)
    (e : encoder σ) (p : List Byte)
    (hs : e.sound) (herr : e.err = none) (hfl : failed e.w = none) :
    (∃ e' n, encoder.Write W e p = some (e', n, failed e'.w) ∧ e'.sound ∧
      e'.err = failed e'.w ∧
      ∀ x, failed e'.w = some x → ∀ q,
        encoder.Write W e' q = some (e', 0, some x) ∧
        encoder.Close W e' = some (e', some x)) ∧
    (∃ e', encoder.Close W e = some (e', failed e'.w) ∧ e'.sound ∧
      e'.err = failed e'.w ∧
      ∀ x, failed e'.w = some x → ∀ q,
        encoder.Write W e' q = some (e', 0, some x) ∧
        encoder.Close W e' = some (e', some x)) := by
  constructor
  · obtain ⟨e', n, h, hs', he⟩ := Write_gen W failed hlog e p hs herr hfl
    exact ⟨e', n, by rw [← he]; exact h, hs', he,
      fun x hx q => failed_sticky W e' x (he.trans hx) q⟩
  · obtain ⟨e', h, hs', he⟩ := Close_gen W failed hlog e hs herr hfl
    exact ⟨e', by rw [← he]; exact h, hs', he,
      fun x hx q => failed_sticky W e' x (he.trans hx) q⟩

set_option maxRecDepth 100000 in
theorem C12_encoder_errors_sticky_witness :
    (encoder.Write (limitedBuffer 2 (Error.other 1)) (NewEncoder ([], none))
        [72, 105, 33]).map (fun r => (r.2.1, r.2.2, r.1.w, r.1.nbuf))
      = some (0, some (Error.other 1), ([], some (Error.other 1)), 0) ∧
    (∃ e' n, encoder.Write (limitedBuffer 2 (Error.other 1)) (NewEncoder ([], none))
        [72, 105, 33] = some (e', n, e'.w.2) ∧ e'.sound ∧
      e'.err = e'.w.2 ∧
      ∀ x, e'.w.2 = some x → ∀ q,
        encoder.Write (limitedBuffer 2 (Error.other 1)) e' q = some (e', 0, some x) ∧
        encoder.Close (limitedBuffer 2 (Error.other 1)) e' = some (e', some x)) ∧
    (∃ e', encoder.Close (limitedBuffer 2 (Error.other 1)) (NewEncoder ([], none))
        = some (e', e'.w.2) ∧ e'.sound ∧
      e'.err = e'.w.2 ∧
      ∀ x, e'.w.2 = some x → ∀ q,
        encoder.Write (limitedBuffer 2 (Error.other 1)) e' q = some (e', 0, some x) ∧
        encoder.Close (limitedBuffer 2 (Error.other 1)) e' = some (e', some x)) :=
  ⟨by decide, C12_encoder_errors_sticky (limitedBuffer 2 (Error.other 1)) (fun s => s.2)
    (limitedBuffer_log 2 (Error.other 1)) (NewEncoder ([], none)) [72, 105, 33]
    ⟨rfl, List.length_replicate _ _, fun _ => Nat.zero_le _⟩ rfl rfl⟩

set_option maxRecDepth 100000 in
/-- C13, the code at a failing input: the block "GGW" has the value 65536, so
`Decode` writes two bytes and returns `CorruptInputError(3)`.  A `Read` into a
1-byte buffer goes through the chunk step, which returns 1 byte together with
that error while a decoded byte is still left in `d.out`; the next `Read`
returns the byte left over and a nil error, not 0 bytes and the error, and
only the third returns `(0, CorruptInputError(3))`.  With a 2-byte buffer
nothing is left over and every later `Read` returns 0 bytes and the error. -/
theorem C13_leftover_before_error :
    decoder.ReadLog stringsReader 3 (NewDecoder (asciiBytes "GGW")) [[0], [0], [0]]
      = some [(1, some (Error.CorruptInputError 3)), (1, none),
          (0, some (Error.CorruptInputError 3))] ∧
    decoder.ReadLog stringsReader 3 (NewDecoder (asciiBytes "GGW")) [[0, 0], [0], [0, 0, 0]]
      = some [(2, some (Error.CorruptInputError 3)), (0, some (Error.CorruptInputError 3)),
          (0, some (Error.CorruptInputError 3))] := by
  decide

set_option maxRecDepth 100000 in
/-- C14, the code at a failing input: the text "BB8B" is the valid block "BB8"
followed by one dangling character.  Reading the decoder to the end delivers
"AB" and then the error returned by `Read` is `CorruptInputError(0)`, not
`io.ErrUnexpectedEOF`; with a dangling character outside the alphabet, as in
"BB8a", it is `CorruptInputError(1)`. -/
theorem C14_dangling_not_ErrUnexpectedEOF :
    decoder.ReadSeq stringsReader 3 (NewDecoder (asciiBytes "BB8B"))
        [List.replicate 4 0, List.replicate 4 0]
      = some (asciiBytes "AB", some (Error.CorruptInputError 0)) ∧
    decoder.ReadSeq stringsReader 3 (NewDecoder (asciiBytes "BB8a"))
        [List.replicate 4 0, List.replicate 4 0]
      = some (asciiBytes "AB", some (Error.CorruptInputError 1)) := by
  decide

/-- C15. The decode table is the exact inverse of the alphabet: the alphabet
is the 45 characters `0123456789ABCDEFGHIJKLMNOPQRSTUVWXYZ $%*+-./:`, they are
pairwise distinct, `decodeMap[encode[i]] = i` for every `i` in 0..44, a byte
`b` is outside the alphabet exactly when `decodeMap[b] = 255`, and 211 of the
256 entries of the table are 255. -/
theorem C15_decodeMap_inverse :
    encode = asciiBytes "0123456789ABCDEFGHIJKLMNOPQRSTUVWXYZ $%*+-./:" ∧
    encode.length = 45 ∧ encode.Nodup ∧ decodeMap.length = 256 ∧
    (∀ i : Fin 45, ∃ c, encode[i.val]? = some c ∧ decodeMap[c.val]? = some (toByte i.val)) ∧
    (∀ b : Byte, b ∉ encode ↔ decodeMap[b.val]? = some 255) ∧
    (decodeMap.filter (fun v => decide (v = 255))).length = 211 := by
  refine ⟨rfl, encode_length, encode_nodup, decodeMap_length, ?_, ?_, sentinel_count⟩
  · intro i
    refine ⟨alpha i.val, ?_, ?_⟩
    · have h := encode_get i.val
      have e : i.val % baseSize = i.val := Nat.mod_eq_of_lt i.isLt
      rw [e] at h
      exact h
    · rw [decodeMap_get]
      congr 1
      apply Fin.ext
      rw [dm_alpha i.val i.isLt, toByte_of_lt _ (by omega)]
  · intro b
    rw [decodeMap_get, mem_encode_iff]
    simp

/-- C16. A trailing short block is decoded modulo 256 without any range
check: for two alphabet characters with values `c0` and `c1`, `Decode` of the
2-character input made of them returns the count 1, a nil error and the single
byte `(c0 + 45*c1) mod 256`; the value `c0 + 45*c1` can be anything up to
2024. -/
theorem C16_short_block (c0 c1 : Byte) (dst : List Byte)
    (h0 : c0 ∈ encode) (h1 : c1 ∈ encode) (hd : 1 ≤ dst.length) :
    ∃ out, Decode dst [c0, c1] = some (out, 1, none) ∧
      out[0]? = some (toByte (((dm c0).val + 45 * (dm c1).val) % 256)) ∧
      (dm c0).val + 45 * (dm c1).val ≤ 2024 := by
  have a0 := (mem_encode_iff c0).mp h0
  have a1 := (mem_encode_iff c1).mp h1
  have hv : ¬ (dm c0 = 255 ∨ dm c1 = 255) := not_or.mpr ⟨a0, a1⟩
  have hle := shortVal_le c0 c1 a0 a1
  simp only [shortVal, baseSize] at hle
  have hD : DecodedLen ([c0, c1] : List Byte).length ≤ dst.length := by
    simpa [DecodedLen, chunkSize, encodedChunkSize] using hd
  have hres : decodeResult 0 [c0, c1] [] dst
      = (toByte (((dm c0).val + 45 * (dm c1).val) % 256) :: dst.drop 1, 1, none) := by
    simp [decodeResult, dec, decBlock, hv, shortVal, baseSize]
  exact ⟨_, (Decode_spec dst [c0, c1] hD).trans (congrArg some hres), by simp, hle⟩

set_option maxRecDepth 100000 in
theorem C16_short_block_witness :
    (58 : Byte) ∈ encode ∧ (58 : Byte) ∈ encode ∧ 1 ≤ ([7] : List Byte).length ∧
    ∃ out, Decode [7] [58, 58] = some (out, 1, none) ∧
      out[0]? = some (toByte (((dm 58).val + 45 * (dm 58).val) % 256)) ∧
      (dm 58).val + 45 * (dm 58).val ≤ 2024 :=
  ⟨by decide, by decide, by decide, C16_short_block 58 58 [7] (by decide) (by decide) (by decide)⟩

set_option maxRecDepth 100000 in
/-- C17, the code at a failing input: the text "BB8BB8" encodes "ABAB".  From
a source that returns it in pieces of at most 5 bytes, a `Read` with a 10-byte
buffer finds 5 characters buffered and decodes all 5 of them, the last two as
a short block, so the decoder delivers the bytes 65, 66, 250 and then fails
with `CorruptInputError(0)` on the character left; from a source that returns
the text whole the same calls deliver "ABAB" and then `io.EOF`, as one-shot
decoding does. -/
theorem C17_fragmented_source_eval :
    decoder.ReadSeq (chunkedReader 5) 3 (NewDecoder (asciiBytes "BB8BB8"))
        [List.replicate 10 0, List.replicate 10 0]
      = some ([65, 66, 250], some (Error.CorruptInputError 0)) ∧
    decoder.ReadSeq stringsReader 3 (NewDecoder (asciiBytes "BB8BB8"))
        [List.replicate 10 0, List.replicate 10 0]
      = some (asciiBytes "ABAB", some Error.EOF) ∧
    DecodeString (asciiBytes "BB8BB8") = some (asciiBytes "ABAB", none) := by
  decide

/-- C18. The encoder emits a short block only at `Close`: with a sink that
never fails, a `Write` of `p` on an encoder that has not failed and holds
`nbuf` pending bytes (0 or 1) returns `(len(p), nil)`, adds to the sink exactly
the `3 * ((nbuf + len(p)) / 2)` characters that encode the whole 2-byte blocks
of the pending bytes followed by `p`, and leaves `(nbuf + len(p)) mod 2`
pending bytes, the encoder being again as before; the 2 characters of a
pending byte are added by `Close`. -/
theorem C18_short_block_only_at_Close {σ : Type} (W : Writer σ) (held : σ → List Byte)
    (hW : ∀ s p, (W.Write s p).2.2 = none ∧ held (W.Write s p).1 = held s ++ p)
    (e : encoder σ) (p : List Byte)
    (herr : e.err = none) (hbuf : e.buf.length = 2) (hout : e.out.length = 1024)
    (hnb : e.nbuf ≤ 1) :
    ∃ e' text, encoder.Write W e p = some (e', p.length, none) ∧
      EncodeToString ((e.buf.take e.nbuf ++ p).take (2 * ((e.nbuf + p.length) / 2)))
        = some text ∧
      held e'.w = held e.w ++ text ∧ text.length = 3 * ((e.nbuf + p.length) / 2) ∧
      e'.nbuf = (e.nbuf + p.length) % 2 ∧
      e'.buf.take e'.nbuf = (e.buf.take e.nbuf ++ p).drop (2 * ((e.nbuf + p.length) / 2)) ∧
      e'.err = none ∧ e'.buf.length = 2 ∧ e'.out.length = 1024 ∧
      ∃ e'' tail, encoder.Close W e' = some (e'', none) ∧
        EncodeToString (e'.buf.take e'.nbuf) = some tail ∧
        held e''.w = held e'.w ++ tail ∧ tail.length = 2 * e'.nbuf := by
  obtain ⟨e', hw, r1, r2, r3, r4, r5, r6⟩ := Write_rel W held hW e p herr hbuf hout hnb
  have hnb' : e'.nbuf ≤ 1 := by rw [r4]; omega
  obtain ⟨e'', hc, _, c2⟩ := Close_rel W held hW e' r1 r2 r3 hnb'
  refine ⟨e', _, hw, EncodeToString_eq _, r5, ?_, r4, r6, r1, r2, r3, e'', _, hc,
    EncodeToString_eq _, c2, ?_⟩
  · have hl : ((e.buf.take e.nbuf ++ p).take (2 * ((e.nbuf + p.length) / 2))).length
        = 2 * ((e.nbuf + p.length) / 2) := by
      simp only [List.length_take, List.length_append]; omega
    exact enc_length_even _ _ hl
  · rw [enc_length, EncodedLen_eq]
    simp only [List.length_take]
    have : min e'.nbuf e'.buf.length = e'.nbuf := by omega
    rw [this]
    omega

theorem C18_short_block_only_at_Close_witness :
    (∀ s p, (bytesBuffer.Write s p).2.2 = none ∧ id (bytesBuffer.Write s p).1 = id s ++ p) ∧
    (NewEncoder ([] : List Byte)).err = none ∧
    (NewEncoder ([] : List Byte)).buf.length = 2 ∧
    (NewEncoder ([] : List Byte)).out.length = 1024 ∧
    (NewEncoder ([] : List Byte)).nbuf ≤ 1 ∧
    ∃ e' text, encoder.Write bytesBuffer (NewEncoder []) [72, 105, 33]
        = some (e', ([72, 105, 33] : List Byte).length, none) ∧
      EncodeToString (((NewEncoder ([] : List Byte)).buf.take (NewEncoder ([] : List Byte)).nbuf
          ++ [72, 105, 33]).take
            (2 * (((NewEncoder ([] : List Byte)).nbuf + ([72, 105, 33] : List Byte).length) / 2)))
        = some text ∧
      id e'.w = id (NewEncoder ([] : List Byte)).w ++ text ∧
      text.length
        = 3 * (((NewEncoder ([] : List Byte)).nbuf + ([72, 105, 33] : List Byte).length) / 2) ∧
      e'.nbuf = ((NewEncoder ([] : List Byte)).nbuf + ([72, 105, 33] : List Byte).length) % 2 ∧
      e'.buf.take e'.nbuf
        = ((NewEncoder ([] : List Byte)).buf.take (NewEncoder ([] : List Byte)).nbuf
            ++ [72, 105, 33]).drop
            (2 * (((NewEncoder ([] : List Byte)).nbuf + ([72, 105, 33] : List Byte).length) / 2)) ∧
      e'.err = none ∧ e'.buf.length = 2 ∧ e'.out.length = 1024 ∧
      ∃ e'' tail, encoder.Close bytesBuffer e' = some (e'', none) ∧
        EncodeToString (e'.buf.take e'.nbuf) = some tail ∧
        id e''.w = id e'.w ++ tail ∧ tail.length = 2 * e'.nbuf :=
  ⟨fun _ _ => ⟨rfl, rfl⟩, rfl, rfl, List.length_replicate _ _, Nat.zero_le _,
    C18_short_block_only_at_Close bytesBuffer id (fun _ _ => ⟨rfl, rfl⟩) (NewEncoder [])
      [72, 105, 33] rfl rfl (List.length_replicate _ _) (Nat.zero_le _)⟩

set_option maxRecDepth 100000 in
/-- C19. Re-encoding a decoded text gives the text back when it is canonical:
when `DecodeString(s)` returns the bytes `b` and a nil error, and the trailing
2-character block of `s`, if there is one, has value `c0 + 45*c1 <= 255`, then
`EncodeToString(b) = s`.  The proviso is needed: `"00"` and `"V5"` are both
accepted and decode to the single byte 0. -/
theorem C19_reencode_canonical (s b : List Byte) (h : DecodeString s = some (b, none))
    (hc : s.length % 3 = 2 →
      (dm (s.getD (s.length - 2) 0)).val + 45 * (dm (s.getD (s.length - 1) 0)).val ≤ 255) :
    EncodeToString b = some s ∧
    DecodeString (asciiBytes "00") = some ([0], none) ∧
    DecodeString (asciiBytes "V5") = some ([0], none) := by
  refine ⟨?_, by decide, by decide⟩
  rw [DecodeString_eq] at h
  have hb : (dec 0 s).1 = b := congrArg Prod.fst (Option.some.inj h)
  have he : (dec 0 s).2 = none := congrArg Prod.snd (Option.some.inj h)
  rw [EncodeToString_eq, ← hb]
  congr 1
  apply enc_dec s 0 he
  intro pre c0 c1 hs hp
  have hl : s.length = pre.length + 2 := by rw [hs]; simp
  have g0 : s.getD (s.length - 2) 0 = c0 := by
    have e : s.length - 2 = pre.length := by omega
    rw [e, hs, List.getD_eq_getElem?_getD, getElem?_at pre c0 [c1] _ rfl]
    rfl
  have g1 : s.getD (s.length - 1) 0 = c1 := by
    have e : s.length - 1 = pre.length + 1 := by omega
    have := getElem?_at (pre ++ [c0]) c1 [] (pre.length + 1) (by simp)
    simp only [List.append_assoc, List.singleton_append] at this
    rw [e, hs, List.getD_eq_getElem?_getD, this]
    rfl
  have := hc (by omega)
  rw [g0, g1] at this
  simpa only [shortVal, baseSize] using this

set_option maxRecDepth 100000 in
theorem C19_reencode_canonical_witness :
    DecodeString [66, 66, 56, 70, 49] = some ([65, 66, 60], none) ∧
    (([66, 66, 56, 70, 49] : List Byte).length % 3 = 2 →
      (dm (([66, 66, 56, 70, 49] : List Byte).getD
          (([66, 66, 56, 70, 49] : List Byte).length - 2) 0)).val
        + 45 * (dm (([66, 66, 56, 70, 49] : List Byte).getD
          (([66, 66, 56, 70, 49] : List Byte).length - 1) 0)).val ≤ 255) ∧
    (EncodeToString [65, 66, 60] = some [66, 66, 56, 70, 49] ∧
    DecodeString (asciiBytes "00") = some ([0], none) ∧
    DecodeString (asciiBytes "V5") = some ([0], none)) :=
  ⟨by decide, by decide,
    C19_reencode_canonical [66, 66, 56, 70, 49] [65, 66, 60] (by decide) (by decide)⟩

/-- C20. The stream decoder stays within its buffers.  The source is any
`Reader` whose reads return at most the requested number of bytes; a decoder
is sound when its arrays have their declared lengths, at most one character
is carried between calls and `d.out` is a window of `d.outbuf`, as holds of a
new decoder.  For a sound decoder and a destination `p` of any length: `Read`
returns, unless the refill loop is still running when the fuel is used up
(the only way the model gives `none`, so no index or slice is out of range),
and then the decoder is sound again, `0 <= n <= len(p)` and `p` keeps its
length; every state of the refill loop has `nbuf <= 1024`; the call of
`Decode` made after the loop has a destination of at least `DecodedLen` of
the length of its source; and over a source that returns a byte or an error
at each read of a non-empty slice, fuel 4 is enough for `Read` to return. -/
theorem C20_decoder_in_bounds {ρ : Type} (R : Reader ρ)
    (hR : ∀ s m, (R.Read s m).2.1.length ≤ m)
    (fuel : Nat) (d : decoder ρ) (p : List Byte) (hs : d.sound) :
    (∀ r : ρ, (NewDecoder r).sound) ∧
    ((decoder.Read R fuel d p = none ∧ decoder.Read.running R p.length fuel d = true) ∨
      ∃ d' p' n r, decoder.Read R fuel d p = some (d', p', n, r) ∧ d'.sound ∧
        n ≤ p.length ∧ p'.length = p.length) ∧
    (∀ k, ((decoder.Read.refillBody R p.length)^[k] d).buf.length = 1024 ∧
      ((decoder.Read.refillBody R p.length)^[k] d).nbuf ≤ 1024) ∧
    (∀ d1 dst src, decoder.Read.refill R p.length fuel d = some d1 →
      decoder.Read.decodeCall d1 p = some (dst, src) → DecodedLen src ≤ dst) ∧
    ((∀ s m, 0 < m → (R.Read s m).2.1 ≠ [] ∨ (R.Read s m).2.2 ≠ none) → 4 ≤ fuel →
      ∃ res, decoder.Read R fuel d p = some res) := by
  obtain ⟨hn3, hn1024, _⟩ := refillLen_spec p.length
  have hgen := Read_gen R hR fuel d p hs
  obtain ⟨hbuf, hob, hnb, hw1, hw2⟩ := hs
  refine ⟨NewDecoder_sound, ?_, ?_, ?_, ?_⟩
  · rcases hgen with h | ⟨d', p', n, r, h1, h2, h3, h4, _⟩
    · exact Or.inl h
    · exact Or.inr ⟨d', p', n, r, h1, h2, h3, h4⟩
  · intro k
    obtain ⟨h1, h2⟩ := refill_states R hR p.length k d hbuf (by omega)
    exact ⟨h1, by omega⟩
  · intro d1 dst src hrf hcall
    rcases refill_gen R hR p.length fuel d hbuf (by omega) with
      ⟨h1, _⟩ | ⟨d1', h1, _, _, hn1, _, _, _, _, e3⟩
    · rw [h1] at hrf
      exact absurd hrf (by simp)
    · rw [h1] at hrf
      have e : d1' = d1 := Option.some.inj hrf
      subst e
      exact decodeCall_bound d1' p (by rw [e3]; exact hob) (by omega) dst src hcall
  · intro hprog hfuel
    rcases hgen with ⟨_, h2⟩ | ⟨d', p', n, r, h1, _⟩
    · obtain ⟨k, rfl⟩ : ∃ k, fuel = k + 1 := ⟨fuel - 1, by omega⟩
      have := running_progress R hR hprog p.length k d hbuf (by omega) h2
      omega
    · exact ⟨_, h1⟩

theorem C20_decoder_in_bounds_witness :
    (∀ r : List Byte, (NewDecoder r).sound) ∧
    ((decoder.Read stringsReader 4 (NewDecoder (asciiBytes "BB8")) [] = none ∧
        decoder.Read.running stringsReader ([] : List Byte).length 4
          (NewDecoder (asciiBytes "BB8")) = true) ∨
      ∃ d' p' n r, decoder.Read stringsReader 4 (NewDecoder (asciiBytes "BB8")) []
          = some (d', p', n, r) ∧ d'.sound ∧
        n ≤ ([] : List Byte).length ∧ p'.length = ([] : List Byte).length) ∧
    (∀ k, ((decoder.Read.refillBody stringsReader ([] : List Byte).length)^[k]
          (NewDecoder (asciiBytes "BB8"))).buf.length = 1024 ∧
      ((decoder.Read.refillBody stringsReader ([] : List Byte).length)^[k]
          (NewDecoder (asciiBytes "BB8"))).nbuf ≤ 1024) ∧
    (∀ d1 dst src, decoder.Read.refill stringsReader ([] : List Byte).length 4
          (NewDecoder (asciiBytes "BB8")) = some d1 →
      decoder.Read.decodeCall d1 [] = some (dst, src) → DecodedLen src ≤ dst) ∧
    ((∀ s m, 0 < m →
        (stringsReader.Read s m).2.1 ≠ [] ∨ (stringsReader.Read s m).2.2 ≠ none) → 4 ≤ 4 →
      ∃ res, decoder.Read stringsReader 4 (NewDecoder (asciiBytes "BB8")) [] = some res) :=
  C20_decoder_in_bounds stringsReader stringsReader_bounded 4 (NewDecoder (asciiBytes "BB8")) []
    (NewDecoder_sound _)

end Base45
